import Mathlib

/-!
Verification of the syncdir directory-synchronization tool (src/main.go)
against its specification.

The embedding models the Unix build of the program: `os.PathSeparator`
is '/', `runtime.GOOS != "windows"` (so backslash escapes are active in
`filepath.Match`), and Go strings are modelled as lists of characters
(`Str`).  File contents are byte lists; the SHA-1 digest is modelled as
an injective digest (the spec treats hash collisions as negligible, so
digest equality is content equality).  Timestamps are integers counting
nanoseconds, matching Go's `time.Time` subtraction that the code
compares against `time.Second`.

Recursive walks over filesystem trees take an explicit fuel argument so
that every definition is executable by kernel reduction; fuel exhaustion
is reported as a distinguished error that a successful run never shows.
-/

namespace Syncdir

/-- A Go string, modelled as its list of characters. -/
abbrev Str := List Char

/-- `os.PathSeparator` for the Unix build. -/
def sep : Char := '/'

/-- Convenience conversion from a Lean string literal. -/
def str (s : String) : Str := s.data

/-! ### filepath.Match (Go standard library, Unix build)

`shouldExclude` in src/main.go calls `filepath.Match(p, base)` and
discards the error.  The matcher below is a faithful port of the Go
standard library algorithm (`scanChunk`, `matchChunk`, `getEsc` and the
star-backtracking loop of `Match`). -/

/-- Outcome of a failed `filepath.Match`: `ErrBadPattern`, or fuel
exhaustion of the bounded model (never produced for the fuel the
wrappers pass). -/
inductive MatchErr where
  | badPattern
  | fuel
deriving DecidableEq

/-- Leading-star stripping of Go's `scanChunk`: consumes the maximal
run of leading stars, reporting whether there was at least one. -/
def stripStars : Str → Bool × Str
  | [] => (false, [])
  | c :: rest =>
    if c = '*' then (true, (stripStars rest).2) else (false, c :: rest)

/-- Scan loop of Go's `scanChunk`: cut the pattern at the first
top-level star, tracking bracket ranges and skipping the character
after a backslash. -/
def scanBody : Str → Bool → Str × Str
  | [], _ => ([], [])
  | c :: rest, inrange =>
    if c = '*' && !inrange then ([], c :: rest)
    else if c = '\\' then
      match rest with
      | [] => ([c], [])
      | d :: rest2 =>
        let p := scanBody rest2 inrange
        (c :: d :: p.1, p.2)
    else
      let inr := if c = '[' then true else if c = ']' then false else inrange
      let p := scanBody rest inr
      (c :: p.1, p.2)

/-- Go `scanChunk`: `(star, chunk, rest)`. -/
def scanChunk (p : Str) : Bool × Str × Str :=
  let s := stripStars p
  let q := scanBody s.2 false
  (s.1, q.1, q.2)

/-- Go `getEsc`: read one possibly-escaped character of a bracket
range; `ErrBadPattern` when the class is malformed or unterminated. -/
def getEsc : Str → Except MatchErr (Char × Str)
  | [] => .error .badPattern
  | c :: rest =>
    if c = '-' || c = ']' then .error .badPattern
    else if c = '\\' then
      match rest with
      | [] => .error .badPattern
      | d :: rest2 =>
        if rest2.isEmpty then .error .badPattern else .ok (d, rest2)
    else if rest.isEmpty then .error .badPattern else .ok (c, rest)

/-- Range-parsing loop of `matchChunk` for a `[...]` class positioned
after the optional `^`.  Returns whether `r` belongs to some range and
the chunk remainder after the closing bracket. -/
def parseRanges : Nat → Str → Char → Bool → Nat → Except MatchErr (Bool × Str)
  | 0, _, _, _, _ => .error .fuel
  | f + 1, chunk, r, matched, nrange =>
    if chunk.head? = some ']' ∧ 0 < nrange then .ok (matched, chunk.tail)
    else
      match getEsc chunk with
      | .error e => .error e
      | .ok (lo, chunk1) =>
        match chunk1 with
        | '-' :: chunk2 =>
          match getEsc chunk2 with
          | .error e => .error e
          | .ok (hi, chunk3) =>
            parseRanges f chunk3 r (matched || (lo ≤ r && r ≤ hi)) (nrange + 1)
        | _ => parseRanges f chunk1 r (matched || (lo ≤ r && r ≤ lo)) (nrange + 1)

/-- Go `matchChunk`: match a star-free chunk at the front of `s`.
`.ok (some t)` is a match with remainder `t`; `.ok none` is a clean
mismatch; `.error` is a malformed pattern.  After a mismatch the chunk
is still consumed to completion so that syntax errors are detected,
exactly as the Go `failed` flag does. -/
def matchChunk : Nat → Str → Str → Bool → Except MatchErr (Option Str)
  | 0, _, _, _ => .error .fuel
  | f + 1, chunk, s, failed0 =>
    match chunk with
    | [] => .ok (if failed0 then none else some s)
    | c :: rest =>
      let failed := failed0 || s.isEmpty
      if c = '[' then
        let r : Char := if failed then Char.ofNat 0 else s.headD (Char.ofNat 0)
        let s2 := if failed then s else s.tail
        let negCh := rest.head? = some '^'
        let rest2 := if negCh then rest.tail else rest
        match parseRanges (rest2.length + 1) rest2 r false 0 with
        | .error e => .error e
        | .ok (m, chunk2) =>
          matchChunk f chunk2 s2 (failed || (m = negCh))
      else if c = '?' then
        matchChunk f rest (if failed then s else s.tail)
          (failed || s.head? == some sep)
      else if c = '\\' then
        match rest with
        | [] => .error .badPattern
        | d :: rest2 =>
          matchChunk f rest2 (if failed then s else s.tail)
            (failed || !(s.head? == some d))
      else
        matchChunk f rest (if failed then s else s.tail)
          (failed || !(s.head? == some c))

/-- Star-backtracking loop of Go `Match`: try the chunk at every
position of `name` up to (not across) the next separator.  `lastChunk`
records whether the remaining pattern is empty, in which case a match
must consume the whole name. -/
def starLoop (cf : Nat) (chunk : Str) (lastChunk : Bool) : Str → Except MatchErr (Option Str)
  | [] => .ok none
  | c :: ns =>
    if c = sep then .ok none
    else
      match matchChunk cf chunk ns false with
      | .error e => .error e
      | .ok (some t) =>
        if lastChunk && !t.isEmpty then starLoop cf chunk lastChunk ns
        else .ok (some t)
      | .ok none => starLoop cf chunk lastChunk ns

/-- Trailing syntax validation of Go `Match`: before returning a clean
mismatch, check the rest of the pattern for `ErrBadPattern`. -/
def validateRest : Nat → Str → Except MatchErr Bool
  | 0, _ => .error .fuel
  | _, [] => .ok false
  | f + 1, p =>
    let sc := scanChunk p
    match matchChunk (sc.2.1.length + 1) sc.2.1 [] false with
    | .error e => .error e
    | .ok _ => validateRest f sc.2.2

/-- Main loop of Go `filepath.Match`. -/
def matchF : Nat → Str → Str → Except MatchErr Bool
  | 0, _, _ => .error .fuel
  | _, [], name => .ok name.isEmpty
  | f + 1, pattern, name =>
    let sc := scanChunk pattern
    let star := sc.1
    let chunk := sc.2.1
    let rest := sc.2.2
    if star && chunk.isEmpty then
      .ok (!name.contains sep)
    else
      match matchChunk (chunk.length + 1) chunk name false with
      | .error e => .error e
      | .ok (some t) =>
        if t.isEmpty || !rest.isEmpty then matchF f rest t
        else if star then
          match starLoop (chunk.length + 1) chunk rest.isEmpty name with
          | .error e => .error e
          | .ok (some t2) => matchF f rest t2
          | .ok none => validateRest (rest.length + 1) rest
        else validateRest (rest.length + 1) rest
      | .ok none =>
        if star then
          match starLoop (chunk.length + 1) chunk rest.isEmpty name with
          | .error e => .error e
          | .ok (some t2) => matchF f rest t2
          | .ok none => validateRest (rest.length + 1) rest
        else validateRest (rest.length + 1) rest

/-- Go `filepath.Match pattern name` (Unix build). -/
def filepathMatch (pattern name : Str) : Except MatchErr Bool :=
  matchF (pattern.length + 1) pattern name

/-- Go `filepath.Base` (Unix build). -/
def goBase (path : Str) : Str :=
  if path.isEmpty then ['.']
  else
    let p := (path.reverse.dropWhile (fun c => c = sep)).reverse
    if p.isEmpty then [sep]
    else (p.reverse.takeWhile (fun c => c ≠ sep)).reverse

/-- `strings.Contains s needle`: `needle` occurs as a contiguous
substring of `s`. -/
def containsSub (needle : Str) : Str → Bool
  | [] => needle.isEmpty
  | c :: rest => List.isPrefixOf needle (c :: rest) || containsSub needle rest

/-- `shouldExclude` from src/main.go: a relative path is excluded when
some pattern glob-matches its base name (match errors discarded), or
equals the path, or occurs between separators inside it, or is a
separator-terminated prefix of it. -/
def shouldExclude (rel : Str) (patterns : List Str) : Bool :=
  patterns.any fun p =>
    (match filepathMatch p (goBase rel) with
     | .ok b => b
     | .error _ => false)
    || p == rel
    || containsSub (sep :: (p ++ [sep])) rel
    || List.isPrefixOf (p ++ [sep]) rel

/-! ### File comparison (`sameFile`, src/main.go) -/

/-- Metadata of a regular file: its content bytes and its modification
time in nanoseconds.  `os.FileInfo.Size()` of a regular file is the
byte length of its content. -/
structure FileMeta where
  content : List Nat
  mtime : Int
deriving DecidableEq

/-- `time.Second` in nanoseconds. -/
def second : Int := 1000000000

/-- `absDuration` from src/main.go. -/
def absDuration (d : Int) : Int := if d < 0 then -d else d

/-- `FileInfo.Size()` of a regular file. -/
def fsize (m : FileMeta) : Nat := m.content.length

/-- `sha1sum` of a file, idealized as an injective digest of the
streamed content (the spec treats SHA-1 collisions as negligible). -/
def sha1sum (m : FileMeta) : List Nat := m.content

/-- `sameFile` from src/main.go, on the metadata of two regular files.
The model filesystem cannot fail a read, so the error return of the Go
function does not arise. -/
def sameFile (si di : FileMeta) (useChecksum : Bool) : Bool :=
  if fsize si = fsize di ∧ absDuration (si.mtime - di.mtime) ≤ second then
    if !useChecksum then true
    else sha1sum si == sha1sum di
  else if useChecksum then sha1sum si == sha1sum di
  else false

/-! ### Paths as segment lists -/

/-- Split a string at every separator (chunks never contain `sep`). -/
def splitSep : Str → List Str
  | [] => [[]]
  | c :: rest =>
    if c = sep then [] :: splitSep rest
    else
      match splitSep rest with
      | [] => [[c]]
      | s :: ss => (c :: s) :: ss

/-- Join segments with the separator. -/
def joinSegs : List Str → Str
  | [] => []
  | [s] => s
  | s :: t :: S => s ++ sep :: joinSegs (t :: S)

/-- A well-formed relative path, as produced by `filepath.Rel` during a
walk: at least one segment, every segment nonempty and free of the
separator. -/
def wfSegs (S : List Str) : Prop :=
  S ≠ [] ∧ ∀ s ∈ S, s ≠ [] ∧ sep ∉ s

instance (S : List Str) : Decidable (wfSegs S) := by
  unfold wfSegs; infer_instance

theorem splitSep_ne_nil (s : Str) : splitSep s ≠ [] := by
  match s with
  | [] => simp [splitSep]
  | c :: rest =>
    simp only [splitSep]
    split
    · simp
    · split <;> simp

theorem join_split (s : Str) : joinSegs (splitSep s) = s := by
  induction s with
  | nil => simp [splitSep, joinSegs]
  | cons c rest ih =>
    simp only [splitSep]
    split
    · rename_i hc
      rcases h : splitSep rest with _ | ⟨t, ts⟩
      · exact absurd h (splitSep_ne_nil rest)
      · rw [h] at ih
        simp [joinSegs, ← ih, hc]
    · rcases h : splitSep rest with _ | ⟨t, ts⟩
      · exact absurd h (splitSep_ne_nil rest)
      · rw [h] at ih
        rcases ts with _ | ⟨u, us⟩
        · simpa [joinSegs] using congrArg (c :: ·) ih
        · simpa [joinSegs] using congrArg (c :: ·) ih

theorem splitSep_sepFree (s : Str) : ∀ t ∈ splitSep s, sep ∉ t := by
  induction s with
  | nil => simp [splitSep]
  | cons c rest ih =>
    intro t ht
    by_cases hc : c = sep
    · simp only [splitSep, if_pos hc] at ht
      rcases List.mem_cons.mp ht with h1 | h1
      · simp [h1]
      · exact ih t h1
    · simp only [splitSep, if_neg hc] at ht
      rcases hsp : splitSep rest with _ | ⟨u, us⟩
      · exact absurd hsp (splitSep_ne_nil rest)
      · rw [hsp] at ht
        rcases List.mem_cons.mp ht with h1 | h1
        · subst h1
          intro hmem
          rcases List.mem_cons.mp hmem with h2 | h2
          · exact hc h2.symm
          · exact ih u (by rw [hsp]; exact List.mem_cons_self u us) h2
        · exact ih t (by rw [hsp]; exact List.mem_cons_of_mem u h1)

/-- Splitting a separator-free string yields that single chunk. -/
theorem splitSep_sepFree_eq (s : Str) (h : sep ∉ s) : splitSep s = [s] := by
  induction s with
  | nil => simp [splitSep]
  | cons c rest ih =>
    have hc : ¬ c = sep := fun hh => h (by simp [hh])
    have hr : sep ∉ rest := fun hh => h (by simp [hh])
    simp only [splitSep, if_neg hc, ih hr]

/-- Splitting after a leading separator-free segment. -/
theorem splitSep_append (s q : Str) (h : sep ∉ s) :
    splitSep (s ++ sep :: q) = s :: splitSep q := by
  induction s with
  | nil => simp [splitSep]
  | cons c rest ih =>
    have hc : ¬ c = sep := fun hh => h (by simp [hh])
    have hr : sep ∉ rest := fun hh => h (by simp [hh])
    have h2 : (c :: rest) ++ sep :: q = c :: (rest ++ sep :: q) := rfl
    rw [h2]
    simp only [splitSep, if_neg hc]
    rw [ih hr]

theorem split_join (S : List Str) (hne : S ≠ []) (h : ∀ t ∈ S, sep ∉ t) :
    splitSep (joinSegs S) = S := by
  induction S with
  | nil => exact absurd rfl hne
  | cons s S' ih =>
    rcases S' with _ | ⟨t, ts⟩
    · exact splitSep_sepFree_eq s (h s (by simp))
    · have : joinSegs (s :: t :: ts) = s ++ sep :: joinSegs (t :: ts) := rfl
      rw [this, splitSep_append s _ (h s (by simp))]
      rw [ih (by simp) (fun u hu => h u (by simp [hu]))]

theorem joinSegs_cons (s : Str) (S : List Str) (h : S ≠ []) :
    joinSegs (s :: S) = s ++ sep :: joinSegs S := by
  rcases S with _ | ⟨t, ts⟩
  · exact absurd rfl h
  · rfl

theorem takeWhile_append_stop (p : Char → Bool) (l r : Str) (x : Char)
    (hx : ¬ p x = true) :
    ((l ++ x :: r).takeWhile p) = l.takeWhile p := by
  induction l with
  | nil => simp [List.takeWhile_cons, hx]
  | cons c cl ih =>
    simp only [List.cons_append, List.takeWhile_cons]
    split
    · rw [ih]
    · rfl

theorem takeWhile_all (p : Char → Bool) (l : Str) (h : ∀ c ∈ l, p c = true) :
    l.takeWhile p = l := by
  induction l with
  | nil => rfl
  | cons c cl ih =>
    rw [List.takeWhile_cons, if_pos (h c (by simp))]
    rw [ih (fun d hd => h d (by simp [hd]))]

/-- `goBase` of a string ending in a nonempty separator-free segment,
preceded by nothing or by a separator-terminated prefix, is that
segment. -/
theorem goBase_concat (pre u : Str) (h1 : u ≠ []) (h2 : sep ∉ u)
    (hpre : pre = [] ∨ ∃ q, pre = q ++ [sep]) :
    goBase (pre ++ u) = u := by
  have hne : ¬ (pre ++ u).isEmpty = true := by
    simp [List.isEmpty_iff, h1]
  rcases hu : u.reverse with _ | ⟨c, ur⟩
  · exact absurd (by simpa using congrArg List.reverse hu) h1
  have hcu : c ∈ u := by
    have hx : c ∈ u.reverse := by rw [hu]; exact List.mem_cons_self c ur
    simpa using hx
  have hc : ¬ (c = sep) := fun hh => h2 (hh ▸ hcu)
  have hrev : (pre ++ u).reverse = c :: (ur ++ pre.reverse) := by
    rw [List.reverse_append, hu]; rfl
  have hdrop :
      ((pre ++ u).reverse.dropWhile (fun d => d = sep)) = (pre ++ u).reverse := by
    rw [hrev, List.dropWhile_cons, if_neg (by simpa using hc)]
  have hall : ∀ d ∈ c :: ur, (fun d => decide (d ≠ sep)) d = true := by
    intro d hd
    have hdu : d ∈ u := by
      have hx : d ∈ u.reverse := by rw [hu]; exact hd
      simpa using hx
    simp only [decide_eq_true_eq]
    exact fun hh => h2 (hh ▸ hdu)
  have htake : ((pre ++ u).reverse.takeWhile (fun d => d ≠ sep)) = c :: ur := by
    rw [hrev]
    rcases hpre with hp | ⟨q, hp⟩
    · subst hp
      simpa using takeWhile_all (fun d => decide (d ≠ sep)) (c :: ur) hall
    · subst hp
      have hrq : (q ++ [sep]).reverse = sep :: q.reverse := by simp
      rw [hrq]
      have hassoc : c :: (ur ++ sep :: q.reverse)
          = (c :: ur) ++ sep :: q.reverse := rfl
      rw [hassoc,
        takeWhile_append_stop (fun d => decide (d ≠ sep)) (c :: ur)
          q.reverse sep (by simp)]
      exact takeWhile_all _ _ hall
  unfold goBase
  rw [if_neg hne]
  simp only [hdrop, List.reverse_reverse]
  rw [if_neg hne, htake, ← hu, List.reverse_reverse]

theorem joinSegs_concat (S : List Str) (u : Str) (hS : S ≠ []) :
    joinSegs (S ++ [u]) = joinSegs S ++ sep :: u := by
  induction S with
  | nil => exact absurd rfl hS
  | cons s S' ih =>
    rcases S' with _ | ⟨t, ts⟩
    · rfl
    · have h1 : joinSegs ((s :: t :: ts) ++ [u])
          = s ++ sep :: joinSegs ((t :: ts) ++ [u]) := rfl
      rw [h1, ih (by simp), joinSegs_cons s (t :: ts) (by simp)]
      simp

/-- `filepath.Base` of a well-formed joined path is its final segment. -/
theorem goBase_joinSegs (S : List Str) (hS : wfSegs S) :
    goBase (joinSegs S) = S.getLastD [] := by
  induction S using List.reverseRecOn with
  | nil => exact absurd rfl hS.1
  | append_singleton S' u _ =>
    have hu := hS.2 u (by simp)
    rcases S' with _ | ⟨s, ss⟩
    · simpa using goBase_concat [] u hu.1 hu.2 (Or.inl rfl)
    · rw [joinSegs_concat (s :: ss) u (by simp)]
      have h1 : joinSegs (s :: ss) ++ sep :: u
          = (joinSegs (s :: ss) ++ [sep]) ++ u := by simp
      rw [h1, goBase_concat _ u hu.1 hu.2 (Or.inr ⟨joinSegs (s :: ss), rfl⟩)]
      exact (List.getLastD_concat _ _ _).symm

/-- Boundary decomposition of a separator-terminated prefix against one
leading separator-free segment. -/
theorem prefix_sep_cons (p s q : Str) (h : sep ∉ s) :
    (p ++ [sep]) <+: (s ++ sep :: q) ↔
      p = s ∨ ∃ r, p = s ++ sep :: r ∧ (r ++ [sep]) <+: q := by
  induction s generalizing p with
  | nil =>
    rcases p with _ | ⟨c, p2⟩
    · simp
    · simp only [List.nil_append, List.cons_append, List.cons_prefix_cons]
      constructor
      · rintro ⟨hc, hp⟩
        exact Or.inr ⟨p2, by simp [hc], hp⟩
      · rintro (hp | ⟨r, hr, hpre⟩)
        · exact absurd hp (by simp)
        · rcases List.cons_eq_cons.mp hr with ⟨hc, hp2⟩
          subst hp2
          exact ⟨hc, hpre⟩
  | cons a s' ih =>
    have ha : ¬ (sep = a) := fun hh => h (by simp [← hh])
    have hs' : sep ∉ s' := fun hh => h (by simp [hh])
    rcases p with _ | ⟨c, p2⟩
    · simp only [List.nil_append, List.cons_append, List.cons_prefix_cons]
      constructor
      · rintro ⟨hc, -⟩
        exact absurd hc ha
      · rintro (hp | ⟨r, hr, -⟩)
        · exact absurd hp (by simp)
        · exact absurd hr (by simp)
    · simp only [List.cons_append, List.cons_prefix_cons]
      rw [show p2 ++ [sep] <+: s' ++ sep :: q ↔ _ from ih p2 hs']
      constructor
      · rintro ⟨hc, hp | ⟨r, hr, hpre⟩⟩
        · exact Or.inl (by rw [hc, hp])
        · exact Or.inr ⟨r, by rw [hc, hr], hpre⟩
      · rintro (hp | ⟨r, hr, hpre⟩)
        · rcases List.cons_eq_cons.mp hp with ⟨hc, hp2⟩
          exact ⟨hc, Or.inl hp2⟩
        · rcases List.cons_eq_cons.mp hr with ⟨hc, hp2⟩
          exact ⟨hc, Or.inr ⟨r, hp2, hpre⟩⟩

/-- A proper prefix, phrased through the existence of a nonempty
remainder. -/
theorem proper_prefix_iff (X L : List Str) :
    (X <+: L ∧ X ≠ L) ↔ ∃ ys, ys ≠ [] ∧ L = X ++ ys := by
  constructor
  · rintro ⟨⟨t, ht⟩, hne⟩
    refine ⟨t, ?_, ht.symm⟩
    rintro rfl
    exact hne (by simpa using ht)
  · rintro ⟨ys, hne, rfl⟩
    constructor
    · exact ⟨ys, rfl⟩
    · intro hh
      have : X ++ ys = X ++ [] := by simpa using hh.symm
      exact hne (List.append_cancel_left this)

/-- Rule 3 of the pattern matcher: a separator-terminated literal
prefix corresponds exactly to a proper segment-prefix. -/
theorem prefixRule_iff (S : List Str) (p : Str) (hS : wfSegs S) :
    ((p ++ [sep]) <+: joinSegs S) ↔ (splitSep p <+: S ∧ splitSep p ≠ S) := by
  induction S generalizing p with
  | nil => exact absurd rfl hS.1
  | cons s S' ih =>
    have hs := hS.2 s (by simp)
    rcases S' with _ | ⟨t, ts⟩
    · constructor
      · intro hp
        have hsepmem : sep ∈ s := hp.subset (by simp)
        exact absurd hsepmem hs.2
      · rintro ⟨hpre, hne⟩
        rcases hpre with ⟨r, hr⟩
        rcases hsp : splitSep p with _ | ⟨x, xs⟩
        · exact absurd hsp (splitSep_ne_nil p)
        · rw [hsp] at hr hne
          rcases xs with _ | ⟨y, ys⟩
          · rcases r with _ | ⟨z, zs⟩
            · exact absurd (by simpa using hr) (by simpa using hne)
            · simp at hr
          · simp at hr
    · have hwf' : wfSegs (t :: ts) := ⟨by simp, fun u hu => hS.2 u (by simp [hu])⟩
      rw [joinSegs_cons s (t :: ts) (by simp), prefix_sep_cons p s _ hs.2]
      constructor
      · rintro (hp | ⟨r, hr, hpre⟩)
        · subst hp
          rw [splitSep_sepFree_eq p hs.2]
          exact ⟨⟨t :: ts, rfl⟩, by simp⟩
        · subst hr
          rw [splitSep_append _ _ hs.2]
          rcases (ih r hwf').mp hpre with ⟨hpre2, hne2⟩
          constructor
          · rw [List.cons_prefix_cons]
            exact ⟨rfl, hpre2⟩
          · intro hh
            exact hne2 (List.cons_eq_cons.mp hh).2
      · rintro ⟨hpre, hne⟩
        rcases hsp : splitSep p with _ | ⟨x, xs⟩
        · exact absurd hsp (splitSep_ne_nil p)
        rw [hsp] at hpre hne
        have hx : x = s := (List.cons_prefix_cons.mp hpre).1
        have hxs : xs <+: t :: ts := (List.cons_prefix_cons.mp hpre).2
        rw [hx] at hsp hne
        have hxsfree : ∀ u ∈ xs, sep ∉ u := by
          intro u hu
          have hmem : u ∈ t :: ts := hxs.subset hu
          exact (hS.2 u (by simp [List.mem_cons.mp hmem])).2
        rcases xs with _ | ⟨y, ys⟩
        · left
          have h3 : joinSegs (splitSep p) = joinSegs [s] := by rw [hsp]
          rw [join_split] at h3
          simpa [joinSegs] using h3
        · right
          refine ⟨joinSegs (y :: ys), ?_, ?_⟩
          · have h3 : joinSegs (splitSep p) = joinSegs (s :: y :: ys) := by rw [hsp]
            rw [join_split] at h3
            rw [h3, joinSegs_cons s (y :: ys) (by simp)]
          · rw [ih (joinSegs (y :: ys)) hwf',
              split_join (y :: ys) (by simp) hxsfree]
            refine ⟨hxs, ?_⟩
            intro hh
            exact hne (by rw [hh])

/-- `containsSub` is substring occurrence. -/
theorem containsSub_iff (n l : Str) :
    containsSub n l = true ↔ ∃ a b, l = a ++ n ++ b := by
  induction l with
  | nil =>
    simp only [containsSub, List.isEmpty_iff]
    constructor
    · rintro rfl
      exact ⟨[], [], rfl⟩
    · rintro ⟨a, b, hab⟩
      rcases a with _ | _
      · rcases n with _ | _
        · rfl
        · simp at hab
      · simp at hab
  | cons c rest ih =>
    simp only [containsSub, Bool.or_eq_true, List.isPrefixOf_iff_prefix, ih]
    constructor
    · rintro (⟨t, ht⟩ | ⟨a, b, rfl⟩)
      · exact ⟨[], t, by simpa using ht.symm⟩
      · exact ⟨c :: a, b, by simp⟩
    · rintro ⟨a, b, hab⟩
      rcases a with _ | ⟨d, a2⟩
      · left
        exact ⟨b, by simpa using hab.symm⟩
      · right
        rcases List.cons_eq_cons.mp hab with ⟨-, h2⟩
        exact ⟨a2, b, h2⟩

/-- Occurrence of a separator-led needle across one separator-free
leading segment. -/
theorem contains_boundary (w s q : Str) (h : sep ∉ s) :
    containsSub (sep :: w) (s ++ sep :: q) = true ↔
      ((w <+: q) ∨ containsSub (sep :: w) q = true) := by
  induction s with
  | nil =>
    show (List.isPrefixOf (sep :: w) (sep :: q) || containsSub (sep :: w) q) = true ↔ _
    rw [Bool.or_eq_true]
    constructor
    · rintro (h1 | h1)
      · exact Or.inl (List.cons_prefix_cons.mp (List.isPrefixOf_iff_prefix.mp h1)).2
      · exact Or.inr h1
    · rintro (h1 | h1)
      · exact Or.inl
          (List.isPrefixOf_iff_prefix.mpr (List.cons_prefix_cons.mpr ⟨rfl, h1⟩))
      · exact Or.inr h1
  | cons a s' ih =>
    have ha : ¬ (sep = a) := fun hh => h (by simp [← hh])
    have hs' : sep ∉ s' := fun hh => h (by simp [hh])
    show (List.isPrefixOf (sep :: w) (a :: (s' ++ sep :: q))
        || containsSub (sep :: w) (s' ++ sep :: q)) = true ↔ _
    have hpre : List.isPrefixOf (sep :: w) (a :: (s' ++ sep :: q)) = false := by
      rw [Bool.eq_false_iff]
      intro hh
      exact ha (List.cons_prefix_cons.mp (List.isPrefixOf_iff_prefix.mp hh)).1
    rw [hpre, Bool.false_or]
    exact ih hs'

/-- Rule 4 of the pattern matcher: separator-delimited containment of
the pattern corresponds exactly to an interior segment decomposition. -/
theorem interiorRule_iff (S : List Str) (p : Str) (hS : wfSegs S) :
    containsSub (sep :: (p ++ [sep])) (joinSegs S) = true ↔
      ∃ xs ys, xs ≠ [] ∧ ys ≠ [] ∧ S = xs ++ splitSep p ++ ys := by
  induction S with
  | nil => exact absurd rfl hS.1
  | cons s S' ih =>
    have hs := hS.2 s (by simp)
    rcases S' with _ | ⟨t, ts⟩
    · constructor
      · intro hc
        rcases (containsSub_iff _ _).mp hc with ⟨a, b, hab⟩
        have hmem : sep ∈ s := by
          rw [show joinSegs [s] = s from rfl] at hab
          rw [hab]; simp
        exact absurd hmem hs.2
      · rintro ⟨xs, ys, hxs, hys, heq⟩
        have h1 : 1 = xs.length + ((splitSep p).length + ys.length) := by
          have h2 := congrArg List.length heq
          simpa using h2
        have h3 : 0 < xs.length := List.length_pos.mpr hxs
        have h4 : 0 < ys.length := List.length_pos.mpr hys
        omega
    · have hwf' : wfSegs (t :: ts) := ⟨by simp, fun u hu => hS.2 u (by simp [hu])⟩
      rw [joinSegs_cons s (t :: ts) (by simp),
        contains_boundary (p ++ [sep]) s _ hs.2,
        show (p ++ [sep]) <+: joinSegs (t :: ts) ↔ _ from
          prefixRule_iff (t :: ts) p hwf',
        proper_prefix_iff, ih hwf']
      constructor
      · rintro (⟨ys, hys, heq⟩ | ⟨xs, ys, hxs, hys, heq⟩)
        · exact ⟨[s], ys, by simp, hys, by rw [heq]; rfl⟩
        · refine ⟨s :: xs, ys, by simp, hys, ?_⟩
          rw [show (s :: xs) ++ splitSep p ++ ys
              = s :: (xs ++ splitSep p ++ ys) from rfl, ← heq]
      · rintro ⟨xs, ys, hxs, hys, heq⟩
        rcases xs with _ | ⟨x0, xs'⟩
        · exact absurd rfl hxs
        rcases List.cons_eq_cons.mp heq with ⟨hx0, htail⟩
        rcases xs' with _ | ⟨x1, xs2⟩
        · exact Or.inl ⟨ys, hys, by simpa using htail⟩
        · exact Or.inr ⟨x1 :: xs2, ys, by simp, hys, by simpa using htail⟩

/-- C5: `shouldExclude` holds exactly when some pattern passes one of
the four rules: glob match on the final segment, exact equality with
the relative path, segment-bounded proper prefix, or segment-bounded
interior containment. -/
theorem shouldExclude_iff_rules (S : List Str) (patterns : List Str)
    (hS : wfSegs S) :
    shouldExclude (joinSegs S) patterns = true ↔
      ∃ p ∈ patterns,
        filepathMatch p (S.getLastD []) = .ok true ∨
        p = joinSegs S ∨
        (splitSep p <+: S ∧ splitSep p ≠ S) ∨
        (∃ xs ys, xs ≠ [] ∧ ys ≠ [] ∧ S = xs ++ splitSep p ++ ys) := by
  unfold shouldExclude
  rw [List.any_eq_true]
  have hbase : goBase (joinSegs S) = S.getLastD [] := goBase_joinSegs S hS
  constructor
  · rintro ⟨p, hp, hcond⟩
    refine ⟨p, hp, ?_⟩
    rw [Bool.or_eq_true, Bool.or_eq_true, Bool.or_eq_true] at hcond
    rcases hcond with (((hm | he) | hcont) | hpre)
    · rcases hq : filepathMatch p (goBase (joinSegs S)) with e | b
      · rw [hq] at hm; exact absurd hm (by simp)
      · rw [hq] at hm
        simp only at hm
        rw [hm] at hq
        rw [hbase] at hq
        exact Or.inl hq
    · exact Or.inr (Or.inl (eq_of_beq he))
    · exact Or.inr (Or.inr (Or.inr ((interiorRule_iff S p hS).mp hcont)))
    · exact Or.inr (Or.inr (Or.inl ((prefixRule_iff S p hS).mp
        (List.isPrefixOf_iff_prefix.mp hpre))))
  · rintro ⟨p, hp, hcond⟩
    refine ⟨p, hp, ?_⟩
    rw [Bool.or_eq_true, Bool.or_eq_true, Bool.or_eq_true]
    rcases hcond with hm | he | hprop | hint
    · rw [← hbase] at hm
      left; left; left
      rw [hm]
    · left; left; right
      exact beq_iff_eq.mpr he
    · right
      exact List.isPrefixOf_iff_prefix.mpr ((prefixRule_iff S p hS).mpr hprop)
    · left; right
      exact (interiorRule_iff S p hS).mpr hint

/-- C5 witness: the equivalence instantiated at a concrete path and
pattern list. -/
theorem shouldExclude_iff_rules_witness :
    wfSegs [str "foo", str "bar.tmp"] ∧
      (shouldExclude (joinSegs [str "foo", str "bar.tmp"]) [str "*.tmp"] = true ↔
        ∃ p ∈ [str "*.tmp"],
          filepathMatch p ([str "foo", str "bar.tmp"].getLastD []) = .ok true ∨
          p = joinSegs [str "foo", str "bar.tmp"] ∨
          (splitSep p <+: [str "foo", str "bar.tmp"] ∧
            splitSep p ≠ [str "foo", str "bar.tmp"]) ∨
          (∃ xs ys, xs ≠ [] ∧ ys ≠ [] ∧
            [str "foo", str "bar.tmp"] = xs ++ splitSep p ++ ys)) :=
  ⟨by decide, shouldExclude_iff_rules [str "foo", str "bar.tmp"] [str "*.tmp"]
    (by decide)⟩

/-- C10: `shouldExclude` is total over malformed glob patterns: when
`filepath.Match` rejects the pattern, the discarded error makes the
glob rule a non-match, while the exact-equality, interior-containment
and prefix rules are still applied to that pattern and all other
patterns are processed as usual. -/
theorem shouldExclude_bad_glob (rel p : Str) (ps1 ps2 : List Str)
    (hbad : filepathMatch p (goBase rel) = .error .badPattern) :
    shouldExclude rel (ps1 ++ p :: ps2)
      = (shouldExclude rel ps1
          || (p == rel || containsSub (sep :: (p ++ [sep])) rel
              || List.isPrefixOf (p ++ [sep]) rel)
          || shouldExclude rel ps2) := by
  unfold shouldExclude
  simp only [List.any_append, List.any_cons, hbad]
  cases h1 : ps1.any _ <;> cases h2 : ps2.any _ <;>
    cases h3 : (p == rel) <;>
    cases h4 : containsSub (sep :: (p ++ [sep])) rel <;>
    cases h5 : List.isPrefixOf (p ++ [sep]) rel <;> rfl

/-- C10 witness: the malformed pattern is exactly the one the claim
names, and the reduced form still lets the literal rules fire. -/
theorem shouldExclude_bad_glob_witness :
    filepathMatch (str "[") (goBase (str "x")) = .error .badPattern ∧
      shouldExclude (str "x") ([str ".git"] ++ str "[" :: [str "x"])
        = (shouldExclude (str "x") [str ".git"]
            || (str "[" == str "x"
                || containsSub (sep :: (str "[" ++ [sep])) (str "x")
                || List.isPrefixOf (str "[" ++ [sep]) (str "x"))
            || shouldExclude (str "x") [str "x"]) :=
  ⟨rfl, shouldExclude_bad_glob (str "x") (str "[") [str ".git"] [str "x"] rfl⟩

/-- C4: the comparator's specification-level description: without
checksum mode, equivalence is equal size and modification times within
one second (inclusive); with checksum mode, equivalence is exactly
digest equality, regardless of the size-and-time signal. -/
theorem sameFile_spec (si di : FileMeta) (cs : Bool) :
    sameFile si di cs = true ↔
      (if cs then sha1sum si = sha1sum di
       else fsize si = fsize di ∧ absDuration (si.mtime - di.mtime) ≤ second) := by
  unfold sameFile
  by_cases h : fsize si = fsize di ∧ absDuration (si.mtime - di.mtime) ≤ second
  · rcases cs with _ | _ <;> simp [h]
  · rcases cs with _ | _ <;> simp [h]

/-! ### Path safety validation (`filepath.Clean`, `filepath.Rel`,
`isSubpath`, `samePath`, and the pre-flight checks of `runCp`)

`runCp` receives the two paths from `filepath.Abs`; the engine's
contract (spec section 6) is that they are absolute, so the theorems
below take absolute inputs.  `filepath.Clean` is embedded through the
equivalent segment-stack normalization of its byte-level automaton,
and `filepath.Rel` through the segment-level reading of its byte-index
element scan, restricted faithfully to the cleaned inputs `isSubpath`
passes it. -/

/-- The `..` segment. -/
def dotdot : Str := ['.', '.']

/-- One step of the segment-stack normalization of `filepath.Clean`:
`..` pops a previous real segment, vanishes at an absolute root, and
accumulates otherwise; every other segment is pushed. -/
def cleanStep (rooted : Bool) (acc : List Str) (s : Str) : List Str :=
  if s = dotdot then
    match acc with
    | t :: rest => if t = dotdot then s :: t :: rest else rest
    | [] => if rooted then [] else [s]
  else s :: acc

/-- The cleaned segment stack of a path (most recent first before the
final reverse); empty and `.` segments are dropped first, exactly as
`filepath.Clean` skips them. -/
def cleanSegs (rooted : Bool) (path : Str) : List Str :=
  (((splitSep path).filter (fun s => ¬ s = [] ∧ ¬ s = ['.'])).foldl
    (cleanStep rooted) []).reverse

/-- Go `filepath.Clean` for the Unix build. -/
def goClean (path : Str) : Str :=
  if path = [] then ['.']
  else
    let rooted := path.head? == some sep
    let core := cleanSegs rooted path
    if rooted then sep :: joinSegs core
    else if core = [] then ['.']
    else joinSegs core

/-- `strings.ToLower`, with the ASCII case mapping (the paths the tool
compares case-insensitively are Windows drive paths, on which
`strings.EqualFold` agrees with `ToLower`-equality). -/
def toLowerStr (s : Str) : Str := s.map Char.toLower

/-- `samePath` from src/main.go. -/
def samePath (a b : Str) : Bool :=
  toLowerStr (goClean a) == toLowerStr (goClean b)

/-- Element-wise longest common prefix, as scanned by `filepath.Rel`. -/
def commonPrefixLen : List Str → List Str → Nat
  | x :: xs, y :: ys => if x = y then commonPrefixLen xs ys + 1 else 0
  | _, _ => 0

/-- `filepath.Rel`'s element list of a cleaned path: an absolute path
has an empty element before the first separator, a `.` base contributes
no element, and the root `/` is a single empty element. -/
def relElems (isBase : Bool) (x : Str) : List Str :=
  if isBase ∧ x = ['.'] then []
  else if x = [sep] then [[]]
  else splitSep x

/-- The element comparison of `filepath.Rel` after both paths have
been cleaned and split: walk off the common prefix, reject a leftover
`..` base element, and build the result from `..` steps plus the
remaining target elements. -/
def goRelCore (bsegs tsegs : List Str) : Except Unit Str :=
  if (bsegs.drop (commonPrefixLen bsegs tsegs)).head? = some dotdot then
    .error ()
  else if bsegs.drop (commonPrefixLen bsegs tsegs) = [] then
    .ok (joinSegs (tsegs.drop (commonPrefixLen bsegs tsegs)))
  else
    .ok (joinSegs
      (List.replicate (bsegs.drop (commonPrefixLen bsegs tsegs)).length dotdot
        ++ tsegs.drop (commonPrefixLen bsegs tsegs)))

/-- Go `filepath.Rel` (Unix build) on cleaned inputs. -/
def goRel (basep targp : Str) : Except Unit Str :=
  if goClean targp = goClean basep then .ok ['.']
  else if ((goClean basep).head? == some sep)
      ≠ ((goClean targp).head? == some sep) then .error ()
  else goRelCore (relElems true (goClean basep)) (relElems false (goClean targp))

/-- `isSubpath` from src/main.go. -/
def isSubpath (child parent : Str) : Bool :=
  if toLowerStr (goClean child) == toLowerStr (goClean parent) then false
  else
    match goRel (toLowerStr (goClean parent)) (toLowerStr (goClean child)) with
    | .error _ => false
    | .ok rel => !(rel == dotdot) && !(List.isPrefixOf (dotdot ++ [sep]) rel)

/-- Which pre-flight path-relationship check of `runCp` fails. -/
inductive PathErrKind where
  | samePathErr
  | dstInsideSrc
  | srcInsideDst
deriving DecidableEq

/-- The pre-flight path relationship validation of `runCp`
(src/main.go, before `syncDir` runs and before any mutation). -/
def pathCheckError (absSrc absDst : Str) : Option PathErrKind :=
  if samePath absSrc absDst then some .samePathErr
  else if isSubpath absDst absSrc then some .dstInsideSrc
  else if isSubpath absSrc absDst then some .srcInsideDst
  else none

/-- The cleaned, case-folded segment list of an absolute path: the
specification's notion of the path's identity for the safety checks. -/
def cleanLowerSegs (x : Str) : List Str :=
  (cleanSegs true x).map toLowerStr

/-- Segments that can appear in a cleaned absolute path. -/
def goodSegs (S : List Str) : Prop :=
  ∀ s ∈ S, s ≠ [] ∧ sep ∉ s ∧ s ≠ ['.'] ∧ s ≠ dotdot

theorem goodSegs_sub {S T : List Str} (h : goodSegs S) (hsub : ∀ s ∈ T, s ∈ S) :
    goodSegs T := fun s hs => h s (hsub s hs)

theorem foldl_cleanStep_good (l : List Str) (acc : List Str)
    (hl : ∀ s ∈ l, s ≠ [] ∧ sep ∉ s ∧ s ≠ ['.'])
    (hacc : goodSegs acc) : goodSegs (l.foldl (cleanStep true) acc) := by
  induction l generalizing acc with
  | nil => exact hacc
  | cons s l' ih =>
    rw [List.foldl_cons]
    refine ih _ (fun t ht => hl t (by simp [ht])) ?_
    unfold cleanStep
    by_cases hdd : s = dotdot
    · rw [if_pos hdd]
      rcases acc with _ | ⟨t, rest⟩
      · simp [goodSegs]
      · have ht := hacc t (by simp)
        show goodSegs (if t = dotdot then s :: t :: rest else rest)
        rw [if_neg ht.2.2.2]
        exact goodSegs_sub hacc (fun u hu => by simp [hu])
    · rw [if_neg hdd]
      intro u hu
      rcases List.mem_cons.mp hu with h1 | h1
      · subst h1
        rcases hl u (by simp) with ⟨h2, h3, h4⟩
        exact ⟨h2, h3, h4, hdd⟩
      · exact hacc u h1

theorem cleanSegs_good (path : Str) : goodSegs (cleanSegs true path) := by
  unfold cleanSegs
  intro s hs
  rw [List.mem_reverse] at hs
  refine foldl_cleanStep_good _ [] ?_ (by simp [goodSegs]) s hs
  intro t ht
  rcases List.mem_filter.mp ht with ⟨hmem, hcond⟩
  rw [decide_eq_true_eq] at hcond
  exact ⟨hcond.1, splitSep_sepFree path t hmem, hcond.2⟩

theorem foldl_cleanStep_push (r : Bool) (l acc : List Str)
    (h : ∀ s ∈ l, s ≠ dotdot) :
    l.foldl (cleanStep r) acc = l.reverse ++ acc := by
  induction l generalizing acc with
  | nil => simp
  | cons s l' ih =>
    rw [List.foldl_cons, show cleanStep r acc s = s :: acc from by
      unfold cleanStep; rw [if_neg (h s (by simp))]]
    rw [ih (s :: acc) (fun t ht => h t (by simp [ht]))]
    simp

theorem joinSegs_ne_nil (S : List Str) (hS : S ≠ [])
    (h : ∀ s ∈ S, s ≠ []) : joinSegs S ≠ [] := by
  rcases S with _ | ⟨s, S'⟩
  · exact absurd rfl hS
  rcases S' with _ | ⟨t, ts⟩
  · exact h s (by simp)
  · have h1 : joinSegs (s :: t :: ts) = s ++ sep :: joinSegs (t :: ts) := rfl
    rw [h1]
    simp

theorem splitSep_cons_sep (x : Str) : splitSep (sep :: x) = [] :: splitSep x := by
  simp [splitSep]

theorem cleanSegs_canon (core : List Str) (h : goodSegs core) :
    cleanSegs true (sep :: joinSegs core) = core := by
  unfold cleanSegs
  rw [splitSep_cons_sep]
  rcases core with _ | ⟨s, S'⟩
  · simp [splitSep, List.filter]
  · have hjoin : splitSep (joinSegs (s :: S')) = s :: S' :=
      split_join _ (by simp) (fun t ht => (h t ht).2.1)
    rw [hjoin]
    have hfil : List.filter (fun s => decide (¬ s = [] ∧ ¬ s = ['.']))
        ([] :: s :: S') = s :: S' := by
      rw [show ([] :: s :: S').filter (fun s => decide (¬ s = [] ∧ ¬ s = ['.']))
          = List.filter (fun s => decide (¬ s = [] ∧ ¬ s = ['.'])) (s :: S') from by
        simp [List.filter]]
      refine List.filter_eq_self.mpr ?_
      intro t ht
      rcases h t ht with ⟨h1, -, h3, -⟩
      simp [h1, h3]
    rw [hfil, foldl_cleanStep_push true _ [] (fun t ht => (h t ht).2.2.2)]
    simp

theorem goClean_abs (path : Str) (h : path.head? = some sep) :
    goClean path = sep :: joinSegs (cleanSegs true path) := by
  rcases path with _ | ⟨c, rest⟩
  · simp at h
  have hc : c = sep := by simpa using h
  subst hc
  unfold goClean
  rw [if_neg (by simp)]
  simp

theorem goClean_canon (core : List Str) (h : goodSegs core) :
    goClean (sep :: joinSegs core) = sep :: joinSegs core := by
  rw [goClean_abs _ (by simp), cleanSegs_canon core h]

theorem toNat_ofNat_valid (n : Nat) (h : n.isValidChar) :
    (Char.ofNat n).toNat = n := by
  unfold Char.ofNat
  rw [dif_pos h]
  unfold Char.ofNatAux
  simp [Char.toNat, UInt32.toNat]

theorem toLower_sep_eq (c : Char) (h : Char.toLower c = sep) : c = sep := by
  unfold Char.toLower at h
  simp only [] at h
  by_cases hc : c.toNat ≥ 65 ∧ c.toNat ≤ 90
  · rw [if_pos hc] at h
    have h2 := congrArg Char.toNat h
    have hv : (c.toNat + 32).isValidChar := Or.inl (by omega)
    rw [toNat_ofNat_valid _ hv] at h2
    have h3 : Char.toNat sep = 47 := by decide
    omega
  · rwa [if_neg hc] at h

theorem toLower_dot_eq (c : Char) (h : Char.toLower c = '.') : c = '.' := by
  unfold Char.toLower at h
  simp only [] at h
  by_cases hc : c.toNat ≥ 65 ∧ c.toNat ≤ 90
  · rw [if_pos hc] at h
    have h2 := congrArg Char.toNat h
    have hv : (c.toNat + 32).isValidChar := Or.inl (by omega)
    rw [toNat_ofNat_valid _ hv] at h2
    have h3 : ('.' : Char).toNat = 46 := by decide
    omega
  · rwa [if_neg hc] at h

theorem toLowerStr_joinSegs (S : List Str) :
    toLowerStr (joinSegs S) = joinSegs (S.map toLowerStr) := by
  induction S with
  | nil => rfl
  | cons s S' ih =>
    rcases S' with _ | ⟨t, ts⟩
    · rfl
    · have h1 : joinSegs (s :: t :: ts) = s ++ sep :: joinSegs (t :: ts) := rfl
      have h2 : joinSegs (toLowerStr s :: (t :: ts).map toLowerStr)
          = toLowerStr s ++ sep :: joinSegs ((t :: ts).map toLowerStr) := by
        rcases ts with _ | _ <;> rfl
      rw [h1, List.map_cons, h2, ← ih]
      unfold toLowerStr
      rw [List.map_append, List.map_cons]
      have h3 : Char.toLower sep = sep := by decide
      rw [h3]

theorem toLowerStr_eq_dot (s : Str) (h : toLowerStr s = ['.']) : s = ['.'] := by
  rcases s with _ | ⟨c, rest⟩
  · simp [toLowerStr] at h
  rcases rest with _ | _
  · unfold toLowerStr at h
    rw [List.map_cons, List.map_nil] at h
    rw [toLower_dot_eq c (List.cons_eq_cons.mp h).1]
  · unfold toLowerStr at h
    simp at h

theorem toLowerStr_eq_dotdot (s : Str) (h : toLowerStr s = dotdot) : s = dotdot := by
  rcases s with _ | ⟨c, rest⟩
  · simp [toLowerStr, dotdot] at h
  rcases rest with _ | ⟨d, rest2⟩
  · unfold toLowerStr at h
    simp [dotdot] at h
  rcases rest2 with _ | _
  · unfold toLowerStr at h
    simp only [List.map_cons, List.map_nil, dotdot] at h
    rcases List.cons_eq_cons.mp h with ⟨h1, h2⟩
    rcases List.cons_eq_cons.mp h2 with ⟨h3, -⟩
    rw [show dotdot = ['.', '.'] from rfl, toLower_dot_eq c h1, toLower_dot_eq d h3]
  · unfold toLowerStr at h
    simp [dotdot] at h

theorem sep_mem_toLowerStr (s : Str) (h : sep ∈ toLowerStr s) : sep ∈ s := by
  rcases List.mem_map.mp h with ⟨c, hc, hlc⟩
  rw [← toLower_sep_eq c hlc]
  exact hc

theorem goodSegs_map_lower (S : List Str) (h : goodSegs S) :
    goodSegs (S.map toLowerStr) := by
  intro s hs
  rcases List.mem_map.mp hs with ⟨t, ht, hts⟩
  rcases h t ht with ⟨h1, h2, h3, h4⟩
  subst hts
  refine ⟨?_, ?_, ?_, ?_⟩
  · simpa [toLowerStr] using h1
  · exact fun hh => h2 (sep_mem_toLowerStr t hh)
  · exact fun hh => h3 (toLowerStr_eq_dot t hh)
  · exact fun hh => h4 (toLowerStr_eq_dotdot t hh)

theorem joinSegs_inj (X Y : List Str)
    (hX : ∀ s ∈ X, s ≠ [] ∧ sep ∉ s) (hY : ∀ s ∈ Y, s ≠ [] ∧ sep ∉ s) :
    joinSegs X = joinSegs Y ↔ X = Y := by
  constructor
  · intro h
    rcases hXe : X with _ | ⟨x, xs⟩
    · rcases hYe : Y with _ | ⟨y, ys⟩
      · rfl
      · subst hXe hYe
        have hj : joinSegs (y :: ys) = [] := h.symm
        exact absurd hj (joinSegs_ne_nil _ (by simp) (fun s hs => (hY s hs).1))
    · rcases hYe : Y with _ | ⟨y, ys⟩
      · subst hXe hYe
        exact absurd h (joinSegs_ne_nil _ (by simp) (fun s hs => (hX s hs).1))
      · subst hXe hYe
        have h1 := split_join (x :: xs) (by simp) (fun s hs => (hX s hs).2)
        have h2 := split_join (y :: ys) (by simp) (fun s hs => (hY s hs).2)
        rw [← h1, ← h2, h]
  · intro h
    rw [h]

theorem commonPrefixLen_of_pre (X Y : List Str) (h : X <+: Y) :
    commonPrefixLen X Y = X.length := by
  induction X generalizing Y with
  | nil => rfl
  | cons x xs ih =>
    rcases Y with _ | ⟨y, ys⟩
    · simp at h
    · rcases List.cons_prefix_cons.mp h with ⟨hxy, hpre⟩
      unfold commonPrefixLen
      rw [if_pos hxy, ih ys hpre]
      rfl

theorem commonPrefixLen_lt_of_not_prefix (X Y : List Str) (h : ¬ X <+: Y) :
    commonPrefixLen X Y < X.length := by
  induction X generalizing Y with
  | nil => exact absurd (List.nil_prefix) h
  | cons x xs ih =>
    rcases Y with _ | ⟨y, ys⟩
    · simp [commonPrefixLen]
    · by_cases hxy : x = y
      · have hnp : ¬ xs <+: ys := by
          intro hp
          exact h (List.cons_prefix_cons.mpr ⟨hxy, hp⟩)
        unfold commonPrefixLen
        rw [if_pos hxy]
        have := ih ys hnp
        simpa using this
      · unfold commonPrefixLen
        rw [if_neg hxy]
        simp

theorem good_join_not_dotdot_like (W : List Str) (hW : goodSegs W) (hne : W ≠ []) :
    ((joinSegs W == dotdot) = false ∧
      List.isPrefixOf (dotdot ++ [sep]) (joinSegs W) = false) := by
  have hsf : ∀ s ∈ W, sep ∉ s := fun s hs => (hW s hs).2.1
  constructor
  · rw [beq_eq_false_iff_ne]
    intro h
    have h1 : splitSep (joinSegs W) = W := split_join W hne hsf
    rw [h, show splitSep dotdot = [dotdot] from
      splitSep_sepFree_eq dotdot (by decide)] at h1
    have : dotdot ∈ W := by rw [← h1]; simp
    exact (hW dotdot this).2.2.2 rfl
  · rw [Bool.eq_false_iff]
    intro hp
    rcases List.isPrefixOf_iff_prefix.mp hp with ⟨t, ht⟩
    have h1 : splitSep (joinSegs W) = W := split_join W hne hsf
    have h2 : dotdot ++ [sep] ++ t = dotdot ++ sep :: t := by simp
    rw [← ht, h2, splitSep_append dotdot t (by decide)] at h1
    have : dotdot ∈ W := by rw [← h1]; simp
    exact (hW dotdot this).2.2.2 rfl

theorem relElems_canon (b : Bool) (P : List Str) (hP : goodSegs P) :
    relElems b (sep :: joinSegs P) = [] :: P := by
  unfold relElems
  rw [if_neg (by
    rintro ⟨-, hh⟩
    have : sep = '.' := (List.cons_eq_cons.mp hh).1
    exact absurd this (by decide))]
  rcases hPe : P with _ | ⟨p0, ps⟩
  · have h0 : sep :: joinSegs ([] : List Str) = [sep] := rfl
    rw [h0, if_pos rfl]
  · rw [if_neg (by
      intro hh
      have h1 : joinSegs (p0 :: ps) = [] := by
        have := (List.cons_eq_cons.mp hh).2
        simpa using this
      exact joinSegs_ne_nil _ (by simp)
        (fun s hs => (hP s (hPe ▸ hs)).1) h1)]
    rw [splitSep_cons_sep,
      split_join _ (by simp) (fun s hs => (hP s (hPe ▸ hs)).2.1)]

theorem goRelCore_canon (P C : List Str) (hP : goodSegs P) :
    goRelCore ([] :: P) ([] :: C)
      = if P <+: C then Except.ok (joinSegs (C.drop P.length))
        else Except.ok (joinSegs
          (List.replicate (P.length - commonPrefixLen P C) dotdot
            ++ C.drop (commonPrefixLen P C))) := by
  unfold goRelCore
  have hk : commonPrefixLen ([] :: P) ([] :: C) = commonPrefixLen P C + 1 := by
    show (if ([] : Str) = [] then commonPrefixLen P C + 1 else 0)
      = commonPrefixLen P C + 1
    rw [if_pos rfl]
  rw [hk]
  have hbd : ([] :: P).drop (commonPrefixLen P C + 1)
      = P.drop (commonPrefixLen P C) := rfl
  have htd : ([] :: C).drop (commonPrefixLen P C + 1)
      = C.drop (commonPrefixLen P C) := rfl
  rw [hbd, htd,
    if_neg (fun hh => by
      have h1 : dotdot ∈ P.drop (commonPrefixLen P C) := by
        rcases hde : P.drop (commonPrefixLen P C) with _ | ⟨z, zs⟩
        · rw [hde] at hh; simp at hh
        · rw [hde] at hh
          have hz : z = dotdot := by simpa using hh
          rw [hz]; simp
      have h2 : dotdot ∈ P := List.drop_subset _ _ h1
      exact (hP dotdot h2).2.2.2 rfl)]
  by_cases hpre : P <+: C
  · rw [commonPrefixLen_of_pre P C hpre, List.drop_length,
      if_pos rfl, if_pos hpre]
  · have hlt := commonPrefixLen_lt_of_not_prefix P C hpre
    have hne2 : P.drop (commonPrefixLen P C) ≠ [] := by
      intro hh
      have h3 := congrArg List.length hh
      rw [List.length_drop] at h3
      simp at h3
      omega
    rw [if_neg hne2, if_neg hpre, List.length_drop]

theorem goRel_canon (P C : List Str) (hP : goodSegs P) (hC : goodSegs C)
    (hne : C ≠ P) :
    goRel (sep :: joinSegs P) (sep :: joinSegs C)
      = if P <+: C then Except.ok (joinSegs (C.drop P.length))
        else Except.ok (joinSegs
          (List.replicate (P.length - commonPrefixLen P C) dotdot
            ++ C.drop (commonPrefixLen P C))) := by
  have hjoinne : joinSegs C ≠ joinSegs P := by
    intro hh
    exact hne ((joinSegs_inj C P (fun s hs => ⟨(hC s hs).1, (hC s hs).2.1⟩)
      (fun s hs => ⟨(hP s hs).1, (hP s hs).2.1⟩)).mp hh)
  unfold goRel
  rw [goClean_canon P hP, goClean_canon C hC,
    if_neg (fun hh => hjoinne (List.cons_eq_cons.mp hh).2),
    if_neg (by simp),
    relElems_canon true P hP, relElems_canon false C hC,
    goRelCore_canon P C hP]

/-- Lowercasing an absolute cleaned path exposes its folded core. -/
theorem toLower_goClean_abs (x : Str) (hx : x.head? = some sep) :
    toLowerStr (goClean x) = sep :: joinSegs (cleanLowerSegs x) := by
  rw [goClean_abs x hx]
  unfold toLowerStr
  rw [List.map_cons, show Char.toLower sep = sep from by decide]
  have h1 : List.map Char.toLower (joinSegs (cleanSegs true x))
      = joinSegs ((cleanSegs true x).map toLowerStr) := toLowerStr_joinSegs _
  rw [h1]
  rfl

theorem samePath_iff (a b : Str) (ha : a.head? = some sep)
    (hb : b.head? = some sep) :
    samePath a b = true ↔ cleanLowerSegs a = cleanLowerSegs b := by
  unfold samePath
  rw [toLower_goClean_abs a ha, toLower_goClean_abs b hb, beq_iff_eq]
  have hga : goodSegs (cleanLowerSegs a) :=
    goodSegs_map_lower _ (cleanSegs_good a)
  have hgb : goodSegs (cleanLowerSegs b) :=
    goodSegs_map_lower _ (cleanSegs_good b)
  constructor
  · intro h
    exact (joinSegs_inj _ _ (fun s hs => ⟨(hga s hs).1, (hga s hs).2.1⟩)
      (fun s hs => ⟨(hgb s hs).1, (hgb s hs).2.1⟩)).mp (List.cons_eq_cons.mp h).2
  · intro h
    rw [h]

/-- A pattern of `filepath.Rel` output that begins with `..` never
passes the two suffix checks of `isSubpath`. -/
theorem rel_up_blocked (n : Nat) (hn : 1 ≤ n) (trest : List Str) :
    ((joinSegs (List.replicate n dotdot ++ trest) == dotdot)
      || List.isPrefixOf (dotdot ++ [sep])
          (joinSegs (List.replicate n dotdot ++ trest))) = true := by
  rcases n with _ | n'
  · omega
  have hrep : List.replicate (n' + 1) dotdot ++ trest
      = dotdot :: (List.replicate n' dotdot ++ trest) := rfl
  rw [hrep]
  rcases hzs : List.replicate n' dotdot ++ trest with _ | ⟨w, ws⟩
  · rw [show joinSegs [dotdot] = dotdot from rfl]
    simp
  · rw [joinSegs_cons dotdot (w :: ws) (by simp)]
    have hpre : List.isPrefixOf (dotdot ++ [sep])
        (dotdot ++ sep :: joinSegs (w :: ws)) = true :=
      List.isPrefixOf_iff_prefix.mpr ⟨joinSegs (w :: ws), by simp⟩
    rw [hpre, Bool.or_true]

/-- The descendant test of `isSubpath` is exactly a strict
segment-prefix test on the cleaned, case-folded forms. -/
theorem isSubpath_iff_strict_pre (child parent : Str)
    (hc : child.head? = some sep) (hp : parent.head? = some sep) :
    isSubpath child parent = true ↔
      (cleanLowerSegs parent <+: cleanLowerSegs child ∧
        cleanLowerSegs parent ≠ cleanLowerSegs child) := by
  have hCc : goodSegs (cleanLowerSegs child) :=
    goodSegs_map_lower _ (cleanSegs_good child)
  have hPp : goodSegs (cleanLowerSegs parent) :=
    goodSegs_map_lower _ (cleanSegs_good parent)
  unfold isSubpath
  rw [toLower_goClean_abs child hc, toLower_goClean_abs parent hp]
  by_cases hCP : cleanLowerSegs child = cleanLowerSegs parent
  · rw [if_pos (beq_iff_eq.mpr (by rw [hCP]))]
    simp [hCP]
  · have hcond : ¬ ((sep :: joinSegs (cleanLowerSegs child)
        == sep :: joinSegs (cleanLowerSegs parent)) = true) := by
      intro hh
      exact hCP ((joinSegs_inj _ _ (fun s hs => ⟨(hCc s hs).1, (hCc s hs).2.1⟩)
        (fun s hs => ⟨(hPp s hs).1, (hPp s hs).2.1⟩)).mp
        (List.cons_eq_cons.mp (beq_iff_eq.mp hh)).2)
    rw [if_neg hcond]
    rw [goRel_canon (cleanLowerSegs parent) (cleanLowerSegs child) hPp hCc hCP]
    by_cases hpre : cleanLowerSegs parent <+: cleanLowerSegs child
    · rw [if_pos hpre]
      have hW : cleanLowerSegs child
          = cleanLowerSegs parent
            ++ (cleanLowerSegs child).drop (cleanLowerSegs parent).length := by
        rcases hpre with ⟨t, ht⟩
        rw [← ht, List.drop_left]
      have hWne : (cleanLowerSegs child).drop (cleanLowerSegs parent).length
          ≠ [] := by
        intro hh
        apply hCP
        rw [hW, hh, List.append_nil]
      have hWgood : goodSegs
          ((cleanLowerSegs child).drop (cleanLowerSegs parent).length) :=
        goodSegs_sub hCc (fun s hs => List.drop_subset _ _ hs)
      rcases good_join_not_dotdot_like _ hWgood hWne with ⟨hq1, hq2⟩
      show (!(joinSegs ((cleanLowerSegs child).drop
            (cleanLowerSegs parent).length) == dotdot)
          && !(List.isPrefixOf (dotdot ++ [sep])
            (joinSegs ((cleanLowerSegs child).drop
              (cleanLowerSegs parent).length)))) = true ↔ _
      rw [hq1, hq2]
      simp only [Bool.not_false, Bool.and_self]
      constructor
      · intro _
        exact ⟨hpre, fun hh => hCP hh.symm⟩
      · intro _
        trivial
    · rw [if_neg hpre]
      have hn : 1 ≤ (cleanLowerSegs parent).length
          - commonPrefixLen (cleanLowerSegs parent) (cleanLowerSegs child) := by
        have := commonPrefixLen_lt_of_not_prefix _ _ hpre
        omega
      have hblock := rel_up_blocked _ hn
        ((cleanLowerSegs child).drop
          (commonPrefixLen (cleanLowerSegs parent) (cleanLowerSegs child)))
      show (!(joinSegs (List.replicate _ dotdot ++ _) == dotdot)
          && !(List.isPrefixOf (dotdot ++ [sep])
            (joinSegs (List.replicate _ dotdot ++ _)))) = true ↔ _
      rw [← Bool.not_or, hblock]
      simp [hpre]

/-- C6: the pre-flight path-safety validation fails exactly when, on
the cleaned absolute forms compared case-insensitively, the two paths
are equal or one is a strict segment-descendant of the other; the
descendant test respects segment boundaries (`/src2` is not inside
`/src`) and `./a/../a` cleans to the same path as `a`. -/
theorem pathValidation_spec (absSrc absDst : Str)
    (hs : absSrc.head? = some sep) (hd : absDst.head? = some sep) :
    ((pathCheckError absSrc absDst).isSome = true ↔
      (cleanLowerSegs absSrc = cleanLowerSegs absDst ∨
        (cleanLowerSegs absSrc <+: cleanLowerSegs absDst ∧
          cleanLowerSegs absSrc ≠ cleanLowerSegs absDst) ∨
        (cleanLowerSegs absDst <+: cleanLowerSegs absSrc ∧
          cleanLowerSegs absDst ≠ cleanLowerSegs absSrc)))
    ∧ goClean (str "./a/../a") = goClean (str "a")
    ∧ isSubpath (str "/src2") (str "/src") = false := by
  refine ⟨?_, by rfl, by rfl⟩
  unfold pathCheckError
  by_cases h1 : cleanLowerSegs absSrc = cleanLowerSegs absDst
  · rw [if_pos ((samePath_iff absSrc absDst hs hd).mpr h1)]
    exact ⟨fun _ => Or.inl h1, fun _ => rfl⟩
  · rw [if_neg (fun hh => h1 ((samePath_iff absSrc absDst hs hd).mp hh))]
    by_cases h2 : cleanLowerSegs absSrc <+: cleanLowerSegs absDst ∧
        cleanLowerSegs absSrc ≠ cleanLowerSegs absDst
    · rw [if_pos ((isSubpath_iff_strict_pre absDst absSrc hd hs).mpr h2)]
      exact ⟨fun _ => Or.inr (Or.inl h2), fun _ => rfl⟩
    · rw [if_neg (fun hh => h2
        ((isSubpath_iff_strict_pre absDst absSrc hd hs).mp hh))]
      by_cases h3 : cleanLowerSegs absDst <+: cleanLowerSegs absSrc ∧
          cleanLowerSegs absDst ≠ cleanLowerSegs absSrc
      · rw [if_pos ((isSubpath_iff_strict_pre absSrc absDst hs hd).mpr h3)]
        exact ⟨fun _ => Or.inr (Or.inr h3), fun _ => rfl⟩
      · rw [if_neg (fun hh => h3
          ((isSubpath_iff_strict_pre absSrc absDst hs hd).mp hh))]
        constructor
        · intro hh
          simp at hh
        · rintro (hh | hh | hh)
          · exact absurd hh h1
          · exact absurd hh h2
          · exact absurd hh h3

/-- C6 witness: the validation characterization instantiated at a
nested pair of absolute paths. -/
theorem pathValidation_spec_witness :
    (str "/a/b").head? = some sep ∧ (str "/a/b/c").head? = some sep ∧
      (((pathCheckError (str "/a/b") (str "/a/b/c")).isSome = true ↔
        (cleanLowerSegs (str "/a/b") = cleanLowerSegs (str "/a/b/c") ∨
          (cleanLowerSegs (str "/a/b") <+: cleanLowerSegs (str "/a/b/c") ∧
            cleanLowerSegs (str "/a/b") ≠ cleanLowerSegs (str "/a/b/c")) ∨
          (cleanLowerSegs (str "/a/b/c") <+: cleanLowerSegs (str "/a/b") ∧
            cleanLowerSegs (str "/a/b/c") ≠ cleanLowerSegs (str "/a/b"))))
      ∧ goClean (str "./a/../a") = goClean (str "a")
      ∧ isSubpath (str "/src2") (str "/src") = false) :=
  ⟨rfl, rfl, pathValidation_spec (str "/a/b") (str "/a/b/c") rfl rfl⟩

/-! ### Filesystem model and the sync engine (`syncDir` and helpers)

The filesystem is a finite tree of regular files and directories; a
directory's entries are listed in the order `filepath.WalkDir` visits
them (it sorts each directory it reads).  The destination state is an
`Option FSTree`: `none` means the destination root does not exist yet.
Relative paths are segment lists; the string passed to `shouldExclude`
is their joined form, exactly as `filepath.Rel` produces it.

The recursive walks carry a fuel argument so that every function is
executable by kernel reduction; running out of fuel is the
distinguished error `SyncErr.fuelOut`, which no theorem's successful
run exhibits.  `os.Lstat` on the source is the function parameter
`Probe` (instantiated with a lookup in the source tree by `syncDir`),
which is the only place the model can surface the "error other than
not-exists" branch of the mirror pass. -/

/-- A filesystem node. -/
inductive FSTree where
  | file (meta : FileMeta)
  | dir (entries : List (Str × FSTree))

abbrev Entry := Str × FSTree

/-- `options` from src/main.go. -/
structure options where
  recursive : Bool
  mirror : Bool
  dryRun : Bool
  excludes : List Str
  verbose : Bool
  checksum : Bool

/-- Errors a synchronization can abort with in the model. -/
inductive SyncErr where
  | fuelOut
  | mkdirFailed
  | openFileIsDir
  | readDirRemoved
  | probeFailed
  | mirrorRootMissing
deriving DecidableEq

/-- First entry of a directory listing with the given name. -/
def findEntry (es : List Entry) (name : Str) : Option FSTree :=
  match es with
  | [] => none
  | (n, t) :: rest => if n = name then some t else findEntry rest name

/-- Resolve a relative path against the (possibly missing) root. -/
def lookupTree : Option FSTree → List Str → Option FSTree
  | t, [] => t
  | some (.dir es), n :: rest => lookupTree (findEntry es n) rest
  | _, _ :: _ => none

/-- Replace the first entry with the given name. -/
def replaceEntry (es : List Entry) (name : Str) (t : FSTree) : List Entry :=
  match es with
  | [] => []
  | (n, u) :: rest =>
    if n = name then (n, t) :: rest else (n, u) :: replaceEntry rest name t

/-- A fresh chain of directories for the tail of an `os.MkdirAll`. -/
def mkChain : List Str → FSTree
  | [] => .dir []
  | n :: rest => .dir [(n, mkChain rest)]

/-- `os.MkdirAll` below an existing root: creates every missing
directory on the path, fails with `ENOTDIR` when a regular file is in
the way, and reports how many directories it created. -/
def mkdirTree : FSTree → List Str → Except Unit (FSTree × Nat)
  | .file _, _ => .error ()
  | .dir es, [] => .ok (.dir es, 0)
  | .dir es, n :: rest =>
    match findEntry es n with
    | some sub =>
      match mkdirTree sub rest with
      | .error e => .error e
      | .ok (sub2, c) => .ok (.dir (replaceEntry es n sub2), c)
    | none => .ok (.dir (es ++ [(n, mkChain rest)]), rest.length + 1)

/-- `os.MkdirAll` including creation of the destination root. -/
def mkdirAllSt : Option FSTree → List Str → Except Unit (FSTree × Nat)
  | none, p => .ok (mkChain p, p.length + 1)
  | some t, p =>
    match mkdirTree t p with
    | .error e => .error e
    | .ok (t2, c) => .ok (t2, c)

/-- Create or truncate-and-rewrite the regular file at a path whose
parent directories exist (the branches for a missing parent or for a
file blocking the way are unreachable after `mkdirAll` and the
directory pre-check, and leave the tree unchanged). -/
def writeFileTree : FSTree → List Str → FileMeta → FSTree
  | t, [], _ => t
  | .file m0, _ :: _, _ => .file m0
  | .dir es, [n], m =>
    match findEntry es n with
    | some (.dir _) => .dir es
    | some (.file _) => .dir (replaceEntry es n (.file m))
    | none => .dir (es ++ [(n, .file m)])
  | .dir es, n :: n2 :: rest, m =>
    match findEntry es n with
    | some sub => .dir (replaceEntry es n (writeFileTree sub (n2 :: rest) m))
    | none => .dir es

/-- Result of a pass (or sub-walk) of the engine: the destination
state, the file copies actually performed, the number of directories
actually created, and the error that aborted the walk, if any. -/
structure SyncRes where
  dst : Option FSTree
  copies : List (List Str)
  created : Nat
  err : Option SyncErr

/-- `ensureDir` from src/main.go: a dry run only reports; otherwise
`os.MkdirAll`. -/
def ensureDir (rel : List Str) (st : Option FSTree) (opt : options) : SyncRes :=
  if opt.dryRun then ⟨st, [], 0, none⟩
  else
    match mkdirAllSt st rel with
    | .error _ => ⟨st, [], 0, some .mkdirFailed⟩
    | .ok (t2, c) => ⟨some t2, [], c, none⟩

/-- `copyOneFile` from src/main.go: a dry run only reports; otherwise
ensure the parent directory, open/create/truncate the destination
(EISDIR when a directory sits at the destination path), stream the
content and set the destination's modification time to the source's. -/
def copyOneFile (rel : List Str) (m : FileMeta) (st : Option FSTree)
    (opt : options) : SyncRes :=
  if opt.dryRun then ⟨st, [], 0, none⟩
  else
    match mkdirAllSt st rel.dropLast with
    | .error _ => ⟨st, [], 0, some .mkdirFailed⟩
    | .ok (t2, c) =>
      match lookupTree (some t2) rel with
      | some (.dir _) => ⟨some t2, [], c, some .openFileIsDir⟩
      | _ => ⟨some (writeFileTree t2 rel m), [rel], c, none⟩

/-- `syncFile` from src/main.go: skip when an equivalent regular file
already sits at the destination path, copy otherwise. -/
def syncFile (rel : List Str) (srcMeta : FileMeta) (st : Option FSTree)
    (opt : options) : SyncRes :=
  match lookupTree st rel with
  | some (.file dMeta) =>
    if sameFile srcMeta dMeta opt.checksum then ⟨st, [], 0, none⟩
    else copyOneFile rel srcMeta st opt
  | _ => copyOneFile rel srcMeta st opt

/-- The fold step of the forward walk over one directory listing,
parameterized by the recursive visit of the next depth. -/
def fwdStepG (recurse : List Str → FSTree → Option FSTree → SyncRes)
    (rel : List Str) (acc : SyncRes) (e : Entry) : SyncRes :=
  if acc.err.isSome then acc
  else
    ⟨(recurse (rel ++ [e.1]) e.2 acc.dst).dst,
      acc.copies ++ (recurse (rel ++ [e.1]) e.2 acc.dst).copies,
      acc.created + (recurse (rel ++ [e.1]) e.2 acc.dst).created,
      (recurse (rel ++ [e.1]) e.2 acc.dst).err⟩

/-- The forward walk of one directory: ensure the destination
directory, then fold over the listing, stopping at the first error
exactly as `filepath.WalkDir` aborts when the callback returns one. -/
def fwdDir (recurse : List Str → FSTree → Option FSTree → SyncRes)
    (opt : options) (rel : List Str) (es : List Entry)
    (st : Option FSTree) : SyncRes :=
  if (ensureDir rel st opt).err.isSome then ensureDir rel st opt
  else
    es.foldl (fwdStepG recurse rel)
      ⟨(ensureDir rel st opt).dst, (ensureDir rel st opt).copies,
        (ensureDir rel st opt).created, none⟩

/-- One visited source entry of the forward (copy) pass of `syncDir`:
an excluded directory's subtree is skipped whole, an excluded file is
skipped, a directory is ensured then walked, a file is synchronized. -/
def fwdBody (recurse : List Str → FSTree → Option FSTree → SyncRes)
    (opt : options) (rel : List Str) (t : FSTree)
    (st : Option FSTree) : SyncRes :=
  if shouldExclude (joinSegs rel) opt.excludes then ⟨st, [], 0, none⟩
  else
    match t with
    | .file m => syncFile rel m st opt
    | .dir es => fwdDir recurse opt rel es st

/-- The bounded forward visit. -/
def fwdVisit : Nat → options → List Str → FSTree → Option FSTree → SyncRes
  | 0, _, _, _, st => ⟨st, [], 0, some .fuelOut⟩
  | fuel + 1, opt, rel, t, st =>
    fwdBody (fun rel2 t2 st2 => fwdVisit fuel opt rel2 t2 st2) opt rel t st

/-- The recursive visit at a given fuel, as passed to the folds. -/
def fwdRec (fuel : Nat) (opt : options) :
    List Str → FSTree → Option FSTree → SyncRes :=
  fun rel t st => fwdVisit fuel opt rel t st

/-- The fold step of the bounded forward walk. -/
def fwdStep (fuel : Nat) (opt : options) (rel : List Str) :
    SyncRes → Entry → SyncRes :=
  fwdStepG (fwdRec fuel opt) rel

/-- The forward pass of `syncDir`: the root visit (`rel = "."`)
ensures the destination root, then the source root's entries are
walked. -/
def forwardPass (fuel : Nat) (opt : options) (srcEntries : List Entry)
    (dst : Option FSTree) : SyncRes :=
  if (ensureDir [] dst opt).err.isSome then ensureDir [] dst opt
  else
    srcEntries.foldl (fwdStep fuel opt [])
      ⟨(ensureDir [] dst opt).dst, (ensureDir [] dst opt).copies,
        (ensureDir [] dst opt).created, none⟩

/-- Outcome of `os.Lstat` on a source path, at the dependency
boundary of the mirror pass. -/
inductive LstatErr where
  | notExist
  | other
deriving DecidableEq

abbrev Probe := List Str → Except LstatErr Unit

/-- The probe `syncDir` actually uses: `os.Lstat(filepath.Join(src,
rel))` over the source tree, an existence check only. -/
def lstatIn (srcEntries : List Entry) : Probe := fun rel =>
  match lookupTree (some (.dir srcEntries)) rel with
  | some _ => .ok ()
  | none => .error .notExist

/-- The fold step of the mirror walk over one directory listing,
parameterized by the recursive visit of the next depth.  After an
error the remaining entries are kept untouched (the walk aborted). -/
def mirStepG (recurse : List Str → FSTree → Option FSTree × Option SyncErr)
    (rel : List Str) (acc : List Entry × Option SyncErr) (e : Entry) :
    List Entry × Option SyncErr :=
  match acc.2 with
  | some _ => (acc.1 ++ [e], acc.2)
  | none =>
    match recurse (rel ++ [e.1]) e.2 with
    | (some t2, err2) => (acc.1 ++ [(e.1, t2)], err2)
    | (none, err2) => (acc.1, err2)

/-- The mirror walk of one kept directory's listing. -/
def mirDir (recurse : List Str → FSTree → Option FSTree × Option SyncErr)
    (rel : List Str) (es : List Entry) : List Entry × Option SyncErr :=
  es.foldl (mirStepG recurse rel) ([], none)

/-- One visited destination entry of the mirror pass.  Excluded
entries are kept with their whole subtree (`fs.SkipDir` for a
directory).  A kept directory is walked.  A missing path is deleted:
for a file the walk then continues; for a directory `os.RemoveAll`
succeeds and `filepath.WalkDir` then fails reading the removed
directory (ENOENT), which the callback returns, aborting the walk.  In
a dry run `removePath` only logs, so the walk descends even into
directories it just reported as deleted.  Any other probe error is
returned and aborts the walk. -/
def mirBody (recurse : List Str → FSTree → Option FSTree × Option SyncErr)
    (opt : options) (probe : Probe) (rel : List Str) (t : FSTree) :
    Option FSTree × Option SyncErr :=
  if shouldExclude (joinSegs rel) opt.excludes then (some t, none)
  else
    match probe rel with
    | .ok _ =>
      match t with
      | .file m => (some (.file m), none)
      | .dir es =>
        (some (.dir (mirDir recurse rel es).1), (mirDir recurse rel es).2)
    | .error .notExist =>
      if opt.dryRun then
        match t with
        | .file m => (some (.file m), none)
        | .dir es =>
          (some (.dir (mirDir recurse rel es).1), (mirDir recurse rel es).2)
      else
        match t with
        | .file _ => (none, none)
        | .dir _ => (none, some .readDirRemoved)
    | .error .other => (some t, some .probeFailed)

/-- The bounded mirror visit. -/
def mirVisit : Nat → options → Probe → List Str → FSTree →
    Option FSTree × Option SyncErr
  | 0, _, _, _, t => (some t, some .fuelOut)
  | fuel + 1, opt, probe, rel, t =>
    mirBody (fun rel2 t2 => mirVisit fuel opt probe rel2 t2) opt probe rel t

/-- The recursive mirror visit at a given fuel, as passed to the folds. -/
def mirRec (fuel : Nat) (opt : options) (probe : Probe) :
    List Str → FSTree → Option FSTree × Option SyncErr :=
  fun rel t => mirVisit fuel opt probe rel t

/-- The fold step of the bounded mirror walk. -/
def mirStep (fuel : Nat) (opt : options) (probe : Probe) (rel : List Str) :
    List Entry × Option SyncErr → Entry → List Entry × Option SyncErr :=
  mirStepG (mirRec fuel opt probe) rel

/-- The mirror pass of `syncDir`: the root is visited first with
`rel = "."` and is never a deletion candidate; a missing root fails
the walk's initial `Lstat`; a file root has no entries to walk. -/
def mirrorPass (fuel : Nat) (opt : options) (probe : Probe)
    (dst : Option FSTree) : Option FSTree × Option SyncErr :=
  match dst with
  | none => (none, some .mirrorRootMissing)
  | some (.file m) => (some (.file m), none)
  | some (.dir es) =>
    ((some (.dir (mirDir (mirRec fuel opt probe) [] es).1) : Option FSTree),
      (mirDir (mirRec fuel opt probe) [] es).2)

/-- `syncDir` from src/main.go: the forward (copy) pass over the
source, then, in mirror mode, the deletion pass over the destination. -/
def syncDir (fuel : Nat) (opt : options) (srcEntries : List Entry)
    (dst : Option FSTree) : SyncRes :=
  if (forwardPass fuel opt srcEntries dst).err.isSome then
    forwardPass fuel opt srcEntries dst
  else if opt.mirror then
    ⟨(mirrorPass fuel opt (lstatIn srcEntries)
        (forwardPass fuel opt srcEntries dst).dst).1,
      (forwardPass fuel opt srcEntries dst).copies,
      (forwardPass fuel opt srcEntries dst).created,
      (mirrorPass fuel opt (lstatIn srcEntries)
        (forwardPass fuel opt srcEntries dst).dst).2⟩
  else forwardPass fuel opt srcEntries dst

/-- A path is effectively excluded when the walk never processes it:
some nonempty prefix of it (possibly itself) matches the exclusion
rules, so the walk skipped it or cut its subtree. -/
def exclEff (rel : List Str) (patterns : List Str) : Bool :=
  (List.range rel.length).any
    (fun i => shouldExclude (joinSegs (rel.take (i + 1))) patterns)

/-- Presence of a relative path in a (possibly missing) tree. -/
def memPath (st : Option FSTree) (p : List Str) : Bool :=
  (lookupTree st p).isSome

/-! ### Equation lemmas and generic fold invariants -/

theorem foldl_inv {α β : Type} (P : α → Prop) (f : α → β → α) (l : List β)
    (hf : ∀ acc e, e ∈ l → P acc → P (f acc e)) (acc : α) (h : P acc) :
    P (l.foldl f acc) := by
  induction l generalizing acc with
  | nil => exact h
  | cons e l' ih =>
    rw [List.foldl_cons]
    exact ih (fun a b hb ha => hf a b (by simp [hb]) ha) (f acc e)
      (hf acc e (by simp) h)

theorem fwdVisit_zero (opt : options) (rel : List Str) (t : FSTree)
    (st : Option FSTree) :
    fwdVisit 0 opt rel t st = ⟨st, [], 0, some .fuelOut⟩ := rfl

theorem fwdVisit_excl (fuel : Nat) (opt : options) (rel : List Str)
    (t : FSTree) (st : Option FSTree)
    (h : shouldExclude (joinSegs rel) opt.excludes = true) :
    fwdVisit (fuel + 1) opt rel t st = ⟨st, [], 0, none⟩ := by
  unfold fwdVisit fwdBody
  rw [if_pos h]

theorem fwdVisit_file (fuel : Nat) (opt : options) (rel : List Str)
    (m : FileMeta) (st : Option FSTree)
    (h : shouldExclude (joinSegs rel) opt.excludes = false) :
    fwdVisit (fuel + 1) opt rel (.file m) st = syncFile rel m st opt := by
  unfold fwdVisit fwdBody
  rw [if_neg (by simp [h])]

theorem fwdVisit_dir (fuel : Nat) (opt : options) (rel : List Str)
    (es : List Entry) (st : Option FSTree)
    (h : shouldExclude (joinSegs rel) opt.excludes = false)
    (he : (ensureDir rel st opt).err = none) :
    fwdVisit (fuel + 1) opt rel (.dir es) st
      = es.foldl (fwdStep fuel opt rel)
          ⟨(ensureDir rel st opt).dst, (ensureDir rel st opt).copies,
            (ensureDir rel st opt).created, none⟩ := by
  unfold fwdVisit fwdBody
  rw [if_neg (by simp [h])]
  show (if (ensureDir rel st opt).err.isSome = true then ensureDir rel st opt
      else es.foldl (fwdStep fuel opt rel)
        ⟨(ensureDir rel st opt).dst, (ensureDir rel st opt).copies,
          (ensureDir rel st opt).created, none⟩) = _
  rw [if_neg (by simp [he])]

theorem fwdVisit_dir_err (fuel : Nat) (opt : options) (rel : List Str)
    (es : List Entry) (st : Option FSTree)
    (h : shouldExclude (joinSegs rel) opt.excludes = false)
    (he : (ensureDir rel st opt).err.isSome = true) :
    fwdVisit (fuel + 1) opt rel (.dir es) st = ensureDir rel st opt := by
  unfold fwdVisit fwdBody
  rw [if_neg (by simp [h])]
  show (if (ensureDir rel st opt).err.isSome = true then ensureDir rel st opt
      else es.foldl (fwdStep fuel opt rel)
        ⟨(ensureDir rel st opt).dst, (ensureDir rel st opt).copies,
          (ensureDir rel st opt).created, none⟩) = _
  rw [if_pos he]

theorem forwardPass_eq (fuel : Nat) (opt : options) (srcE : List Entry)
    (dst : Option FSTree) (he : (ensureDir [] dst opt).err = none) :
    forwardPass fuel opt srcE dst
      = srcE.foldl (fwdStep fuel opt [])
          ⟨(ensureDir [] dst opt).dst, (ensureDir [] dst opt).copies,
            (ensureDir [] dst opt).created, none⟩ := by
  unfold forwardPass
  rw [if_neg (by simp [he])]

theorem mirVisit_zero (opt : options) (probe : Probe) (rel : List Str)
    (t : FSTree) : mirVisit 0 opt probe rel t = (some t, some .fuelOut) := rfl

theorem mirVisit_excl (fuel : Nat) (opt : options) (probe : Probe)
    (rel : List Str) (t : FSTree)
    (h : shouldExclude (joinSegs rel) opt.excludes = true) :
    mirVisit (fuel + 1) opt probe rel t = (some t, none) := by
  unfold mirVisit mirBody
  rw [if_pos h]

theorem mirVisit_ok_file (fuel : Nat) (opt : options) (probe : Probe)
    (rel : List Str) (m : FileMeta)
    (h : shouldExclude (joinSegs rel) opt.excludes = false)
    (hp : probe rel = .ok ()) :
    mirVisit (fuel + 1) opt probe rel (.file m) = (some (.file m), none) := by
  unfold mirVisit mirBody
  rw [if_neg (by simp [h]), hp]

theorem mirVisit_ok_dir (fuel : Nat) (opt : options) (probe : Probe)
    (rel : List Str) (es : List Entry)
    (h : shouldExclude (joinSegs rel) opt.excludes = false)
    (hp : probe rel = .ok ()) :
    mirVisit (fuel + 1) opt probe rel (.dir es)
      = (some (.dir (es.foldl (mirStep fuel opt probe rel) ([], none)).1),
         (es.foldl (mirStep fuel opt probe rel) ([], none)).2) := by
  unfold mirVisit mirBody
  rw [if_neg (by simp [h]), hp]
  rfl

theorem mirVisit_gone_file (fuel : Nat) (opt : options) (probe : Probe)
    (rel : List Str) (m : FileMeta)
    (h : shouldExclude (joinSegs rel) opt.excludes = false)
    (hp : probe rel = .error .notExist) (hd : opt.dryRun = false) :
    mirVisit (fuel + 1) opt probe rel (.file m) = (none, none) := by
  unfold mirVisit mirBody
  rw [if_neg (by simp [h]), hp]
  simp [hd]

theorem mirVisit_gone_dir (fuel : Nat) (opt : options) (probe : Probe)
    (rel : List Str) (es : List Entry)
    (h : shouldExclude (joinSegs rel) opt.excludes = false)
    (hp : probe rel = .error .notExist) (hd : opt.dryRun = false) :
    mirVisit (fuel + 1) opt probe rel (.dir es)
      = (none, some .readDirRemoved) := by
  unfold mirVisit mirBody
  rw [if_neg (by simp [h]), hp]
  simp [hd]

theorem mirVisit_gone_dry_file (fuel : Nat) (opt : options) (probe : Probe)
    (rel : List Str) (m : FileMeta)
    (h : shouldExclude (joinSegs rel) opt.excludes = false)
    (hp : probe rel = .error .notExist) (hd : opt.dryRun = true) :
    mirVisit (fuel + 1) opt probe rel (.file m) = (some (.file m), none) := by
  unfold mirVisit mirBody
  rw [if_neg (by simp [h]), hp]
  simp [hd]

theorem mirVisit_gone_dry_dir (fuel : Nat) (opt : options) (probe : Probe)
    (rel : List Str) (es : List Entry)
    (h : shouldExclude (joinSegs rel) opt.excludes = false)
    (hp : probe rel = .error .notExist) (hd : opt.dryRun = true) :
    mirVisit (fuel + 1) opt probe rel (.dir es)
      = (some (.dir (es.foldl (mirStep fuel opt probe rel) ([], none)).1),
         (es.foldl (mirStep fuel opt probe rel) ([], none)).2) := by
  unfold mirVisit mirBody
  rw [if_neg (by simp [h]), hp]
  simp [hd]
  exact ⟨rfl, rfl⟩

theorem mirVisit_other (fuel : Nat) (opt : options) (probe : Probe)
    (rel : List Str) (t : FSTree)
    (h : shouldExclude (joinSegs rel) opt.excludes = false)
    (hp : probe rel = .error .other) :
    mirVisit (fuel + 1) opt probe rel t = (some t, some .probeFailed) := by
  unfold mirVisit mirBody
  rw [if_neg (by simp [h]), hp]

theorem mirrorPass_dir (fuel : Nat) (opt : options) (probe : Probe)
    (es : List Entry) :
    mirrorPass fuel opt probe (some (.dir es))
      = (some (.dir (es.foldl (mirStep fuel opt probe []) ([], none)).1),
         (es.foldl (mirStep fuel opt probe []) ([], none)).2) := rfl

theorem syncDir_fwd_err (fuel : Nat) (opt : options) (srcE : List Entry)
    (dst : Option FSTree)
    (he : (forwardPass fuel opt srcE dst).err.isSome = true) :
    syncDir fuel opt srcE dst = forwardPass fuel opt srcE dst := by
  unfold syncDir
  rw [if_pos he]

theorem syncDir_mirror (fuel : Nat) (opt : options) (srcE : List Entry)
    (dst : Option FSTree)
    (he : (forwardPass fuel opt srcE dst).err = none)
    (hm : opt.mirror = true) :
    syncDir fuel opt srcE dst
      = ⟨(mirrorPass fuel opt (lstatIn srcE)
            (forwardPass fuel opt srcE dst).dst).1,
          (forwardPass fuel opt srcE dst).copies,
          (forwardPass fuel opt srcE dst).created,
          (mirrorPass fuel opt (lstatIn srcE)
            (forwardPass fuel opt srcE dst).dst).2⟩ := by
  unfold syncDir
  rw [if_neg (by simp [he]), if_pos hm]

theorem syncDir_nomirror (fuel : Nat) (opt : options) (srcE : List Entry)
    (dst : Option FSTree)
    (he : (forwardPass fuel opt srcE dst).err = none)
    (hm : opt.mirror = false) :
    syncDir fuel opt srcE dst = forwardPass fuel opt srcE dst := by
  unfold syncDir
  rw [if_neg (by simp [he]), if_neg (by simp [hm])]

/-- The mirror fold keeps an error once one is set, appending the
remaining entries untouched. -/
theorem mir_fold_err (fuel : Nat) (opt : options) (probe : Probe)
    (rel : List Str) (es : List Entry) :
    ∀ (pre : List Entry) (e0 : SyncErr),
      (es.foldl (mirStep fuel opt probe rel) (pre, some e0)).2 = some e0 := by
  induction es with
  | nil => intro pre e0; rfl
  | cons e es' ih =>
    intro pre e0
    rw [List.foldl_cons, show mirStep fuel opt probe rel (pre, some e0) e
        = (pre ++ [e], some e0) from rfl]
    exact ih (pre ++ [e]) e0

/-- When every visited child is kept unchanged, the mirror fold is the
identity on the directory listing. -/
theorem mir_fold_id (fuel : Nat) (opt : options) (probe : Probe)
    (rel : List Str) (es : List Entry)
    (hvis : ∀ e ∈ es, (mirVisit fuel opt probe (rel ++ [e.1]) e.2).1 = some e.2) :
    ∀ (pre : List Entry) (err0 : Option SyncErr),
      (es.foldl (mirStep fuel opt probe rel) (pre, err0)).1 = pre ++ es := by
  induction es with
  | nil => intro pre err0; simp
  | cons e es' ih =>
    intro pre err0
    rw [List.foldl_cons]
    rcases err0 with _ | e0
    · rcases hmv : mirVisit fuel opt probe (rel ++ [e.1]) e.2 with ⟨v1, v2⟩
      have hv1 : v1 = some e.2 := by
        have h2 := hvis e (by simp)
        rw [hmv] at h2
        exact h2
      subst hv1
      rw [show mirStep fuel opt probe rel (pre, none) e
          = (pre ++ [(e.1, e.2)], v2) from by
        unfold mirStep mirStepG mirRec
        rw [hmv]]
      rw [ih (fun e2 he2 => hvis e2 (by simp [he2])) (pre ++ [(e.1, e.2)]) v2]
      simp
    · rw [show mirStep fuel opt probe rel (pre, some e0) e
          = (pre ++ [e], some e0) from rfl]
      rw [ih (fun e2 he2 => hvis e2 (by simp [he2])) (pre ++ [e]) (some e0)]
      simp

/-! ### C9: dry run performs no mutation -/

theorem ensureDir_dry (rel : List Str) (st : Option FSTree) (opt : options)
    (h : opt.dryRun = true) : ensureDir rel st opt = ⟨st, [], 0, none⟩ := by
  unfold ensureDir
  rw [if_pos h]

theorem copyOneFile_dry (rel : List Str) (m : FileMeta) (st : Option FSTree)
    (opt : options) (h : opt.dryRun = true) :
    copyOneFile rel m st opt = ⟨st, [], 0, none⟩ := by
  unfold copyOneFile
  rw [if_pos h]

theorem syncFile_dry (rel : List Str) (m : FileMeta) (st : Option FSTree)
    (opt : options) (h : opt.dryRun = true) :
    syncFile rel m st opt = ⟨st, [], 0, none⟩ := by
  unfold syncFile
  rcases hl : lookupTree st rel with _ | t
  · show copyOneFile rel m st opt = _
    exact copyOneFile_dry rel m st opt h
  · rcases t with m2 | es
    · show (if sameFile m m2 opt.checksum = true then
          (⟨st, [], 0, none⟩ : SyncRes) else copyOneFile rel m st opt) = _
      by_cases hs : sameFile m m2 opt.checksum = true
      · rw [if_pos hs]
      · rw [if_neg hs]
        exact copyOneFile_dry rel m st opt h
    · show copyOneFile rel m st opt = _
      exact copyOneFile_dry rel m st opt h

theorem fwdVisit_dry (opt : options) (h : opt.dryRun = true) :
    ∀ (fuel : Nat) (rel : List Str) (t : FSTree) (st : Option FSTree),
      (fwdVisit fuel opt rel t st).dst = st ∧
      (fwdVisit fuel opt rel t st).copies = [] ∧
      (fwdVisit fuel opt rel t st).created = 0 := by
  intro fuel
  induction fuel with
  | zero => intro rel t st; exact ⟨rfl, rfl, rfl⟩
  | succ f ih =>
    intro rel t st
    by_cases hex : shouldExclude (joinSegs rel) opt.excludes = true
    · rw [fwdVisit_excl f opt rel t st hex]
      exact ⟨rfl, rfl, rfl⟩
    · have hex2 : shouldExclude (joinSegs rel) opt.excludes = false := by
        simpa using hex
      rcases t with m | es
      · rw [fwdVisit_file f opt rel m st hex2, syncFile_dry rel m st opt h]
        exact ⟨rfl, rfl, rfl⟩
      · rw [fwdVisit_dir f opt rel es st hex2
          (by rw [ensureDir_dry rel st opt h]),
          ensureDir_dry rel st opt h]
        refine foldl_inv
          (fun r => r.dst = st ∧ r.copies = [] ∧ r.created = 0)
          (fwdStep f opt rel) es ?_ _ ?_
        · rintro acc e hmem ⟨h1, h2, h3⟩
          unfold fwdStep fwdStepG fwdRec
          by_cases herr : acc.err.isSome = true
          · rw [if_pos herr]
            exact ⟨h1, h2, h3⟩
          · rw [if_neg herr]
            rcases ih (rel ++ [e.1]) e.2 acc.dst with ⟨g1, g2, g3⟩
            refine ⟨by rw [g1, h1], by simp [g2, h2], by simp [g3, h3]⟩
        · exact ⟨rfl, rfl, rfl⟩

theorem forwardPass_dry (fuel : Nat) (opt : options) (srcE : List Entry)
    (dst : Option FSTree) (h : opt.dryRun = true) :
    (forwardPass fuel opt srcE dst).dst = dst ∧
    (forwardPass fuel opt srcE dst).copies = [] ∧
    (forwardPass fuel opt srcE dst).created = 0 := by
  rw [forwardPass_eq fuel opt srcE dst (by rw [ensureDir_dry [] dst opt h]),
    ensureDir_dry [] dst opt h]
  refine foldl_inv (fun r => r.dst = dst ∧ r.copies = [] ∧ r.created = 0)
    (fwdStep fuel opt []) srcE ?_ _ ?_
  · rintro acc e hmem ⟨h1, h2, h3⟩
    unfold fwdStep fwdStepG fwdRec
    by_cases herr : acc.err.isSome = true
    · rw [if_pos herr]
      exact ⟨h1, h2, h3⟩
    · rw [if_neg herr]
      rcases fwdVisit_dry opt h fuel ([] ++ [e.1]) e.2 acc.dst with ⟨g1, g2, g3⟩
      exact ⟨by rw [g1, h1], by rw [g2, h2]; rfl, by rw [g3, h3]⟩
  · exact ⟨rfl, rfl, rfl⟩

theorem mirVisit_keep_dry (opt : options) (probe : Probe)
    (h : opt.dryRun = true) :
    ∀ (fuel : Nat) (rel : List Str) (t : FSTree),
      (mirVisit fuel opt probe rel t).1 = some t := by
  intro fuel
  induction fuel with
  | zero => intro rel t; rfl
  | succ f ih =>
    intro rel t
    by_cases hex : shouldExclude (joinSegs rel) opt.excludes = true
    · rw [mirVisit_excl f opt probe rel t hex]
    · have hex2 : shouldExclude (joinSegs rel) opt.excludes = false := by
        simpa using hex
      rcases hp : probe rel with e | u
      · rcases e with _ | _
        · rcases t with m | es
          · rw [mirVisit_gone_dry_file f opt probe rel m hex2 hp h]
          · rw [mirVisit_gone_dry_dir f opt probe rel es hex2 hp h]
            rw [mir_fold_id f opt probe rel es
              (fun e2 _ => ih (rel ++ [e2.1]) e2.2) [] none]
            simp
        · rw [mirVisit_other f opt probe rel t hex2 hp]
      · rcases t with m | es
        · rw [mirVisit_ok_file f opt probe rel m hex2 (by rw [hp])]
        · rw [mirVisit_ok_dir f opt probe rel es hex2 (by rw [hp])]
          rw [mir_fold_id f opt probe rel es
            (fun e2 _ => ih (rel ++ [e2.1]) e2.2) [] none]
          simp

theorem mirrorPass_keep_dry (fuel : Nat) (opt : options) (probe : Probe)
    (dst : Option FSTree) (h : opt.dryRun = true) :
    (mirrorPass fuel opt probe dst).1 = dst := by
  rcases dst with _ | t
  · rfl
  · rcases t with m | es
    · rfl
    · rw [mirrorPass_dir fuel opt probe es]
      rw [mir_fold_id fuel opt probe [] es
        (fun e2 _ => mirVisit_keep_dry opt probe h fuel ([] ++ [e2.1]) e2.2)
        [] none]
      simp

/-- C9: with the dry-run flag set, a full synchronization (both
passes) performs no filesystem mutation: the destination tree is
untouched, no file is copied and no directory is created — every
decision is only computed and reported. -/
theorem dryRun_no_mutation (fuel : Nat) (opt : options) (srcE : List Entry)
    (dst : Option FSTree) (h : opt.dryRun = true) :
    (syncDir fuel opt srcE dst).dst = dst ∧
    (syncDir fuel opt srcE dst).copies = [] ∧
    (syncDir fuel opt srcE dst).created = 0 := by
  rcases forwardPass_dry fuel opt srcE dst h with ⟨f1, f2, f3⟩
  unfold syncDir
  by_cases he : (forwardPass fuel opt srcE dst).err.isSome = true
  · rw [if_pos he]
    exact ⟨f1, f2, f3⟩
  · rw [if_neg he]
    by_cases hm : opt.mirror = true
    · rw [if_pos hm]
      refine ⟨?_, f2, f3⟩
      rw [mirrorPass_keep_dry fuel opt (lstatIn srcE)
        (forwardPass fuel opt srcE dst).dst h, f1]
    · rw [if_neg hm]
      exact ⟨f1, f2, f3⟩

/-- C9 witness: a dry mirror run over a concrete tree leaves the
destination exactly as it was. -/
theorem dryRun_no_mutation_witness :
    (⟨true, true, true, [], false, false⟩ : options).dryRun = true ∧
      ((syncDir 3 ⟨true, true, true, [], false, false⟩
          [(str "a", .file ⟨[1], 0⟩)]
          (some (.dir [(str "b", .file ⟨[2], 5⟩)]))).dst
        = some (.dir [(str "b", .file ⟨[2], 5⟩)]) ∧
       (syncDir 3 ⟨true, true, true, [], false, false⟩
          [(str "a", .file ⟨[1], 0⟩)]
          (some (.dir [(str "b", .file ⟨[2], 5⟩)]))).copies = [] ∧
       (syncDir 3 ⟨true, true, true, [], false, false⟩
          [(str "a", .file ⟨[1], 0⟩)]
          (some (.dir [(str "b", .file ⟨[2], 5⟩)]))).created = 0) :=
  ⟨rfl, dryRun_no_mutation 3 ⟨true, true, true, [], false, false⟩
    [(str "a", .file ⟨[1], 0⟩)]
    (some (.dir [(str "b", .file ⟨[2], 5⟩)])) rfl⟩

/-! ### C2: the mirror deletion of an extra directory aborts the run -/

/-- C2 (code demonstration): on a destination holding one extra
directory `b`, the non-dry mirror run deletes `b` (`os.RemoveAll`)
and then fails: `filepath.WalkDir` re-reads the just-removed directory,
gets ENOENT, hands it to the callback, and the callback returns it,
aborting the synchronization that the specification — and the
repository's own `TestMirror_RemoveDir_And_SkipExcludedVerbose` —
expect to succeed.  An extra plain file, by contrast, is deleted and
the pass continues normally. -/
theorem mirror_extra_dir_aborts :
    (syncDir 4 ⟨true, true, false, [], false, false⟩ []
        (some (.dir [(str "b", .dir [])]))).err = some .readDirRemoved
    ∧ memPath (syncDir 4 ⟨true, true, false, [], false, false⟩ []
        (some (.dir [(str "b", .dir [])]))).dst [str "b"] = false
    ∧ (syncDir 4 ⟨true, true, false, [], false, false⟩ []
        (some (.dir [(str "f", .file ⟨[], 0⟩)]))).err = none
    ∧ memPath (syncDir 4 ⟨true, true, false, [], false, false⟩ []
        (some (.dir [(str "f", .file ⟨[], 0⟩)]))).dst [str "f"] = false :=
  ⟨rfl, rfl, rfl, rfl⟩

/-! ### C7: the probe trichotomy of the mirror pass -/

/-- C7: the destination root is never a deletion candidate (the walk
keeps a root whatever the probe reports), and the fate of every other
non-excluded entry is decided by the source existence probe alone:
an existing path (an existence check only, whatever the entry's kind)
is kept, a missing path is deleted (a directory with its whole
subtree), and any other probe error is propagated, aborting the whole
synchronization. -/
theorem mirror_probe_trichotomy (fuel : Nat) (opt : options) (probe : Probe)
    (rel : List Str) (t : FSTree)
    (hex : shouldExclude (joinSegs rel) opt.excludes = false)
    (hdry : opt.dryRun = false) :
    ((mirrorPass fuel opt probe (some t)).1.isSome = true)
    ∧ (probe rel = .ok () →
        (mirVisit (fuel + 1) opt probe rel t).1.isSome = true)
    ∧ (probe rel = .error .notExist →
        (mirVisit (fuel + 1) opt probe rel t).1 = none)
    ∧ (probe rel = .error .other →
        mirVisit (fuel + 1) opt probe rel t = (some t, some .probeFailed))
    ∧ (∀ (nm : Str) (t0 : FSTree) (rest : List Entry) (e : SyncErr),
        (mirVisit fuel opt probe [nm] t0).2 = some e →
        (mirrorPass fuel opt probe (some (.dir ((nm, t0) :: rest)))).2
          = some e) := by
  refine ⟨?_, ?_, ?_, ?_, ?_⟩
  · rcases t with m | es
    · rfl
    · rw [mirrorPass_dir fuel opt probe es]
      rfl
  · intro hp
    rcases t with m | es
    · rw [mirVisit_ok_file fuel opt probe rel m hex hp]
      rfl
    · rw [mirVisit_ok_dir fuel opt probe rel es hex hp]
      rfl
  · intro hp
    rcases t with m | es
    · rw [mirVisit_gone_file fuel opt probe rel m hex hp hdry]
    · rw [mirVisit_gone_dir fuel opt probe rel es hex hp hdry]
  · intro hp
    exact mirVisit_other fuel opt probe rel t hex hp
  · intro nm t0 rest e hverr
    rw [mirrorPass_dir fuel opt probe ((nm, t0) :: rest)]
    rw [List.foldl_cons]
    rcases hmv : mirVisit fuel opt probe ([] ++ [nm]) t0 with ⟨v1, v2⟩
    have hv2 : v2 = some e := by
      have h2 := hverr
      rw [show ([nm] : List Str) = [] ++ [nm] from rfl] at h2
      rw [hmv] at h2
      exact h2
    subst hv2
    rcases v1 with _ | t2
    · rw [show mirStep fuel opt probe [] (([], none) :
          List Entry × Option SyncErr) (nm, t0) = ([], some e) from by
        unfold mirStep mirStepG mirRec
        rw [hmv]]
      exact mir_fold_err fuel opt probe [] rest [] e
    · rw [show mirStep fuel opt probe [] (([], none) :
          List Entry × Option SyncErr) (nm, t0) = ([(nm, t2)], some e) from by
        unfold mirStep mirStepG mirRec
        rw [hmv]
        rfl]
      exact mir_fold_err fuel opt probe [] rest [(nm, t2)] e

/-- C7 witness: the trichotomy instantiated with a probe that can
return each of the three outcomes. -/
theorem mirror_probe_trichotomy_witness :
    shouldExclude (joinSegs [str "x"]) ([] : List Str) = false ∧
      (⟨true, true, false, [], false, false⟩ : options).dryRun = false ∧
      (((mirrorPass 3 ⟨true, true, false, [], false, false⟩
          (fun _ => .error .notExist) (some (.dir [(str "x", .dir [])]))).1.isSome
            = true)
        ∧ ((fun (_ : List Str) => (.error .notExist : Except LstatErr Unit))
              [str "x"] = .ok () →
            (mirVisit 4 ⟨true, true, false, [], false, false⟩
              (fun _ => .error .notExist) [str "x"] (.dir [])).1.isSome = true)
        ∧ ((fun (_ : List Str) => (.error .notExist : Except LstatErr Unit))
              [str "x"] = .error .notExist →
            (mirVisit 4 ⟨true, true, false, [], false, false⟩
              (fun _ => .error .notExist) [str "x"] (.dir [])).1 = none)
        ∧ ((fun (_ : List Str) => (.error .notExist : Except LstatErr Unit))
              [str "x"] = .error .other →
            mirVisit 4 ⟨true, true, false, [], false, false⟩
              (fun _ => .error .notExist) [str "x"] (.dir [])
              = (some (.dir []), some .probeFailed))
        ∧ (∀ (nm : Str) (t0 : FSTree) (rest : List Entry) (e : SyncErr),
            (mirVisit 3 ⟨true, true, false, [], false, false⟩
              (fun _ => .error .notExist) [nm] t0).2 = some e →
            (mirrorPass 3 ⟨true, true, false, [], false, false⟩
              (fun _ => .error .notExist) (some (.dir ((nm, t0) :: rest)))).2
              = some e)) :=
  ⟨rfl, rfl, mirror_probe_trichotomy 3 ⟨true, true, false, [], false, false⟩
    (fun _ => .error .notExist) [str "x"] (.dir []) rfl rfl⟩

/-! ### Structural lemmas on listings, lookups and path prefixes -/

theorem lookup_none (p : List Str) : lookupTree none p = none := by
  cases p <;> rfl

theorem lookupTree_append (st : Option FSTree) (q r : List Str) :
    lookupTree st (q ++ r) = lookupTree (lookupTree st q) r := by
  induction q generalizing st with
  | nil =>
    rw [List.nil_append]
    rcases st with _ | t
    · rfl
    · rcases t with m | es <;> rfl
  | cons n q' ih =>
    rcases st with _ | t
    · rw [lookup_none, lookup_none, lookup_none]
    · rcases t with m | es
      · show (none : Option FSTree)
          = lookupTree (lookupTree (some (.file m)) (n :: q')) r
        rw [show lookupTree (some (.file m)) (n :: q') = none from rfl,
          lookup_none]
      · show lookupTree (findEntry es n) (q' ++ r)
          = lookupTree (lookupTree (findEntry es n) q') r
        exact ih (findEntry es n)

theorem findEntry_append (es fs : List Entry) (n : Str) :
    findEntry (es ++ fs) n =
      match findEntry es n with
      | some t => some t
      | none => findEntry fs n := by
  induction es with
  | nil => rfl
  | cons e es' ih =>
    rcases e with ⟨m, t⟩
    by_cases h : m = n
    · simp [findEntry, h]
    · simp [findEntry, h, ih]

theorem findEntry_mem (es : List Entry) (n : Str) (t : FSTree)
    (h : findEntry es n = some t) : (n, t) ∈ es := by
  induction es with
  | nil => exact absurd h (by simp [findEntry])
  | cons e es' ih =>
    rcases e with ⟨m, u⟩
    rw [show findEntry ((m, u) :: es') n
        = if m = n then some u else findEntry es' n from rfl] at h
    by_cases hm : m = n
    · rw [if_pos hm] at h
      injection h with h
      subst hm
      subst h
      exact List.mem_cons_self _ _
    · rw [if_neg hm] at h
      exact List.mem_cons_of_mem _ (ih h)

theorem findEntry_replace_other (es : List Entry) (n n' : Str) (t : FSTree)
    (h : n' ≠ n) : findEntry (replaceEntry es n t) n' = findEntry es n' := by
  induction es with
  | nil => rfl
  | cons e es' ih =>
    rcases e with ⟨m, u⟩
    by_cases hm : m = n
    · have hn' : ¬ n = n' := fun hh => h hh.symm
      simp [replaceEntry, findEntry, hm, hn']
    · by_cases hmn : m = n'
      · simp [replaceEntry, findEntry, hm, hmn, h]
      · simp [replaceEntry, findEntry, hm, hmn, ih]

theorem findEntry_replace_self (es : List Entry) (n : Str) (t : FSTree)
    (h : (findEntry es n).isSome = true) :
    findEntry (replaceEntry es n t) n = some t := by
  induction es with
  | nil => simp [findEntry] at h
  | cons e es' ih =>
    rcases e with ⟨m, u⟩
    by_cases hm : m = n
    · simp [replaceEntry, findEntry, hm]
    · rw [show replaceEntry ((m, u) :: es') n t
          = (m, u) :: replaceEntry es' n t from by simp [replaceEntry, hm]]
      rw [show findEntry ((m, u) :: replaceEntry es' n t) n
          = if m = n then some u else findEntry (replaceEntry es' n t) n
          from rfl, if_neg hm]
      rw [show findEntry ((m, u) :: es') n
          = if m = n then some u else findEntry es' n from rfl, if_neg hm] at h
      exact ih h

theorem replaceEntry_self (es : List Entry) (n : Str) (u : FSTree)
    (h : findEntry es n = some u) : replaceEntry es n u = es := by
  induction es with
  | nil => rfl
  | cons e es' ih =>
    rcases e with ⟨m, v⟩
    rw [show findEntry ((m, v) :: es') n
        = if m = n then some v else findEntry es' n from rfl] at h
    by_cases hm : m = n
    · rw [if_pos hm] at h
      injection h with h
      simp [replaceEntry, hm, h]
    · rw [if_neg hm] at h
      simp [replaceEntry, hm, ih h]

theorem dropLast_pre (l : List Str) : l.dropLast <+: l := by
  rw [List.dropLast_eq_take]
  exact List.take_prefix _ _

theorem pre_length_lt (p l : List Str) (h : p <+: l) (hne : p ≠ l) :
    p.length < l.length := by
  rcases h with ⟨r, rfl⟩
  rcases r with _ | ⟨x, r⟩
  · simp at hne
  · simp

theorem proper_pre_dropLast (p l : List Str) (h : p <+: l) (hne : p ≠ l) :
    p <+: l.dropLast := by
  have hlt : p.length < l.length := pre_length_lt p l h hne
  have hp := List.prefix_iff_eq_take.mp h
  have key : (l.take (l.length - 1)).take p.length = l.take p.length := by
    rw [List.take_take]
    congr 1
    omega
  have h2 : p = (l.take (l.length - 1)).take p.length := by
    rw [key]
    exact hp
  rw [List.dropLast_eq_take, h2]
  exact List.take_prefix _ _

/-! ### When a path is effectively excluded -/

theorem exclEff_spec (p : List Str) (pats : List Str) :
    exclEff p pats = true ↔
      ∃ i, i < p.length ∧
        shouldExclude (joinSegs (p.take (i + 1))) pats = true := by
  unfold exclEff
  rw [List.any_eq_true]
  constructor
  · rintro ⟨i, hi, hs⟩
    exact ⟨i, List.mem_range.mp hi, hs⟩
  · rintro ⟨i, hi, hs⟩
    exact ⟨i, List.mem_range.mpr hi, hs⟩

theorem exclEff_nil (pats : List Str) : exclEff [] pats = false := rfl

theorem exclEff_ne_nil (p : List Str) (pats : List Str)
    (h : exclEff p pats = true) : p ≠ [] := by
  intro hp
  subst hp
  simp [exclEff] at h

theorem shouldExclude_exclEff (p : List Str) (pats : List Str) (hne : p ≠ [])
    (h : shouldExclude (joinSegs p) pats = true) : exclEff p pats = true := by
  rw [exclEff_spec]
  have hpos : 0 < p.length := List.length_pos.mpr hne
  refine ⟨p.length - 1, by omega, ?_⟩
  rw [show p.length - 1 + 1 = p.length from by omega, List.take_length]
  exact h

theorem exclEff_mono (p q : List Str) (pats : List Str) (hpq : p <+: q)
    (h : exclEff p pats = true) : exclEff q pats = true := by
  rw [exclEff_spec] at h ⊢
  rcases h with ⟨i, hi, hs⟩
  refine ⟨i, lt_of_lt_of_le hi hpq.length_le, ?_⟩
  have hp := List.prefix_iff_eq_take.mp hpq
  have h2 : (q.take p.length).take (i + 1) = q.take (i + 1) := by
    rw [List.take_take]
    congr 1
    omega
  rw [← hp] at h2
  rw [← h2]
  exact hs

theorem exclEff_snoc (rel : List Str) (x : Str) (pats : List Str) :
    exclEff (rel ++ [x]) pats
      = (exclEff rel pats || shouldExclude (joinSegs (rel ++ [x])) pats) := by
  by_cases h1 : exclEff rel pats = true
  · rw [h1, Bool.true_or]
    exact exclEff_mono rel _ pats ⟨[x], rfl⟩ h1
  · have h1' : exclEff rel pats = false := by simpa using h1
    by_cases h2 : shouldExclude (joinSegs (rel ++ [x])) pats = true
    · rw [h1', h2, Bool.false_or]
      exact shouldExclude_exclEff _ pats (by simp) h2
    · have h2' : shouldExclude (joinSegs (rel ++ [x])) pats = false := by
        simpa using h2
      rw [h1', h2', Bool.or_self]
      by_cases hc : exclEff (rel ++ [x]) pats = true
      · exfalso
        rw [exclEff_spec] at hc
        rcases hc with ⟨i, hi, hs⟩
        have hlen : (rel ++ [x]).length = rel.length + 1 := by simp
        by_cases hir : i < rel.length
        · rw [List.take_append_of_le_length (by omega)] at hs
          have hcon : exclEff rel pats = true := by
            rw [exclEff_spec]
            exact ⟨i, hir, hs⟩
          rw [hcon] at h1'
          exact absurd h1' (by simp)
        · have hieq : i = rel.length := by
            rw [hlen] at hi
            omega
          subst hieq
          rw [show (rel ++ [x]).take (rel.length + 1) = rel ++ [x] from by
            rw [← hlen, List.take_length]] at hs
          rw [hs] at h2'
          exact absurd h2' (by simp)
      · simpa using hc

/-! ### Frame lemmas: a mutation at one path leaves the others alone -/

theorem lookup_mkChain_no_pre (q : List Str) : ∀ (p : List Str), ¬ p <+: q →
    lookupTree (some (mkChain q)) p = none := by
  induction q with
  | nil =>
    intro p hnp
    rcases p with _ | ⟨n, rest⟩
    · exact absurd List.nil_prefix hnp
    · show lookupTree (findEntry [] n) rest = none
      rw [show findEntry ([] : List Entry) n = none from rfl]
      exact lookup_none rest
  | cons m q' ih =>
    intro p hnp
    rcases p with _ | ⟨n, rest⟩
    · exact absurd List.nil_prefix hnp
    · show lookupTree (findEntry [(m, mkChain q')] n) rest = none
      by_cases hmn : m = n
      · subst hmn
        rw [show findEntry [(m, mkChain q')] m = some (mkChain q') from by
          simp [findEntry]]
        apply ih
        intro hpre
        exact hnp (List.cons_prefix_cons.mpr ⟨rfl, hpre⟩)
      · rw [show findEntry [(m, mkChain q')] n = none from by
          simp [findEntry, hmn]]
        exact lookup_none rest

theorem mkdirTree_frame (q : List Str) : ∀ (t t2 : FSTree) (c : Nat),
    mkdirTree t q = .ok (t2, c) → ∀ p, ¬ p <+: q →
      lookupTree (some t2) p = lookupTree (some t) p := by
  induction q with
  | nil =>
    intro t t2 c h p hnp
    rcases t with m | es
    · exact absurd h (by simp [mkdirTree])
    · rw [show mkdirTree (.dir es) [] = .ok (.dir es, 0) from rfl] at h
      injection h with h
      injection h with h1 h2
      rw [← h1]
  | cons n q' ih =>
    intro t t2 c h p hnp
    rcases t with m | es
    · exact absurd h (by simp [mkdirTree])
    · rw [show mkdirTree (.dir es) (n :: q')
          = (match findEntry es n with
             | some sub =>
               match mkdirTree sub q' with
               | .error e => .error e
               | .ok (sub2, c2) => .ok (.dir (replaceEntry es n sub2), c2)
             | none =>
               .ok (.dir (es ++ [(n, mkChain q')]), q'.length + 1)) from rfl]
        at h
      rcases p with _ | ⟨a, rest⟩
      · exact absurd List.nil_prefix hnp
      rcases hf : findEntry es n with _ | sub
      · rw [hf] at h
        injection h with h
        injection h with h1 h2
        rw [← h1]
        show lookupTree (findEntry (es ++ [(n, mkChain q')]) a) rest
          = lookupTree (findEntry es a) rest
        rw [findEntry_append]
        rcases hfa : findEntry es a with _ | ta
        · by_cases han : n = a
          · subst han
            rw [show findEntry [(n, mkChain q')] n = some (mkChain q') from by
              simp [findEntry]]
            rw [lookup_mkChain_no_pre q' rest
              (fun hpre => hnp (List.cons_prefix_cons.mpr ⟨rfl, hpre⟩)),
              lookup_none]
          · rw [show findEntry [(n, mkChain q')] a = none from by
              simp [findEntry, han]]
        · rfl
      · rw [hf] at h
        replace h : (match mkdirTree sub q' with
            | Except.error e => Except.error e
            | Except.ok (sub2, c2) =>
              Except.ok (FSTree.dir (replaceEntry es n sub2), c2))
            = Except.ok (t2, c) := h
        revert h
        rcases hm : mkdirTree sub q' with e | sc
        · intro h
          exact absurd h (by simp)
        · rcases sc with ⟨sub2, c2⟩
          intro h
          injection h with h
          injection h with h1 h2
          rw [← h1]
          show lookupTree (findEntry (replaceEntry es n sub2) a) rest
            = lookupTree (findEntry es a) rest
          by_cases han : a = n
          · subst han
            rw [findEntry_replace_self es a sub2 (by rw [hf]; rfl), hf]
            exact ih sub sub2 c2 hm rest
              (fun hpre => hnp (List.cons_prefix_cons.mpr ⟨rfl, hpre⟩))
          · rw [findEntry_replace_other es n a sub2 han]

theorem mkdirAllSt_frame (st : Option FSTree) (q : List Str) (t2 : FSTree)
    (c : Nat) (h : mkdirAllSt st q = .ok (t2, c)) (p : List Str)
    (hnp : ¬ p <+: q) : lookupTree (some t2) p = lookupTree st p := by
  rcases st with _ | t
  · rw [show mkdirAllSt none q = .ok (mkChain q, q.length + 1) from rfl] at h
    injection h with h
    injection h with h1 h2
    rw [← h1, lookup_mkChain_no_pre q p hnp, lookup_none]
  · rw [show mkdirAllSt (some t) q
        = (match mkdirTree t q with
           | .error e => .error e
           | .ok (t3, c3) => .ok (t3, c3)) from rfl] at h
    revert h
    rcases hm : mkdirTree t q with e | tc
    · intro h
      exact absurd h (by simp)
    · rcases tc with ⟨t3, c3⟩
      intro h
      injection h with h
      injection h with h1 h2
      rw [← h1]
      exact mkdirTree_frame q t t3 c3 hm p hnp

theorem writeFileTree_frame (q : List Str) : ∀ (t : FSTree) (m : FileMeta)
    (p : List Str), ¬ p <+: q →
    lookupTree (some (writeFileTree t q m)) p = lookupTree (some t) p := by
  induction q with
  | nil =>
    intro t m p hnp
    rcases t with m0 | es <;> rfl
  | cons n q' ih =>
    intro t m p hnp
    rcases t with m0 | es
    · rfl
    · rcases p with _ | ⟨a, rest⟩
      · exact absurd List.nil_prefix hnp
      have hrest : ¬ rest <+: q' ∨ a ≠ n := by
        by_cases han : a = n
        · subst han
          exact Or.inl (fun hpre => hnp (List.cons_prefix_cons.mpr ⟨rfl, hpre⟩))
        · exact Or.inr han
      rcases q' with _ | ⟨n2, q2⟩
      · show lookupTree (some (writeFileTree (.dir es) [n] m)) (a :: rest)
          = lookupTree (findEntry es a) rest
        rcases hf : findEntry es n with _ | sub
        · rw [show writeFileTree (.dir es) [n] m
              = .dir (es ++ [(n, .file m)]) from by
            rw [show writeFileTree (.dir es) [n] m
                = (match findEntry es n with
                   | some (.dir _) => .dir es
                   | some (.file _) => .dir (replaceEntry es n (.file m))
                   | none => .dir (es ++ [(n, .file m)])) from rfl, hf]]
          show lookupTree (findEntry (es ++ [(n, .file m)]) a) rest
            = lookupTree (findEntry es a) rest
          rw [findEntry_append]
          rcases hfa : findEntry es a with _ | ta
          · by_cases han : n = a
            · subst han
              rw [show findEntry [(n, FSTree.file m)] n = some (.file m) from by
                simp [findEntry]]
              rcases hrest with hr | hr
              · rcases rest with _ | ⟨r, rest'⟩
                · exact absurd List.nil_prefix hr
                · rw [lookup_none]
                  rfl
              · exact absurd rfl hr
            · rw [show findEntry [(n, FSTree.file m)] a = none from by
                simp [findEntry, han]]
          · rfl
        · rcases sub with mf | d
          · rw [show writeFileTree (.dir es) [n] m
                = .dir (replaceEntry es n (.file m)) from by
              rw [show writeFileTree (.dir es) [n] m
                  = (match findEntry es n with
                     | some (.dir _) => .dir es
                     | some (.file _) => .dir (replaceEntry es n (.file m))
                     | none => .dir (es ++ [(n, .file m)])) from rfl, hf]]
            show lookupTree (findEntry (replaceEntry es n (.file m)) a) rest
              = lookupTree (findEntry es a) rest
            by_cases han : a = n
            · subst han
              rw [findEntry_replace_self es a (.file m) (by rw [hf]; rfl), hf]
              rcases hrest with hr | hr
              · rcases rest with _ | ⟨r, rest'⟩
                · exact absurd List.nil_prefix hr
                · rfl
              · exact absurd rfl hr
            · rw [findEntry_replace_other es n a (.file m) han]
          · rw [show writeFileTree (.dir es) [n] m = .dir es from by
              rw [show writeFileTree (.dir es) [n] m
                  = (match findEntry es n with
                     | some (.dir _) => .dir es
                     | some (.file _) => .dir (replaceEntry es n (.file m))
                     | none => .dir (es ++ [(n, .file m)])) from rfl, hf]]
            rfl
      · show lookupTree (some (writeFileTree (.dir es) (n :: n2 :: q2) m))
            (a :: rest) = lookupTree (findEntry es a) rest
        rcases hf : findEntry es n with _ | sub
        · rw [show writeFileTree (.dir es) (n :: n2 :: q2) m = .dir es from by
            rw [show writeFileTree (.dir es) (n :: n2 :: q2) m
                = (match findEntry es n with
                   | some sub =>
                     .dir (replaceEntry es n (writeFileTree sub (n2 :: q2) m))
                   | none => .dir es) from rfl, hf]]
          rfl
        · rw [show writeFileTree (.dir es) (n :: n2 :: q2) m
              = .dir (replaceEntry es n (writeFileTree sub (n2 :: q2) m)) from by
            rw [show writeFileTree (.dir es) (n :: n2 :: q2) m
                = (match findEntry es n with
                   | some sub =>
                     .dir (replaceEntry es n (writeFileTree sub (n2 :: q2) m))
                   | none => .dir es) from rfl, hf]]
          show lookupTree
              (findEntry (replaceEntry es n (writeFileTree sub (n2 :: q2) m)) a)
              rest = lookupTree (findEntry es a) rest
          by_cases han : a = n
          · subst han
            rw [findEntry_replace_self es a _ (by rw [hf]; rfl), hf]
            rcases hrest with hr | hr
            · exact ih sub m rest hr
            · exact absurd rfl hr
          · rw [findEntry_replace_other es n a _ han]

theorem ensureDir_frame (rel : List Str) (st : Option FSTree) (opt : options)
    (p : List Str) (hnp : ¬ p <+: rel) :
    lookupTree (ensureDir rel st opt).dst p = lookupTree st p := by
  unfold ensureDir
  by_cases hd : opt.dryRun = true
  · rw [if_pos hd]
  · rw [if_neg hd]
    rcases hm : mkdirAllSt st rel with e | tc
    · rfl
    · rcases tc with ⟨t2, c⟩
      show lookupTree (some t2) p = lookupTree st p
      exact mkdirAllSt_frame st rel t2 c hm p hnp

theorem copyOneFile_frame (rel : List Str) (m : FileMeta) (st : Option FSTree)
    (opt : options) (p : List Str) (hnp : ¬ p <+: rel) :
    lookupTree (copyOneFile rel m st opt).dst p = lookupTree st p := by
  have hnp' : ¬ p <+: rel.dropLast := fun hh => hnp (hh.trans (dropLast_pre rel))
  unfold copyOneFile
  by_cases hd : opt.dryRun = true
  · rw [if_pos hd]
  · rw [if_neg hd]
    rcases hm : mkdirAllSt st rel.dropLast with e | tc
    · rfl
    · rcases tc with ⟨t2, c⟩
      have hfr := mkdirAllSt_frame st rel.dropLast t2 c hm p hnp'
      show lookupTree ((match lookupTree (some t2) rel with
          | some (.dir _) => (⟨some t2, [], c, some .openFileIsDir⟩ : SyncRes)
          | _ => ⟨some (writeFileTree t2 rel m), [rel], c, none⟩) : SyncRes).dst p
        = lookupTree st p
      rcases hl : lookupTree (some t2) rel with _ | u
      · show lookupTree (some (writeFileTree t2 rel m)) p = lookupTree st p
        rw [writeFileTree_frame rel t2 m p hnp]
        exact hfr
      · rcases u with mf | es2
        · show lookupTree (some (writeFileTree t2 rel m)) p = lookupTree st p
          rw [writeFileTree_frame rel t2 m p hnp]
          exact hfr
        · show lookupTree (some t2) p = lookupTree st p
          exact hfr

theorem syncFile_frame (rel : List Str) (m : FileMeta) (st : Option FSTree)
    (opt : options) (p : List Str) (hnp : ¬ p <+: rel) :
    lookupTree (syncFile rel m st opt).dst p = lookupTree st p := by
  unfold syncFile
  rcases hl : lookupTree st rel with _ | u
  · show lookupTree (copyOneFile rel m st opt).dst p = lookupTree st p
    exact copyOneFile_frame rel m st opt p hnp
  · rcases u with mf | es
    · show lookupTree
          (if sameFile m mf opt.checksum = true then (⟨st, [], 0, none⟩ : SyncRes)
           else copyOneFile rel m st opt).dst p = lookupTree st p
      by_cases hs : sameFile m mf opt.checksum = true
      · rw [if_pos hs]
      · rw [if_neg hs]
        exact copyOneFile_frame rel m st opt p hnp
    · show lookupTree (copyOneFile rel m st opt).dst p = lookupTree st p
      exact copyOneFile_frame rel m st opt p hnp

theorem memPath_pre (st : Option FSTree) (p q : List Str) (hq : q <+: p)
    (h : memPath st p = true) : memPath st q = true := by
  rcases hq with ⟨r, rfl⟩
  unfold memPath at h ⊢
  rw [lookupTree_append] at h
  rcases hl : lookupTree st q with _ | u
  · rw [hl, lookup_none] at h
    simp at h
  · rfl

/-! ### A destination path the mirror walk is bound to keep -/

/-- The mirror walk, arriving at `rel`, keeps the whole relative path
`p` below it: at every step the next component is either excluded
(`fs.SkipDir` keeps its whole subtree) or present in SOURCE (the
probe succeeds), and the path ends at an excluded component. -/
def keptPath (opt : options) (probe : Probe) : List Str → List Str → Bool
  | _, [] => false
  | rel, n :: rest =>
    if shouldExclude (joinSegs (rel ++ [n])) opt.excludes then true
    else
      match probe (rel ++ [n]) with
      | .ok _ => keptPath opt probe (rel ++ [n]) rest
      | .error _ => false

theorem keptPath_intro (opt : options) (probe : Probe) :
    ∀ (p rel : List Str), p ≠ [] →
      shouldExclude (joinSegs (rel ++ p)) opt.excludes = true →
      (∀ i, i + 1 < p.length →
        shouldExclude (joinSegs (rel ++ p.take (i + 1))) opt.excludes = true ∨
          probe (rel ++ p.take (i + 1)) = .ok ()) →
      keptPath opt probe rel p = true := by
  intro p
  induction p with
  | nil =>
    intro rel h
    exact absurd rfl h
  | cons n rest ih =>
    intro rel _ hex hanc
    show (if shouldExclude (joinSegs (rel ++ [n])) opt.excludes then true
        else match probe (rel ++ [n]) with
          | .ok _ => keptPath opt probe (rel ++ [n]) rest
          | .error _ => false) = true
    by_cases h1 : shouldExclude (joinSegs (rel ++ [n])) opt.excludes = true
    · rw [if_pos h1]
    · rw [if_neg h1]
      rcases rest with _ | ⟨r2, rest'⟩
      · exact absurd hex h1
      · have hp0 := hanc 0 (by simp)
        rw [show (n :: r2 :: rest').take 1 = [n] from rfl] at hp0
        rcases hp0 with hp0 | hp0
        · exact absurd hp0 h1
        · rw [hp0]
          show keptPath opt probe (rel ++ [n]) (r2 :: rest') = true
          apply ih (rel ++ [n]) (by simp)
          · rw [List.append_assoc]
            exact hex
          · intro i hi
            have h2 := hanc (i + 1) (by simpa using hi)
            rw [show (n :: r2 :: rest').take (i + 1 + 1)
                = n :: ((r2 :: rest').take (i + 1)) from rfl] at h2
            rw [show rel ++ n :: ((r2 :: rest').take (i + 1))
                = (rel ++ [n]) ++ (r2 :: rest').take (i + 1) from by simp] at h2
            exact h2

theorem findEntry_append_right (es fs : List Entry) (n : Str)
    (h : findEntry es n = none) : findEntry (es ++ fs) n = findEntry fs n := by
  rw [findEntry_append, h]

theorem findEntry_append_left (es fs : List Entry) (n : Str) (t : FSTree)
    (h : findEntry es n = some t) : findEntry (es ++ fs) n = some t := by
  rw [findEntry_append, h]

theorem mirG_fold_frozen
    (r : List Str → FSTree → Option FSTree × Option SyncErr)
    (rel : List Str) : ∀ (es pre : List Entry) (e : SyncErr),
    es.foldl (mirStepG r rel) (pre, some e) = (pre ++ es, some e) := by
  intro es
  induction es with
  | nil => intro pre e; simp
  | cons x es' ih =>
    intro pre e
    rw [List.foldl_cons,
      show mirStepG r rel (pre, some e) x = (pre ++ [x], some e) from rfl,
      ih (pre ++ [x]) e]
    simp

theorem mirG_fold_append
    (r : List Str → FSTree → Option FSTree × Option SyncErr)
    (rel : List Str) : ∀ (es pre : List Entry) (err0 : Option SyncErr),
    ∃ suf, (es.foldl (mirStepG r rel) (pre, err0)).1 = pre ++ suf := by
  intro es
  induction es with
  | nil => intro pre err0; exact ⟨[], by simp⟩
  | cons x es' ih =>
    intro pre err0
    rw [List.foldl_cons]
    rcases err0 with _ | e
    · rcases hv : r (rel ++ [x.1]) x.2 with ⟨v1, v2⟩
      rcases v1 with _ | t2
      · rw [show mirStepG r rel (pre, none) x = (pre, v2) from by
          unfold mirStepG
          rw [hv]]
        exact ih pre v2
      · rw [show mirStepG r rel (pre, none) x = (pre ++ [(x.1, t2)], v2) from by
          unfold mirStepG
          rw [hv]]
        rcases ih (pre ++ [(x.1, t2)]) v2 with ⟨suf, hsuf⟩
        exact ⟨(x.1, t2) :: suf, by rw [hsuf]; simp⟩
    · rw [show mirStepG r rel (pre, some e) x = (pre ++ [x], some e) from rfl]
      rcases ih (pre ++ [x]) (some e) with ⟨suf, hsuf⟩
      exact ⟨x :: suf, by rw [hsuf]; simp⟩

/-- Through the mirror walk of one listing, the lookup below the entry
named `n` is preserved whenever every visit of that entry's subtree
keeps it with the lookup below preserved. -/
theorem mir_fold_look (r : List Str → FSTree → Option FSTree × Option SyncErr)
    (rel : List Str) (n : Str) (rest : List Str)
    (Hn : ∀ t : FSTree, ∃ t', (r (rel ++ [n]) t).1 = some t' ∧
      lookupTree (some t') rest = lookupTree (some t) rest) :
    ∀ (es pre : List Entry) (err0 : Option SyncErr), findEntry pre n = none →
      lookupTree (findEntry (es.foldl (mirStepG r rel) (pre, err0)).1 n) rest
        = lookupTree (findEntry es n) rest := by
  intro es
  induction es with
  | nil =>
    intro pre err0 hpre
    show lookupTree (findEntry pre n) rest = _
    rw [hpre]
    rfl
  | cons x es' ih =>
    intro pre err0 hpre
    rcases x with ⟨m, tm⟩
    rw [List.foldl_cons]
    rcases err0 with _ | e
    · by_cases hmn : m = n
      · subst hmn
        rcases Hn tm with ⟨t', hv1, hlook⟩
        rcases hv : r (rel ++ [m]) tm with ⟨v1, v2⟩
        rw [hv] at hv1
        have hv1' : v1 = some t' := hv1
        subst hv1'
        rw [show mirStepG r rel (pre, none) (m, tm) = (pre ++ [(m, t')], v2)
            from by
          unfold mirStepG
          rw [hv]]
        rcases mirG_fold_append r rel es' (pre ++ [(m, t')]) v2 with ⟨suf, hsuf⟩
        have h1 : findEntry (pre ++ [(m, t')]) m = some t' := by
          rw [findEntry_append_right pre [(m, t')] m hpre]
          simp [findEntry]
        rw [hsuf, findEntry_append_left _ suf m t' h1, hlook,
          show findEntry ((m, tm) :: es') m = some tm from by simp [findEntry]]
      · rcases hv : r (rel ++ [m]) tm with ⟨v1, v2⟩
        rcases v1 with _ | t2
        · rw [show mirStepG r rel (pre, none) (m, tm) = (pre, v2) from by
            unfold mirStepG
            rw [hv]]
          rw [ih pre v2 hpre,
            show findEntry ((m, tm) :: es') n
              = if m = n then some tm else findEntry es' n from rfl, if_neg hmn]
        · rw [show mirStepG r rel (pre, none) (m, tm) = (pre ++ [(m, t2)], v2)
              from by
            unfold mirStepG
            rw [hv]]
          rw [ih (pre ++ [(m, t2)]) v2 (by
            rw [findEntry_append_right pre [(m, t2)] n hpre]
            simp [findEntry, hmn]),
            show findEntry ((m, tm) :: es') n
              = if m = n then some tm else findEntry es' n from rfl, if_neg hmn]
    · rw [show mirStepG r rel (pre, some e) (m, tm) = (pre ++ [(m, tm)], some e)
          from rfl,
        mirG_fold_frozen r rel es' (pre ++ [(m, tm)]) e]
      by_cases hmn : m = n
      · have h1 : findEntry (pre ++ [(m, tm)]) n = some tm := by
          rw [findEntry_append_right pre [(m, tm)] n hpre]
          simp [findEntry, hmn]
        rw [show ((pre ++ [(m, tm)] ++ es', some e) :
              List Entry × Option SyncErr).1 = pre ++ [(m, tm)] ++ es' from rfl,
          findEntry_append_left _ es' n tm h1,
          show findEntry ((m, tm) :: es') n = some tm from by
            simp [findEntry, hmn]]
      · have h1 : findEntry (pre ++ [(m, tm)]) n = none := by
          rw [findEntry_append_right pre [(m, tm)] n hpre]
          simp [findEntry, hmn]
        rw [show ((pre ++ [(m, tm)] ++ es', some e) :
              List Entry × Option SyncErr).1 = pre ++ [(m, tm)] ++ es' from rfl,
          findEntry_append_right _ es' n h1,
          show findEntry ((m, tm) :: es') n = findEntry es' n from by
            simp [findEntry, hmn]]

/-- A kept path survives the mirror walk of a directory with its
lookup value intact. -/
theorem mirDir_keep (opt : options) (probe : Probe) :
    ∀ (p rel : List Str), keptPath opt probe rel p = true →
      ∀ (fuel : Nat) (es : List Entry),
        lookupTree (some (.dir (mirDir (mirRec fuel opt probe) rel es).1)) p
          = lookupTree (some (.dir es)) p := by
  intro p
  induction p with
  | nil =>
    intro rel hk
    exact absurd hk (by simp [keptPath])
  | cons n rest ih =>
    intro rel hk fuel es
    have Hn : ∀ t : FSTree,
        ∃ t', (mirRec fuel opt probe (rel ++ [n]) t).1 = some t' ∧
          lookupTree (some t') rest = lookupTree (some t) rest := by
      intro t
      show ∃ t', (mirVisit fuel opt probe (rel ++ [n]) t).1 = some t' ∧ _
      have hk' : (if shouldExclude (joinSegs (rel ++ [n])) opt.excludes then true
          else match probe (rel ++ [n]) with
            | .ok _ => keptPath opt probe (rel ++ [n]) rest
            | .error _ => false) = true := hk
      rcases fuel with _ | f
      · exact ⟨t, rfl, rfl⟩
      by_cases hex : shouldExclude (joinSegs (rel ++ [n])) opt.excludes = true
      · exact ⟨t, by rw [mirVisit_excl f opt probe (rel ++ [n]) t hex], rfl⟩
      · rw [if_neg hex] at hk'
        have hex2 : shouldExclude (joinSegs (rel ++ [n])) opt.excludes = false :=
          by simpa using hex
        rcases hp : probe (rel ++ [n]) with e | u
        · rw [hp] at hk'
          exact absurd hk' (by simp)
        · cases u
          rw [hp] at hk'
          have hk2 : keptPath opt probe (rel ++ [n]) rest = true := hk'
          rcases t with m | es2
          · exact ⟨.file m,
              by rw [mirVisit_ok_file f opt probe (rel ++ [n]) m hex2 hp], rfl⟩
          · refine ⟨.dir (es2.foldl (mirStep f opt probe (rel ++ [n]))
                ([], none)).1, ?_, ?_⟩
            · rw [mirVisit_ok_dir f opt probe (rel ++ [n]) es2 hex2 hp]
            · exact ih (rel ++ [n]) hk2 f es2
    show lookupTree (findEntry (mirDir (mirRec fuel opt probe) rel es).1 n) rest
      = lookupTree (findEntry es n) rest
    exact mir_fold_look (mirRec fuel opt probe) rel n rest Hn es [] none rfl

theorem mirrorPass_keep (opt : options) (probe : Probe) (fuel : Nat)
    (dst : Option FSTree) (p : List Str)
    (hk : keptPath opt probe [] p = true) :
    lookupTree (mirrorPass fuel opt probe dst).1 p = lookupTree dst p := by
  rcases dst with _ | t
  · rfl
  · rcases t with m | es
    · rfl
    · show lookupTree
          (some (.dir (mirDir (mirRec fuel opt probe) [] es).1)) p = _
      exact mirDir_keep opt probe p [] hk fuel es

/-! ### The forward pass never touches an effectively excluded path -/

theorem fwdVisit_exclEff_frame (opt : options) :
    ∀ (fuel : Nat) (rel : List Str) (t : FSTree) (st : Option FSTree)
      (p : List Str), exclEff rel opt.excludes = false →
      exclEff p opt.excludes = true →
      lookupTree (fwdVisit fuel opt rel t st).dst p = lookupTree st p := by
  intro fuel
  induction fuel with
  | zero => intro rel t st p _ _; rfl
  | succ f ih =>
    intro rel t st p hrel hp
    have hnp : ¬ p <+: rel := fun hpre =>
      absurd (exclEff_mono p rel opt.excludes hpre hp) (by rw [hrel]; simp)
    by_cases hex : shouldExclude (joinSegs rel) opt.excludes = true
    · rw [fwdVisit_excl f opt rel t st hex]
    · have hex2 : shouldExclude (joinSegs rel) opt.excludes = false := by
        simpa using hex
      rcases t with m | es
      · rw [fwdVisit_file f opt rel m st hex2]
        exact syncFile_frame rel m st opt p hnp
      · by_cases he : (ensureDir rel st opt).err.isSome = true
        · rw [fwdVisit_dir_err f opt rel es st hex2 he]
          exact ensureDir_frame rel st opt p hnp
        · have he2 : (ensureDir rel st opt).err = none := by
            rcases h3 : (ensureDir rel st opt).err with _ | e3
            · rfl
            · rw [h3] at he
              simp at he
          rw [fwdVisit_dir f opt rel es st hex2 he2]
          refine foldl_inv (fun acc => lookupTree acc.dst p = lookupTree st p)
            (fwdStep f opt rel) es ?_ _ ?_
          · rintro acc e hmem hacc
            unfold fwdStep fwdStepG fwdRec
            by_cases herr : acc.err.isSome = true
            · rw [if_pos herr]
              exact hacc
            · rw [if_neg herr]
              show lookupTree (fwdVisit f opt (rel ++ [e.1]) e.2 acc.dst).dst p
                = _
              by_cases hce :
                  shouldExclude (joinSegs (rel ++ [e.1])) opt.excludes = true
              · rcases f with _ | f2
                · rw [show (fwdVisit 0 opt (rel ++ [e.1]) e.2 acc.dst).dst
                      = acc.dst from rfl]
                  exact hacc
                · rw [fwdVisit_excl f2 opt (rel ++ [e.1]) e.2 acc.dst hce]
                  exact hacc
              · have hce2 : exclEff (rel ++ [e.1]) opt.excludes = false := by
                  rw [exclEff_snoc, hrel]
                  simpa using hce
                rw [ih (rel ++ [e.1]) e.2 acc.dst p hce2 hp]
                exact hacc
          · show lookupTree (ensureDir rel st opt).dst p = lookupTree st p
            exact ensureDir_frame rel st opt p hnp

theorem forwardPass_exclEff_frame (fuel : Nat) (opt : options)
    (srcE : List Entry) (dst : Option FSTree) (p : List Str)
    (hp : exclEff p opt.excludes = true) :
    lookupTree (forwardPass fuel opt srcE dst).dst p = lookupTree dst p := by
  have hne : p ≠ [] := exclEff_ne_nil p opt.excludes hp
  have hnp : ¬ p <+: ([] : List Str) := fun hpre =>
    hne (List.prefix_nil.mp hpre)
  unfold forwardPass
  by_cases he : (ensureDir [] dst opt).err.isSome = true
  · rw [if_pos he]
    exact ensureDir_frame [] dst opt p hnp
  · rw [if_neg he]
    refine foldl_inv (fun acc => lookupTree acc.dst p = lookupTree dst p)
      (fwdStep fuel opt []) srcE ?_ _ ?_
    · rintro acc e hmem hacc
      unfold fwdStep fwdStepG fwdRec
      by_cases herr : acc.err.isSome = true
      · rw [if_pos herr]
        exact hacc
      · rw [if_neg herr]
        show lookupTree (fwdVisit fuel opt ([] ++ [e.1]) e.2 acc.dst).dst p = _
        by_cases hce :
            shouldExclude (joinSegs ([] ++ [e.1])) opt.excludes = true
        · rcases fuel with _ | f2
          · rw [show (fwdVisit 0 opt ([] ++ [e.1]) e.2 acc.dst).dst
                = acc.dst from rfl]
            exact hacc
          · rw [fwdVisit_excl f2 opt ([] ++ [e.1]) e.2 acc.dst hce]
            exact hacc
        · have hce2 : exclEff ([] ++ [e.1]) opt.excludes = false := by
            rw [exclEff_snoc, exclEff_nil]
            simpa using hce
          rw [fwdVisit_exclEff_frame opt fuel ([] ++ [e.1]) e.2 acc.dst p
            hce2 hp]
          exact hacc
    · show lookupTree (ensureDir [] dst opt).dst p = lookupTree dst p
      exact ensureDir_frame [] dst opt p hnp

/-! ### C8: exclusion invisibility, amended -/

/-- C8 (amended): a path that matches an exclude pattern is never
created, copied, updated or deleted by the forward pass — its lookup
in the destination is exactly what it was — and the mirror pass
preserves it as long as each of its proper ancestors is itself
excluded or still exists in SOURCE.  (Without that proviso the
original claim fails: a non-excluded ancestor missing from SOURCE is
removed recursively, taking the excluded path with it, as the
counterexample shows.) -/
theorem exclusion_invisibility (fuel : Nat) (opt : options) (srcE : List Entry)
    (dst : Option FSTree) (p : List Str) (hne : p ≠ [])
    (hex : shouldExclude (joinSegs p) opt.excludes = true)
    (hanc : ∀ i, i + 1 < p.length →
      shouldExclude (joinSegs (p.take (i + 1))) opt.excludes = true ∨
        lstatIn srcE (p.take (i + 1)) = .ok ()) :
    lookupTree (forwardPass fuel opt srcE dst).dst p = lookupTree dst p ∧
    lookupTree (syncDir fuel opt srcE dst).dst p = lookupTree dst p := by
  have hpe : exclEff p opt.excludes = true :=
    shouldExclude_exclEff p opt.excludes hne hex
  have hfwd := forwardPass_exclEff_frame fuel opt srcE dst p hpe
  refine ⟨hfwd, ?_⟩
  have hk : keptPath opt (lstatIn srcE) [] p = true := by
    apply keptPath_intro opt (lstatIn srcE) p [] hne
    · rw [List.nil_append]
      exact hex
    · intro i hi
      have h2 := hanc i hi
      rw [List.nil_append]
      exact h2
  unfold syncDir
  by_cases he : (forwardPass fuel opt srcE dst).err.isSome = true
  · rw [if_pos he]
    exact hfwd
  · rw [if_neg he]
    by_cases hm : opt.mirror = true
    · rw [if_pos hm]
      show lookupTree (mirrorPass fuel opt (lstatIn srcE)
          (forwardPass fuel opt srcE dst).dst).1 p = lookupTree dst p
      rw [mirrorPass_keep opt (lstatIn srcE) fuel _ p hk, hfwd]
    · rw [if_neg hm]
      exact hfwd

/-- C8 witness: with pattern `*.tmp`, source directory `b` and a
destination file `b/x.tmp`, both passes of a mirror run leave the
excluded file exactly in place. -/
theorem exclusion_invisibility_witness :
    ([str "b", str "x.tmp"] : List Str) ≠ [] ∧
    shouldExclude (joinSegs [str "b", str "x.tmp"]) [str "*.tmp"] = true ∧
    (∀ i, i + 1 < ([str "b", str "x.tmp"] : List Str).length →
      shouldExclude (joinSegs (([str "b", str "x.tmp"] : List Str).take (i + 1)))
          [str "*.tmp"] = true ∨
        lstatIn [(str "b", .dir [])]
          (([str "b", str "x.tmp"] : List Str).take (i + 1)) = .ok ()) ∧
    (lookupTree (forwardPass 4 ⟨true, true, false, [str "*.tmp"], false, false⟩
          [(str "b", .dir [])]
          (some (.dir [(str "b", .dir [(str "x.tmp", .file ⟨[1], 0⟩)])]))).dst
        [str "b", str "x.tmp"]
      = lookupTree
          (some (.dir [(str "b", .dir [(str "x.tmp", .file ⟨[1], 0⟩)])]))
          [str "b", str "x.tmp"] ∧
     lookupTree (syncDir 4 ⟨true, true, false, [str "*.tmp"], false, false⟩
          [(str "b", .dir [])]
          (some (.dir [(str "b", .dir [(str "x.tmp", .file ⟨[1], 0⟩)])]))).dst
        [str "b", str "x.tmp"]
      = lookupTree
          (some (.dir [(str "b", .dir [(str "x.tmp", .file ⟨[1], 0⟩)])]))
          [str "b", str "x.tmp"]) := by
  refine ⟨by decide, by decide, ?_, ?_⟩
  · intro i hi
    have h0 : i = 0 := by
      simp at hi
      omega
    subst h0
    right
    rfl
  · exact exclusion_invisibility 4
      ⟨true, true, false, [str "*.tmp"], false, false⟩ [(str "b", .dir [])]
      (some (.dir [(str "b", .dir [(str "x.tmp", .file ⟨[1], 0⟩)])]))
      [str "b", str "x.tmp"] (by decide) (by decide)
      (by
        intro i hi
        have h0 : i = 0 := by
          simp at hi
          omega
        subst h0
        right
        rfl)

/-- C8 counterexample: the path `b/x.tmp` matches the exclude pattern
`*.tmp` and exists in the destination, yet a non-dry mirror run whose
SOURCE lacks the non-excluded directory `b` removes `b` recursively —
the excluded `b/x.tmp` with it (`os.RemoveAll` does not consult the
exclusion rules for the subtree it deletes). -/
theorem excluded_path_removed :
    shouldExclude (joinSegs [str "b", str "x.tmp"]) [str "*.tmp"] = true ∧
    memPath (some (.dir [(str "b", .dir [(str "x.tmp", .file ⟨[1], 0⟩)])]))
      [str "b", str "x.tmp"] = true ∧
    memPath (syncDir 4 ⟨true, true, false, [str "*.tmp"], false, false⟩ []
        (some (.dir [(str "b", .dir [(str "x.tmp", .file ⟨[1], 0⟩)])]))).dst
      [str "b", str "x.tmp"] = false :=
  ⟨by decide, by decide, by decide⟩

/-! ### Post-conditions of the mutation primitives -/

theorem sameFile_refl (m : FileMeta) (cs : Bool) : sameFile m m cs = true := by
  unfold sameFile
  have hcond : fsize m = fsize m ∧ absDuration (m.mtime - m.mtime) ≤ second := by
    refine ⟨rfl, ?_⟩
    rw [sub_self]
    decide
  rw [if_pos hcond]
  rcases cs with _ | _
  · rfl
  · simp

theorem mkChain_dirEx (q : List Str) : ∀ (p : List Str), p <+: q →
    ∃ ds, lookupTree (some (mkChain q)) p = some (.dir ds) := by
  induction q with
  | nil =>
    intro p hp
    rw [List.prefix_nil.mp hp]
    exact ⟨[], rfl⟩
  | cons m q' ih =>
    intro p hp
    rcases p with _ | ⟨n, rest⟩
    · exact ⟨[(m, mkChain q')], rfl⟩
    · rcases List.cons_prefix_cons.mp hp with ⟨hnm, hrest⟩
      subst hnm
      show ∃ ds, lookupTree (findEntry [(n, mkChain q')] n) rest
        = some (.dir ds)
      rw [show findEntry [(n, mkChain q')] n = some (mkChain q') from by
        simp [findEntry]]
      exact ih rest hrest

theorem mkdirTree_post (q : List Str) : ∀ (t t2 : FSTree) (c : Nat),
    mkdirTree t q = .ok (t2, c) → ∀ p, p <+: q →
      ∃ ds, lookupTree (some t2) p = some (.dir ds) := by
  induction q with
  | nil =>
    intro t t2 c h p hp
    rcases t with m | es
    · exact absurd h (by simp [mkdirTree])
    · rw [show mkdirTree (.dir es) [] = .ok (.dir es, 0) from rfl] at h
      injection h with h
      injection h with h1 h2
      rw [List.prefix_nil.mp hp, ← h1]
      exact ⟨es, rfl⟩
  | cons n q' ih =>
    intro t t2 c h p hp
    rcases t with m | es
    · exact absurd h (by simp [mkdirTree])
    · rw [show mkdirTree (.dir es) (n :: q')
          = (match findEntry es n with
             | some sub =>
               match mkdirTree sub q' with
               | .error e => .error e
               | .ok (sub2, c2) => .ok (.dir (replaceEntry es n sub2), c2)
             | none =>
               .ok (.dir (es ++ [(n, mkChain q')]), q'.length + 1)) from rfl]
        at h
      rcases hf : findEntry es n with _ | sub
      · rw [hf] at h
        injection h with h
        injection h with h1 h2
        rw [← h1]
        rcases p with _ | ⟨a, rest⟩
        · exact ⟨es ++ [(n, mkChain q')], rfl⟩
        · rcases List.cons_prefix_cons.mp hp with ⟨han, hrest⟩
          subst han
          show ∃ ds, lookupTree (findEntry (es ++ [(a, mkChain q')]) a) rest
            = some (.dir ds)
          rw [findEntry_append_right es [(a, mkChain q')] a hf,
            show findEntry [(a, mkChain q')] a = some (mkChain q') from by
              simp [findEntry]]
          exact mkChain_dirEx q' rest hrest
      · rw [hf] at h
        replace h : (match mkdirTree sub q' with
            | Except.error e => Except.error e
            | Except.ok (sub2, c2) =>
              Except.ok (FSTree.dir (replaceEntry es n sub2), c2))
            = Except.ok (t2, c) := h
        revert h
        rcases hm : mkdirTree sub q' with e | sc
        · intro h
          exact absurd h (by simp)
        · rcases sc with ⟨sub2, c2⟩
          intro h
          injection h with h
          injection h with h1 h2
          rw [← h1]
          rcases p with _ | ⟨a, rest⟩
          · exact ⟨replaceEntry es n sub2, rfl⟩
          · rcases List.cons_prefix_cons.mp hp with ⟨han, hrest⟩
            subst han
            show ∃ ds, lookupTree (findEntry (replaceEntry es a sub2) a) rest
              = some (.dir ds)
            rw [findEntry_replace_self es a sub2 (by rw [hf]; rfl)]
            exact ih sub sub2 c2 hm rest hrest

theorem mkdirAllSt_post (st : Option FSTree) (q : List Str) (t2 : FSTree)
    (c : Nat) (h : mkdirAllSt st q = .ok (t2, c)) :
    ∀ p, p <+: q → ∃ ds, lookupTree (some t2) p = some (.dir ds) := by
  intro p hp
  rcases st with _ | t
  · rw [show mkdirAllSt none q = .ok (mkChain q, q.length + 1) from rfl] at h
    injection h with h
    injection h with h1 h2
    rw [← h1]
    exact mkChain_dirEx q p hp
  · rw [show mkdirAllSt (some t) q
        = (match mkdirTree t q with
           | .error e => .error e
           | .ok (t3, c3) => .ok (t3, c3)) from rfl] at h
    revert h
    rcases hm : mkdirTree t q with e | tc
    · intro h
      exact absurd h (by simp)
    · rcases tc with ⟨t3, c3⟩
      intro h
      injection h with h
      injection h with h1 h2
      rw [← h1]
      exact mkdirTree_post q t t3 c3 hm p hp

theorem mkdirAllSt_dir_pres (st : Option FSTree) (q : List Str) (t2 : FSTree)
    (c : Nat) (h : mkdirAllSt st q = .ok (t2, c)) (p : List Str)
    (ds : List Entry) (hd : lookupTree st p = some (.dir ds)) :
    ∃ ds2, lookupTree (some t2) p = some (.dir ds2) := by
  by_cases hp : p <+: q
  · exact mkdirAllSt_post st q t2 c h p hp
  · rw [mkdirAllSt_frame st q t2 c h p hp, hd]
    exact ⟨ds, rfl⟩

theorem write_dir_shape (es : List Entry) (q : List Str) (m : FileMeta)
    (hq : q ≠ []) : ∃ ds2, writeFileTree (.dir es) q m = .dir ds2 := by
  rcases q with _ | ⟨n, q'⟩
  · exact absurd rfl hq
  rcases q' with _ | ⟨n2, q2⟩
  · show ∃ ds2, (match findEntry es n with
      | some (.dir _) => FSTree.dir es
      | some (.file _) => FSTree.dir (replaceEntry es n (.file m))
      | none => FSTree.dir (es ++ [(n, .file m)])) = FSTree.dir ds2
    rcases hf : findEntry es n with _ | sub
    · exact ⟨es ++ [(n, .file m)], rfl⟩
    · rcases sub with mf | d
      · exact ⟨replaceEntry es n (.file m), rfl⟩
      · exact ⟨es, rfl⟩
  · show ∃ ds2, (match findEntry es n with
      | some sub => FSTree.dir (replaceEntry es n (writeFileTree sub (n2 :: q2) m))
      | none => FSTree.dir es) = FSTree.dir ds2
    rcases hf : findEntry es n with _ | sub
    · exact ⟨es, rfl⟩
    · exact ⟨replaceEntry es n (writeFileTree sub (n2 :: q2) m), rfl⟩

theorem writeFileTree_dir_pres (q : List Str) : ∀ (t : FSTree) (m : FileMeta)
    (p : List Str) (ds : List Entry),
    lookupTree (some t) p = some (.dir ds) →
    ∃ ds2, lookupTree (some (writeFileTree t q m)) p = some (.dir ds2) := by
  induction q with
  | nil =>
    intro t m p ds hd
    rcases t with m0 | es
    · exact ⟨ds, hd⟩
    · exact ⟨ds, hd⟩
  | cons n q' ih =>
    intro t m p ds hd
    rcases t with m0 | es
    · exact ⟨ds, hd⟩
    · rcases p with _ | ⟨a, prest⟩
      · rcases write_dir_shape es (n :: q') m (by simp) with ⟨ds2, hds2⟩
        refine ⟨ds2, ?_⟩
        rw [hds2]
        rfl
      · replace hd : lookupTree (findEntry es a) prest = some (.dir ds) := hd
        rcases q' with _ | ⟨n2, q2⟩
        · rcases hf : findEntry es n with _ | sub
          · rw [show writeFileTree (.dir es) [n] m
                = .dir (es ++ [(n, .file m)]) from by
              rw [show writeFileTree (.dir es) [n] m
                  = (match findEntry es n with
                     | some (.dir _) => .dir es
                     | some (.file _) => .dir (replaceEntry es n (.file m))
                     | none => .dir (es ++ [(n, .file m)])) from rfl, hf]]
            rcases hfa : findEntry es a with _ | ta
            · rw [hfa, lookup_none] at hd
              exact absurd hd (by simp)
            · refine ⟨ds, ?_⟩
              show lookupTree (findEntry (es ++ [(n, .file m)]) a) prest
                = some (.dir ds)
              rw [findEntry_append_left es [(n, .file m)] a ta hfa, ← hfa]
              exact hd
          · rcases sub with mf | d
            · rw [show writeFileTree (.dir es) [n] m
                  = .dir (replaceEntry es n (.file m)) from by
                rw [show writeFileTree (.dir es) [n] m
                    = (match findEntry es n with
                       | some (.dir _) => .dir es
                       | some (.file _) => .dir (replaceEntry es n (.file m))
                       | none => .dir (es ++ [(n, .file m)])) from rfl, hf]]
              by_cases han : a = n
              · exfalso
                subst han
                rw [hf] at hd
                rcases prest with _ | ⟨r, prest'⟩
                · exact absurd (show some (FSTree.file mf) = some (FSTree.dir ds)
                    from hd) (by simp)
                · exact absurd (show (none : Option FSTree) = some (FSTree.dir ds)
                    from hd) (by simp)
              · refine ⟨ds, ?_⟩
                show lookupTree (findEntry (replaceEntry es n (.file m)) a) prest
                  = some (.dir ds)
                rw [findEntry_replace_other es n a (.file m) han]
                exact hd
            · rw [show writeFileTree (.dir es) [n] m = .dir es from by
                rw [show writeFileTree (.dir es) [n] m
                    = (match findEntry es n with
                       | some (.dir _) => .dir es
                       | some (.file _) => .dir (replaceEntry es n (.file m))
                       | none => .dir (es ++ [(n, .file m)])) from rfl, hf]]
              exact ⟨ds, hd⟩
        · rcases hf : findEntry es n with _ | sub
          · rw [show writeFileTree (.dir es) (n :: n2 :: q2) m = .dir es from by
              rw [show writeFileTree (.dir es) (n :: n2 :: q2) m
                  = (match findEntry es n with
                     | some sub =>
                       .dir (replaceEntry es n (writeFileTree sub (n2 :: q2) m))
                     | none => .dir es) from rfl, hf]]
            exact ⟨ds, hd⟩
          · rw [show writeFileTree (.dir es) (n :: n2 :: q2) m
                = .dir (replaceEntry es n (writeFileTree sub (n2 :: q2) m))
                from by
              rw [show writeFileTree (.dir es) (n :: n2 :: q2) m
                  = (match findEntry es n with
                     | some sub =>
                       .dir (replaceEntry es n (writeFileTree sub (n2 :: q2) m))
                     | none => .dir es) from rfl, hf]]
            by_cases han : a = n
            · subst han
              rw [hf] at hd
              rcases ih sub m prest ds hd with ⟨ds2, hds2⟩
              refine ⟨ds2, ?_⟩
              show lookupTree
                  (findEntry (replaceEntry es a (writeFileTree sub (n2 :: q2) m)) a)
                  prest = some (.dir ds2)
              rw [findEntry_replace_self es a _ (by rw [hf]; rfl)]
              exact hds2
            · refine ⟨ds, ?_⟩
              show lookupTree
                  (findEntry (replaceEntry es n (writeFileTree sub (n2 :: q2) m)) a)
                  prest = some (.dir ds)
              rw [findEntry_replace_other es n a _ han]
              exact hd

/-! ### A visit that has nothing left to do -/

/-- Is there a directory at this path? -/
def dirAtB (st : Option FSTree) (q : List Str) : Bool :=
  match lookupTree st q with
  | some (.dir _) => true
  | _ => false

/-- Every prefix of the path (the root included) is a directory. -/
def chainDirsB (rel : List Str) (st : Option FSTree) : Bool :=
  (List.range (rel.length + 1)).all (fun i => dirAtB st (rel.take i))

/-- A directory listing without repeated names, as a real filesystem
guarantees. -/
def nodupKeys : List Entry → Bool
  | [] => true
  | e :: rest => (findEntry rest e.1).isNone && nodupKeys rest

/-- Well-formedness of a tree down to the given depth: every listing
is free of repeated names. -/
def nodupTreeB : Nat → FSTree → Bool
  | 0, _ => false
  | _ + 1, .file _ => true
  | fuel + 1, .dir es => nodupKeys es && es.all (fun e => nodupTreeB fuel e.2)

/-- One forward visit is a no-op on this destination: the path is
excluded, or an equivalent regular file already sits there, or the
directory chain exists and every child is recursively a no-op. -/
def noopBody (recurse : List Str → FSTree → Bool) (opt : options)
    (rel : List Str) (t : FSTree) (st : Option FSTree) : Bool :=
  if shouldExclude (joinSegs rel) opt.excludes then true
  else
    match t with
    | .file m =>
      match lookupTree st rel with
      | some (.file m2) => sameFile m m2 opt.checksum
      | _ => false
    | .dir es =>
      chainDirsB rel st && es.all (fun e => recurse (rel ++ [e.1]) e.2)

def noopVisit (opt : options) : Nat → List Str → FSTree → Option FSTree → Bool
  | 0, _, _, _ => false
  | fuel + 1, rel, t, st =>
    noopBody (fun rel2 t2 => noopVisit opt fuel rel2 t2 st) opt rel t st

theorem dirAtB_spec (st : Option FSTree) (q : List Str) :
    dirAtB st q = true ↔ ∃ ds, lookupTree st q = some (.dir ds) := by
  unfold dirAtB
  rcases hl : lookupTree st q with _ | u
  · constructor
    · intro h
      exact absurd h (by simp)
    · rintro ⟨ds2, hds⟩
      exact absurd hds (by simp)
  · rcases u with m | ds
    · constructor
      · intro h
        exact absurd h (by simp)
      · rintro ⟨ds2, hds⟩
        exact absurd hds (by simp)
    · exact ⟨fun _ => ⟨ds, rfl⟩, fun _ => rfl⟩

theorem chainDirsB_spec (rel : List Str) (st : Option FSTree) :
    chainDirsB rel st = true ↔
      ∀ q, q <+: rel → ∃ ds, lookupTree st q = some (.dir ds) := by
  unfold chainDirsB
  rw [List.all_eq_true]
  constructor
  · intro h q hq
    have hlen : q.length < rel.length + 1 := Nat.lt_succ_of_le hq.length_le
    have h2 := h q.length (List.mem_range.mpr hlen)
    rw [← List.prefix_iff_eq_take.mp hq] at h2
    exact (dirAtB_spec st q).mp h2
  · intro h i hi
    exact (dirAtB_spec st (rel.take i)).mpr (h _ (List.take_prefix i rel))

theorem mkdirTree_noop : ∀ (q : List Str) (t : FSTree),
    (∀ p, p <+: q → ∃ ds, lookupTree (some t) p = some (.dir ds)) →
    mkdirTree t q = .ok (t, 0) := by
  intro q
  induction q with
  | nil =>
    intro t h
    rcases t with m | es
    · rcases h [] List.nil_prefix with ⟨ds, hds⟩
      exact absurd (show some (FSTree.file m) = some (FSTree.dir ds) from hds)
        (by simp)
    · rfl
  | cons n q' ih =>
    intro t h
    rcases t with m | es
    · rcases h [] List.nil_prefix with ⟨ds, hds⟩
      exact absurd (show some (FSTree.file m) = some (FSTree.dir ds) from hds)
        (by simp)
    · rcases h [n] (List.cons_prefix_cons.mpr ⟨rfl, List.nil_prefix⟩)
        with ⟨ds, hds⟩
      replace hds : lookupTree (findEntry es n) [] = some (.dir ds) := hds
      rcases hf : findEntry es n with _ | sub
      · rw [hf] at hds
        exact absurd (show (none : Option FSTree) = some (FSTree.dir ds)
          from hds) (by simp)
      · rw [hf] at hds
        rcases sub with m2 | es2
        · exact absurd (show some (FSTree.file m2) = some (FSTree.dir ds)
            from hds) (by simp)
        · have h' : ∀ p, p <+: q' →
              ∃ ds3, lookupTree (some (.dir es2)) p = some (.dir ds3) := by
            intro p hp
            rcases h (n :: p) (List.cons_prefix_cons.mpr ⟨rfl, hp⟩)
              with ⟨ds3, hds3⟩
            replace hds3 : lookupTree (findEntry es n) p = some (.dir ds3) :=
              hds3
            rw [hf] at hds3
            exact ⟨ds3, hds3⟩
          show (match findEntry es n with
             | some sub =>
               match mkdirTree sub q' with
               | .error e => .error e
               | .ok (sub2, c2) =>
                 Except.ok (FSTree.dir (replaceEntry es n sub2), c2)
             | none =>
               Except.ok (FSTree.dir (es ++ [(n, mkChain q')]), q'.length + 1))
            = Except.ok (FSTree.dir es, 0)
          rw [hf]
          show (match mkdirTree (FSTree.dir es2) q' with
             | .error e => .error e
             | .ok (sub2, c2) =>
               Except.ok (FSTree.dir (replaceEntry es n sub2), c2))
            = Except.ok (FSTree.dir es, 0)
          rw [ih (.dir es2) h']
          show Except.ok (FSTree.dir (replaceEntry es n (FSTree.dir es2)), 0)
            = Except.ok (FSTree.dir es, 0)
          rw [replaceEntry_self es n (.dir es2) hf]

theorem mkdirAllSt_noop (st : Option FSTree) (q : List Str)
    (h : ∀ p, p <+: q → ∃ ds, lookupTree st p = some (.dir ds)) :
    ∃ t, st = some t ∧ mkdirAllSt st q = .ok (t, 0) := by
  rcases st with _ | t
  · rcases h [] List.nil_prefix with ⟨ds, hds⟩
    rw [lookup_none] at hds
    exact absurd hds (by simp)
  · refine ⟨t, rfl, ?_⟩
    show (match mkdirTree t q with
       | .error e => .error e
       | .ok (t3, c3) => Except.ok (t3, c3)) = Except.ok (t, 0)
    rw [mkdirTree_noop q t h]

theorem ensureDir_noop (rel : List Str) (st : Option FSTree) (opt : options)
    (h : chainDirsB rel st = true) :
    ensureDir rel st opt = ⟨st, [], 0, none⟩ := by
  unfold ensureDir
  by_cases hd : opt.dryRun = true
  · rw [if_pos hd]
  · rw [if_neg hd]
    rcases mkdirAllSt_noop st rel ((chainDirsB_spec rel st).mp h)
      with ⟨t, hst, hmk⟩
    subst hst
    rw [hmk]

theorem findEntry_none_names (es : List Entry) (n : Str)
    (h : (findEntry es n).isNone = true) : ∀ e ∈ es, e.1 ≠ n := by
  induction es with
  | nil =>
    intro e he
    simp at he
  | cons x es' ih =>
    rcases x with ⟨m, t⟩
    rw [show findEntry ((m, t) :: es') n
        = if m = n then some t else findEntry es' n from rfl] at h
    by_cases hm : m = n
    · rw [if_pos hm] at h
      simp at h
    · rw [if_neg hm] at h
      intro e he
      rcases List.mem_cons.mp he with he1 | he2
      · rw [he1]
        exact hm
      · exact ih h e he2

theorem fwd_fold_freeze (f : Nat) (opt : options) (rel : List Str) :
    ∀ (es : List Entry) (acc : SyncRes), acc.err.isSome = true →
      es.foldl (fwdStep f opt rel) acc = acc := by
  intro es
  induction es with
  | nil =>
    intro acc h
    rfl
  | cons e es' ih =>
    intro acc h
    rw [List.foldl_cons, show fwdStep f opt rel acc e = acc from by
      unfold fwdStep fwdStepG fwdRec
      rw [if_pos h]]
    exact ih acc h

theorem fwdVisit_frame2 (opt : options) :
    ∀ (fuel : Nat) (rel : List Str) (t : FSTree) (st : Option FSTree)
      (p : List Str), ¬ p <+: rel → ¬ rel <+: p →
      lookupTree (fwdVisit fuel opt rel t st).dst p = lookupTree st p := by
  intro fuel
  induction fuel with
  | zero => intro rel t st p _ _; rfl
  | succ f ih =>
    intro rel t st p hnp hnr
    by_cases hex : shouldExclude (joinSegs rel) opt.excludes = true
    · rw [fwdVisit_excl f opt rel t st hex]
    · have hex2 : shouldExclude (joinSegs rel) opt.excludes = false := by
        simpa using hex
      rcases t with m | es
      · rw [fwdVisit_file f opt rel m st hex2]
        exact syncFile_frame rel m st opt p hnp
      · by_cases he : (ensureDir rel st opt).err.isSome = true
        · rw [fwdVisit_dir_err f opt rel es st hex2 he]
          exact ensureDir_frame rel st opt p hnp
        · have he2 : (ensureDir rel st opt).err = none := by
            rcases h3 : (ensureDir rel st opt).err with _ | e3
            · rfl
            · rw [h3] at he
              simp at he
          rw [fwdVisit_dir f opt rel es st hex2 he2]
          refine foldl_inv (fun acc => lookupTree acc.dst p = lookupTree st p)
            (fwdStep f opt rel) es ?_ _ ?_
          · rintro acc e hmem hacc
            unfold fwdStep fwdStepG fwdRec
            by_cases herr : acc.err.isSome = true
            · rw [if_pos herr]
              exact hacc
            · rw [if_neg herr]
              show lookupTree (fwdVisit f opt (rel ++ [e.1]) e.2 acc.dst).dst p
                = _
              have hc1 : ¬ p <+: rel ++ [e.1] := by
                intro hpc
                rcases List.prefix_concat_iff.mp hpc with h1 | h1
                · exact hnr (by rw [h1]; exact ⟨[e.1], rfl⟩)
                · exact hnp h1
              have hc2 : ¬ rel ++ [e.1] <+: p := fun hcp =>
                hnr ((List.prefix_append rel [e.1]).trans hcp)
              rw [ih (rel ++ [e.1]) e.2 acc.dst p hc1 hc2]
              exact hacc
          · show lookupTree (ensureDir rel st opt).dst p = lookupTree st p
            exact ensureDir_frame rel st opt p hnp

theorem ensureDir_dir_pres (rel : List Str) (st : Option FSTree) (opt : options)
    (q : List Str) (ds : List Entry) (hd : lookupTree st q = some (.dir ds)) :
    ∃ ds2, lookupTree (ensureDir rel st opt).dst q = some (.dir ds2) := by
  unfold ensureDir
  by_cases hdry : opt.dryRun = true
  · rw [if_pos hdry]
    exact ⟨ds, hd⟩
  · rw [if_neg hdry]
    rcases hm : mkdirAllSt st rel with e | tc
    · exact ⟨ds, hd⟩
    · rcases tc with ⟨t2, c⟩
      show ∃ ds2, lookupTree (some t2) q = some (.dir ds2)
      exact mkdirAllSt_dir_pres st rel t2 c hm q ds hd

theorem copyOneFile_dir_pres (rel : List Str) (m : FileMeta)
    (st : Option FSTree) (opt : options) (q : List Str) (ds : List Entry)
    (hd : lookupTree st q = some (.dir ds)) :
    ∃ ds2, lookupTree (copyOneFile rel m st opt).dst q = some (.dir ds2) := by
  unfold copyOneFile
  by_cases hdry : opt.dryRun = true
  · rw [if_pos hdry]
    exact ⟨ds, hd⟩
  · rw [if_neg hdry]
    rcases hm : mkdirAllSt st rel.dropLast with e | tc
    · exact ⟨ds, hd⟩
    · rcases tc with ⟨t2, c⟩
      rcases mkdirAllSt_dir_pres st rel.dropLast t2 c hm q ds hd
        with ⟨ds2, hds2⟩
      show ∃ ds3, lookupTree ((match lookupTree (some t2) rel with
          | some (.dir _) => (⟨some t2, [], c, some .openFileIsDir⟩ : SyncRes)
          | _ => ⟨some (writeFileTree t2 rel m), [rel], c, none⟩) :
            SyncRes).dst q = some (.dir ds3)
      rcases hl : lookupTree (some t2) rel with _ | u
      · show ∃ ds3, lookupTree (some (writeFileTree t2 rel m)) q
          = some (.dir ds3)
        exact writeFileTree_dir_pres rel t2 m q ds2 hds2
      · rcases u with mf | es2
        · show ∃ ds3, lookupTree (some (writeFileTree t2 rel m)) q
            = some (.dir ds3)
          exact writeFileTree_dir_pres rel t2 m q ds2 hds2
        · exact ⟨ds2, hds2⟩

theorem syncFile_dir_pres (rel : List Str) (m : FileMeta) (st : Option FSTree)
    (opt : options) (q : List Str) (ds : List Entry)
    (hd : lookupTree st q = some (.dir ds)) :
    ∃ ds2, lookupTree (syncFile rel m st opt).dst q = some (.dir ds2) := by
  unfold syncFile
  rcases hl : lookupTree st rel with _ | u
  · exact copyOneFile_dir_pres rel m st opt q ds hd
  · rcases u with mf | es2
    · show ∃ ds2, lookupTree
          (if sameFile m mf opt.checksum = true then
            (⟨st, [], 0, none⟩ : SyncRes)
           else copyOneFile rel m st opt).dst q = some (.dir ds2)
      by_cases hs : sameFile m mf opt.checksum = true
      · rw [if_pos hs]
        exact ⟨ds, hd⟩
      · rw [if_neg hs]
        exact copyOneFile_dir_pres rel m st opt q ds hd
    · exact copyOneFile_dir_pres rel m st opt q ds hd

theorem fwdVisit_dir_pres (opt : options) :
    ∀ (fuel : Nat) (rel : List Str) (t : FSTree) (st : Option FSTree)
      (q : List Str) (ds : List Entry),
      lookupTree st q = some (.dir ds) →
      ∃ ds2, lookupTree (fwdVisit fuel opt rel t st).dst q
        = some (.dir ds2) := by
  intro fuel
  induction fuel with
  | zero =>
    intro rel t st q ds hd
    exact ⟨ds, hd⟩
  | succ f ih =>
    intro rel t st q ds hd
    by_cases hex : shouldExclude (joinSegs rel) opt.excludes = true
    · rw [fwdVisit_excl f opt rel t st hex]
      exact ⟨ds, hd⟩
    · have hex2 : shouldExclude (joinSegs rel) opt.excludes = false := by
        simpa using hex
      rcases t with m | es
      · rw [fwdVisit_file f opt rel m st hex2]
        exact syncFile_dir_pres rel m st opt q ds hd
      · by_cases he : (ensureDir rel st opt).err.isSome = true
        · rw [fwdVisit_dir_err f opt rel es st hex2 he]
          exact ensureDir_dir_pres rel st opt q ds hd
        · have he2 : (ensureDir rel st opt).err = none := by
            rcases h3 : (ensureDir rel st opt).err with _ | e3
            · rfl
            · rw [h3] at he
              simp at he
          rw [fwdVisit_dir f opt rel es st hex2 he2]
          refine foldl_inv
            (fun acc => ∃ ds2, lookupTree acc.dst q = some (.dir ds2))
            (fwdStep f opt rel) es ?_ _ ?_
          · rintro acc e hmem ⟨ds2, hacc⟩
            unfold fwdStep fwdStepG fwdRec
            by_cases herr : acc.err.isSome = true
            · rw [if_pos herr]
              exact ⟨ds2, hacc⟩
            · rw [if_neg herr]
              show ∃ ds3,
                lookupTree (fwdVisit f opt (rel ++ [e.1]) e.2 acc.dst).dst q
                  = some (.dir ds3)
              exact ih (rel ++ [e.1]) e.2 acc.dst q ds2 hacc
          · show ∃ ds2, lookupTree (ensureDir rel st opt).dst q
              = some (.dir ds2)
            exact ensureDir_dir_pres rel st opt q ds hd

theorem noopVisit_sound (opt : options) :
    ∀ (fuel : Nat) (rel : List Str) (t : FSTree) (st : Option FSTree),
      noopVisit opt fuel rel t st = true →
      fwdVisit fuel opt rel t st = ⟨st, [], 0, none⟩ := by
  intro fuel
  induction fuel with
  | zero =>
    intro rel t st h
    exact absurd h (by simp [noopVisit])
  | succ f ih =>
    intro rel t st h
    replace h : noopBody (fun rel2 t2 => noopVisit opt f rel2 t2 st)
        opt rel t st = true := h
    unfold noopBody at h
    by_cases hex : shouldExclude (joinSegs rel) opt.excludes = true
    · exact fwdVisit_excl f opt rel t st hex
    · rw [if_neg hex] at h
      have hex2 : shouldExclude (joinSegs rel) opt.excludes = false := by
        simpa using hex
      rcases t with m | es
      · rw [fwdVisit_file f opt rel m st hex2]
        revert h
        rcases hl : lookupTree st rel with _ | u
        · intro h
          exact absurd h (by simp)
        · rcases u with m2 | es2
          · intro h
            replace h : sameFile m m2 opt.checksum = true := h
            unfold syncFile
            rw [hl]
            show (if sameFile m m2 opt.checksum = true then
                (⟨st, [], 0, none⟩ : SyncRes)
              else copyOneFile rel m st opt) = ⟨st, [], 0, none⟩
            rw [if_pos h]
          · intro h
            exact absurd h (by simp)
      · rw [Bool.and_eq_true] at h
        rcases h with ⟨hchain, hall⟩
        have hens := ensureDir_noop rel st opt hchain
        have he2 : (ensureDir rel st opt).err = none := by
          rw [hens]
        rw [fwdVisit_dir f opt rel es st hex2 he2, hens]
        rw [List.all_eq_true] at hall
        refine foldl_inv (fun acc => acc = ⟨st, [], 0, none⟩)
          (fwdStep f opt rel) es ?_ _ rfl
        rintro acc e hmem rfl
        unfold fwdStep fwdStepG fwdRec
        rw [if_neg (by simp)]
        rw [show ((⟨st, [], 0, none⟩ : SyncRes)).dst = st from rfl,
          ih (rel ++ [e.1]) e.2 st (hall e hmem)]
        rfl

theorem noopVisit_stable (opt : options) :
    ∀ (fuel : Nat) (rel : List Str) (t : FSTree) (st st' : Option FSTree),
      (∀ q, q <+: rel → ∀ ds, lookupTree st q = some (.dir ds) →
        ∃ ds2, lookupTree st' q = some (.dir ds2)) →
      (∀ p, rel <+: p → lookupTree st' p = lookupTree st p) →
      noopVisit opt fuel rel t st = true →
      noopVisit opt fuel rel t st' = true := by
  intro fuel
  induction fuel with
  | zero =>
    intro rel t st st' _ _ h
    exact absurd h (by simp [noopVisit])
  | succ f ih =>
    intro rel t st st' hdir hexact h
    replace h : noopBody (fun rel2 t2 => noopVisit opt f rel2 t2 st)
        opt rel t st = true := h
    show noopBody (fun rel2 t2 => noopVisit opt f rel2 t2 st')
        opt rel t st' = true
    unfold noopBody at h ⊢
    by_cases hex : shouldExclude (joinSegs rel) opt.excludes = true
    · rw [if_pos hex]
    · rw [if_neg hex] at h ⊢
      rcases t with m | es
      · revert h
        rcases hl : lookupTree st rel with _ | u
        · intro h
          exact absurd h (by simp)
        · rcases u with m2 | es2
          · intro h
            replace h : sameFile m m2 opt.checksum = true := h
            rw [hexact rel (List.prefix_refl rel), hl]
            exact h
          · intro h
            exact absurd h (by simp)
      · rw [Bool.and_eq_true] at h ⊢
        rcases h with ⟨hchain, hall⟩
        constructor
        · rw [chainDirsB_spec] at hchain ⊢
          intro q hq
          rcases hchain q hq with ⟨ds, hds⟩
          exact hdir q hq ds hds
        · rw [List.all_eq_true] at hall ⊢
          intro e hmem
          refine ih (rel ++ [e.1]) e.2 st st' ?_ ?_ (hall e hmem)
          · intro q hq ds hds
            rcases List.prefix_concat_iff.mp hq with h1 | h1
            · rw [h1] at hds ⊢
              rw [hexact (rel ++ [e.1]) ⟨[e.1], rfl⟩]
              exact ⟨ds, hds⟩
            · exact hdir q h1 ds hds
          · intro p hp
            exact hexact p ((List.prefix_append rel [e.1]).trans hp)

theorem concat_pre_concat (rel : List Str) (a b : Str)
    (h : rel ++ [a] <+: rel ++ [b]) : a = b := by
  rcases List.prefix_concat_iff.mp h with h1 | h1
  · simp at h1
    exact h1
  · have h2 := h1.length_le
    simp at h2

theorem writeFileTree_post : ∀ (q : List Str) (t : FSTree) (m : FileMeta),
    q ≠ [] →
    (∀ p, p <+: q → p ≠ q → ∃ ds, lookupTree (some t) p = some (.dir ds)) →
    (∀ ds, lookupTree (some t) q ≠ some (.dir ds)) →
    lookupTree (some (writeFileTree t q m)) q = some (.file m) := by
  intro q
  induction q with
  | nil =>
    intro t m hq
    exact absurd rfl hq
  | cons n q' ih =>
    intro t m _ hpre hnd
    rcases t with m0 | es
    · rcases hpre [] List.nil_prefix (by simp) with ⟨ds, hds⟩
      exact absurd (show some (FSTree.file m0) = some (FSTree.dir ds) from hds)
        (by simp)
    · rcases q' with _ | ⟨n2, q2⟩
      · rcases hf : findEntry es n with _ | sub
        · rw [show writeFileTree (.dir es) [n] m
              = .dir (es ++ [(n, .file m)]) from by
            rw [show writeFileTree (.dir es) [n] m
                = (match findEntry es n with
                   | some (.dir _) => .dir es
                   | some (.file _) => .dir (replaceEntry es n (.file m))
                   | none => .dir (es ++ [(n, .file m)])) from rfl, hf]]
          show lookupTree (findEntry (es ++ [(n, .file m)]) n) []
            = some (.file m)
          rw [findEntry_append_right es _ n hf,
            show findEntry [(n, FSTree.file m)] n = some (.file m) from by
              simp [findEntry]]
          rfl
        · rcases sub with mf | d
          · rw [show writeFileTree (.dir es) [n] m
                = .dir (replaceEntry es n (.file m)) from by
              rw [show writeFileTree (.dir es) [n] m
                  = (match findEntry es n with
                     | some (.dir _) => .dir es
                     | some (.file _) => .dir (replaceEntry es n (.file m))
                     | none => .dir (es ++ [(n, .file m)])) from rfl, hf]]
            show lookupTree (findEntry (replaceEntry es n (.file m)) n) []
              = some (.file m)
            rw [findEntry_replace_self es n (.file m) (by rw [hf]; rfl)]
            rfl
          · exfalso
            exact hnd d (by
              show lookupTree (findEntry es n) [] = some (.dir d)
              rw [hf]
              rfl)
      · rcases hf : findEntry es n with _ | sub
        · exfalso
          rcases hpre [n] (List.cons_prefix_cons.mpr ⟨rfl, List.nil_prefix⟩)
            (by simp) with ⟨ds, hds⟩
          replace hds : lookupTree (findEntry es n) [] = some (.dir ds) := hds
          rw [hf] at hds
          exact absurd (show (none : Option FSTree) = some (FSTree.dir ds)
            from hds) (by simp)
        · rw [show writeFileTree (.dir es) (n :: n2 :: q2) m
              = .dir (replaceEntry es n (writeFileTree sub (n2 :: q2) m))
              from by
            rw [show writeFileTree (.dir es) (n :: n2 :: q2) m
                = (match findEntry es n with
                   | some sub =>
                     .dir (replaceEntry es n (writeFileTree sub (n2 :: q2) m))
                   | none => .dir es) from rfl, hf]]
          show lookupTree
              (findEntry (replaceEntry es n (writeFileTree sub (n2 :: q2) m)) n)
              (n2 :: q2) = some (.file m)
          rw [findEntry_replace_self es n _ (by rw [hf]; rfl)]
          apply ih sub m (by simp)
          · intro p hp hne
            rcases hpre (n :: p) (List.cons_prefix_cons.mpr ⟨rfl, hp⟩)
              (by simp [hne]) with ⟨ds, hds⟩
            replace hds : lookupTree (findEntry es n) p = some (.dir ds) := hds
            rw [hf] at hds
            exact ⟨ds, hds⟩
          · intro ds hds
            apply hnd ds
            show lookupTree (findEntry es n) (n2 :: q2) = some (.dir ds)
            rw [hf]
            exact hds

theorem copyOneFile_post (rel : List Str) (m : FileMeta) (st : Option FSTree)
    (opt : options) (hdry : opt.dryRun = false)
    (herr : (copyOneFile rel m st opt).err = none) :
    lookupTree (copyOneFile rel m st opt).dst rel = some (.file m) := by
  unfold copyOneFile at herr ⊢
  rw [if_neg (by simp [hdry])] at herr ⊢
  revert herr
  rcases hm : mkdirAllSt st rel.dropLast with e | tc
  · intro herr
    exact absurd (show (some SyncErr.mkdirFailed : Option SyncErr) = none
      from herr) (by simp)
  · rcases tc with ⟨t2, c⟩
    have hdirs := mkdirAllSt_post st rel.dropLast t2 c hm
    show ((match lookupTree (some t2) rel with
        | some (.dir _) => (⟨some t2, [], c, some .openFileIsDir⟩ : SyncRes)
        | _ => ⟨some (writeFileTree t2 rel m), [rel], c, none⟩) : SyncRes).err
        = none →
      lookupTree ((match lookupTree (some t2) rel with
        | some (.dir _) => (⟨some t2, [], c, some .openFileIsDir⟩ : SyncRes)
        | _ => ⟨some (writeFileTree t2 rel m), [rel], c, none⟩) : SyncRes).dst
        rel = some (.file m)
    rcases hl2 : lookupTree (some t2) rel with _ | u2
    · intro _
      show lookupTree (some (writeFileTree t2 rel m)) rel = some (.file m)
      have hne : rel ≠ [] := by
        intro h0
        rcases hdirs [] List.nil_prefix with ⟨ds, hds⟩
        rw [← h0] at hds
        rw [hl2] at hds
        exact absurd hds (by simp)
      apply writeFileTree_post rel t2 m hne
      · intro p hp hpne
        exact hdirs p (proper_pre_dropLast p rel hp hpne)
      · intro ds
        rw [hl2]
        simp
    · rcases u2 with mf | es2
      · intro _
        show lookupTree (some (writeFileTree t2 rel m)) rel = some (.file m)
        have hne : rel ≠ [] := by
          intro h0
          rcases hdirs [] List.nil_prefix with ⟨ds, hds⟩
          rw [← h0] at hds
          rw [hl2] at hds
          exact absurd hds (by simp)
        apply writeFileTree_post rel t2 m hne
        · intro p hp hpne
          exact hdirs p (proper_pre_dropLast p rel hp hpne)
        · intro ds
          rw [hl2]
          simp
      · intro herr
        exact absurd (show (some SyncErr.openFileIsDir : Option SyncErr) = none
          from herr) (by simp)

theorem syncFile_post (rel : List Str) (m : FileMeta) (st : Option FSTree)
    (opt : options) (hdry : opt.dryRun = false)
    (herr : (syncFile rel m st opt).err = none) :
    ∃ m2, lookupTree (syncFile rel m st opt).dst rel = some (.file m2) ∧
      sameFile m m2 opt.checksum = true := by
  unfold syncFile at herr ⊢
  revert herr
  rcases hl : lookupTree st rel with _ | u
  · intro herr
    exact ⟨m, copyOneFile_post rel m st opt hdry herr,
      sameFile_refl m opt.checksum⟩
  · rcases u with m2 | es2
    · show (if sameFile m m2 opt.checksum = true then
            (⟨st, [], 0, none⟩ : SyncRes)
          else copyOneFile rel m st opt).err = none →
        ∃ m3, lookupTree (if sameFile m m2 opt.checksum = true then
              (⟨st, [], 0, none⟩ : SyncRes)
            else copyOneFile rel m st opt).dst rel = some (.file m3) ∧
          sameFile m m3 opt.checksum = true
      by_cases hs : sameFile m m2 opt.checksum = true
      · intro _
        rw [if_pos hs]
        exact ⟨m2, hl, hs⟩
      · intro herr
        rw [if_neg hs] at herr ⊢
        exact ⟨m, copyOneFile_post rel m st opt hdry herr,
          sameFile_refl m opt.checksum⟩
    · intro herr
      exact ⟨m, copyOneFile_post rel m st opt hdry herr,
        sameFile_refl m opt.checksum⟩

theorem ensureDir_err_none_post (rel : List Str) (st : Option FSTree)
    (opt : options) (hdry : opt.dryRun = false)
    (he : (ensureDir rel st opt).err = none) :
    ∀ q, q <+: rel →
      ∃ ds, lookupTree (ensureDir rel st opt).dst q = some (.dir ds) := by
  revert he
  unfold ensureDir
  rw [if_neg (by simp [hdry])]
  rcases hm : mkdirAllSt st rel with e | tc
  · intro h5
    exact absurd (show (some SyncErr.mkdirFailed : Option SyncErr) = none
      from h5) (by simp)
  · rcases tc with ⟨t2, c⟩
    intro _ q hq
    show ∃ ds, lookupTree (some t2) q = some (.dir ds)
    exact mkdirAllSt_post st rel t2 c hm q hq

/-- Visits of the remaining siblings, bearing different names, neither
disturb the lookups below a processed entry nor un-make a directory on
its chain. -/
theorem fwd_fold_agree (opt : options) (f : Nat) (rel : List Str) (n : Str) :
    ∀ (es : List Entry) (acc : SyncRes), (∀ e ∈ es, e.1 ≠ n) →
      (∀ q, q <+: rel ++ [n] → ∀ ds,
        lookupTree acc.dst q = some (.dir ds) →
        ∃ ds2, lookupTree (es.foldl (fwdStep f opt rel) acc).dst q
          = some (.dir ds2)) ∧
      (∀ p, rel ++ [n] <+: p →
        lookupTree (es.foldl (fwdStep f opt rel) acc).dst p
          = lookupTree acc.dst p) := by
  intro es
  induction es with
  | nil =>
    intro acc _
    exact ⟨fun q _ ds hds => ⟨ds, hds⟩, fun p _ => rfl⟩
  | cons e es' ih =>
    intro acc hne
    have hen : e.1 ≠ n := hne e (by simp)
    have hstep_dir : ∀ q, q <+: rel ++ [n] → ∀ ds,
        lookupTree acc.dst q = some (.dir ds) →
        ∃ ds2, lookupTree (fwdStep f opt rel acc e).dst q
          = some (.dir ds2) := by
      intro q hq ds hds
      unfold fwdStep fwdStepG fwdRec
      by_cases herr : acc.err.isSome = true
      · rw [if_pos herr]
        exact ⟨ds, hds⟩
      · rw [if_neg herr]
        show ∃ ds2, lookupTree (fwdVisit f opt (rel ++ [e.1]) e.2 acc.dst).dst q
          = some (.dir ds2)
        exact fwdVisit_dir_pres opt f (rel ++ [e.1]) e.2 acc.dst q ds hds
    have hstep_ex : ∀ p, rel ++ [n] <+: p →
        lookupTree (fwdStep f opt rel acc e).dst p = lookupTree acc.dst p := by
      intro p hp
      unfold fwdStep fwdStepG fwdRec
      by_cases herr : acc.err.isSome = true
      · rw [if_pos herr]
      · rw [if_neg herr]
        show lookupTree (fwdVisit f opt (rel ++ [e.1]) e.2 acc.dst).dst p
          = lookupTree acc.dst p
        apply fwdVisit_frame2
        · intro hpc
          exact hen (concat_pre_concat rel n e.1 (hp.trans hpc)).symm
        · intro hcp
          rcases List.prefix_or_prefix_of_prefix hp hcp with h1 | h1
          · exact hen (concat_pre_concat rel n e.1 h1).symm
          · exact hen (concat_pre_concat rel e.1 n h1)
    rcases ih (fwdStep f opt rel acc e)
      (fun e2 he2 => hne e2 (by simp [he2])) with ⟨ih1, ih2⟩
    refine ⟨?_, ?_⟩
    · intro q hq ds hds
      rw [List.foldl_cons]
      rcases hstep_dir q hq ds hds with ⟨ds2, hds2⟩
      exact ih1 q hq ds2 hds2
    · intro p hp
      rw [List.foldl_cons, ih2 p hp, hstep_ex p hp]

/-- After a successful walk of one listing, every entry's visit is a
no-op against the final destination state (the listing bears distinct
names, as `os.ReadDir` guarantees). -/
theorem fwd_fold_noop (opt : options) (f : Nat) (rel : List Str)
    (Hvis : ∀ (rel2 : List Str) (t : FSTree) (st : Option FSTree),
      nodupTreeB f t = true → (fwdVisit f opt rel2 t st).err = none →
      noopVisit opt f rel2 t (fwdVisit f opt rel2 t st).dst = true) :
    ∀ (es : List Entry) (acc : SyncRes), nodupKeys es = true →
      (∀ e ∈ es, nodupTreeB f e.2 = true) → acc.err = none →
      (es.foldl (fwdStep f opt rel) acc).err = none →
      ∀ e ∈ es, noopVisit opt f (rel ++ [e.1]) e.2
        (es.foldl (fwdStep f opt rel) acc).dst = true := by
  intro es
  induction es with
  | nil =>
    intro acc _ _ _ _ e he
    simp at he
  | cons x es' ih =>
    intro acc hkeys hsub hacc hfin e he
    rw [List.foldl_cons] at hfin ⊢
    replace hkeys : ((findEntry es' x.1).isNone && nodupKeys es') = true := hkeys
    rw [Bool.and_eq_true] at hkeys
    rcases hkeys with ⟨hx, hkeys'⟩
    have hstep : fwdStep f opt rel acc x
        = ⟨(fwdVisit f opt (rel ++ [x.1]) x.2 acc.dst).dst,
            acc.copies ++ (fwdVisit f opt (rel ++ [x.1]) x.2 acc.dst).copies,
            acc.created + (fwdVisit f opt (rel ++ [x.1]) x.2 acc.dst).created,
            (fwdVisit f opt (rel ++ [x.1]) x.2 acc.dst).err⟩ := by
      unfold fwdStep fwdStepG fwdRec
      rw [if_neg (by rw [hacc]; simp)]
    have hstep_err : (fwdStep f opt rel acc x).err = none := by
      by_cases hh : (fwdStep f opt rel acc x).err.isSome = true
      · rw [fwd_fold_freeze f opt rel es' _ hh] at hfin
        exact hfin
      · rcases h3 : (fwdStep f opt rel acc x).err with _ | e3
        · rfl
        · rw [h3] at hh
          simp at hh
    have hv_err : (fwdVisit f opt (rel ++ [x.1]) x.2 acc.dst).err = none := by
      rw [hstep] at hstep_err
      exact hstep_err
    rcases List.mem_cons.mp he with rfl | he2
    · by_cases hex :
          shouldExclude (joinSegs (rel ++ [e.1])) opt.excludes = true
      · rcases f with _ | f2
        · rw [show (fwdVisit 0 opt (rel ++ [e.1]) e.2 acc.dst).err
              = some .fuelOut from rfl] at hv_err
          exact absurd hv_err (by simp)
        · show noopBody (fun rel2 t2 => noopVisit opt f2 rel2 t2 _) opt
            (rel ++ [e.1]) e.2 _ = true
          unfold noopBody
          rw [if_pos hex]
      · have hnoop1 : noopVisit opt f (rel ++ [e.1]) e.2
            (fwdVisit f opt (rel ++ [e.1]) e.2 acc.dst).dst = true :=
          Hvis (rel ++ [e.1]) e.2 acc.dst (hsub e (by simp)) hv_err
        rcases fwd_fold_agree opt f rel e.1 es' (fwdStep f opt rel acc e)
          (findEntry_none_names es' e.1 hx) with ⟨hag1, hag2⟩
        refine noopVisit_stable opt f (rel ++ [e.1]) e.2 _ _ ?_ ?_ hnoop1
        · intro q hq ds hds
          refine hag1 q hq ds ?_
          rw [hstep]
          exact hds
        · intro p hp
          rw [hag2 p hp, hstep]
    · exact ih (fwdStep f opt rel acc x) hkeys'
        (fun e2 h2 => hsub e2 (by simp [h2])) hstep_err hfin e he2

/-- After a successful forward visit, revisiting the subtree against
the state it produced has nothing left to do. -/
theorem fwdVisit_noop_post (opt : options) (hdry : opt.dryRun = false) :
    ∀ (fuel : Nat) (rel : List Str) (t : FSTree) (st : Option FSTree),
      nodupTreeB fuel t = true →
      (fwdVisit fuel opt rel t st).err = none →
      noopVisit opt fuel rel t (fwdVisit fuel opt rel t st).dst = true := by
  intro fuel
  induction fuel with
  | zero =>
    intro rel t st _ herr
    rw [show (fwdVisit 0 opt rel t st).err = some .fuelOut from rfl] at herr
    exact absurd herr (by simp)
  | succ f ih =>
    intro rel t st hnd herr
    by_cases hex : shouldExclude (joinSegs rel) opt.excludes = true
    · show noopBody (fun rel2 t2 => noopVisit opt f rel2 t2 _) opt rel t _
        = true
      unfold noopBody
      rw [if_pos hex]
    · have hex2 : shouldExclude (joinSegs rel) opt.excludes = false := by
        simpa using hex
      rcases t with m | es
      · rw [fwdVisit_file f opt rel m st hex2] at herr ⊢
        show noopBody (fun rel2 t2 => noopVisit opt f rel2 t2
            (syncFile rel m st opt).dst) opt rel (.file m)
            (syncFile rel m st opt).dst = true
        unfold noopBody
        rw [if_neg hex]
        rcases syncFile_post rel m st opt hdry herr with ⟨m2, hl2, hs2⟩
        show (match lookupTree (syncFile rel m st opt).dst rel with
          | some (.file m2) => sameFile m m2 opt.checksum
          | _ => false) = true
        rw [hl2]
        exact hs2
      · replace hnd : (nodupKeys es && es.all (fun e => nodupTreeB f e.2))
            = true := hnd
        rw [Bool.and_eq_true, List.all_eq_true] at hnd
        rcases hnd with ⟨hkeys, hsub⟩
        by_cases he : (ensureDir rel st opt).err.isSome = true
        · exfalso
          rw [fwdVisit_dir_err f opt rel es st hex2 he] at herr
          rw [herr] at he
          simp at he
        · have he2 : (ensureDir rel st opt).err = none := by
            rcases h3 : (ensureDir rel st opt).err with _ | e3
            · rfl
            · rw [h3] at he
              simp at he
          rw [fwdVisit_dir f opt rel es st hex2 he2] at herr ⊢
          have hchain0 := ensureDir_err_none_post rel st opt hdry he2
          show noopBody (fun rel2 t2 => noopVisit opt f rel2 t2 _) opt rel
            (.dir es) _ = true
          unfold noopBody
          rw [if_neg hex]
          rw [Bool.and_eq_true]
          constructor
          · rw [chainDirsB_spec]
            intro q hq
            rcases hchain0 q hq with ⟨ds, hds⟩
            refine foldl_inv
              (fun acc => ∃ ds2, lookupTree acc.dst q = some (.dir ds2))
              (fwdStep f opt rel) es ?_
              ⟨(ensureDir rel st opt).dst, (ensureDir rel st opt).copies,
                (ensureDir rel st opt).created, none⟩ ⟨ds, hds⟩
            rintro acc e hmem ⟨ds2, hacc⟩
            unfold fwdStep fwdStepG fwdRec
            by_cases herr2 : acc.err.isSome = true
            · rw [if_pos herr2]
              exact ⟨ds2, hacc⟩
            · rw [if_neg herr2]
              show ∃ ds3,
                lookupTree (fwdVisit f opt (rel ++ [e.1]) e.2 acc.dst).dst q
                  = some (.dir ds3)
              exact fwdVisit_dir_pres opt f (rel ++ [e.1]) e.2 acc.dst q
                ds2 hacc
          · rw [List.all_eq_true]
            intro e hmem
            exact fwd_fold_noop opt f rel ih es
              ⟨(ensureDir rel st opt).dst, (ensureDir rel st opt).copies,
                (ensureDir rel st opt).created, none⟩
              hkeys (fun e2 h2 => hsub e2 h2) rfl herr e hmem

/-- A forward pass over a destination every visit is a no-op against
returns it untouched, reporting nothing. -/
theorem forwardPass_noop (fuel : Nat) (opt : options) (srcE : List Entry)
    (D : Option FSTree) (hchain : chainDirsB [] D = true)
    (hkids : ∀ e ∈ srcE,
      noopVisit opt fuel ([] ++ [e.1]) e.2 D = true) :
    forwardPass fuel opt srcE D = ⟨D, [], 0, none⟩ := by
  unfold forwardPass
  rw [ensureDir_noop [] D opt hchain]
  rw [if_neg (by simp)]
  refine foldl_inv (fun acc => acc = ⟨D, [], 0, none⟩)
    (fwdStep fuel opt []) srcE ?_ _ rfl
  rintro acc e hmem rfl
  unfold fwdStep fwdStepG fwdRec
  rw [if_neg (by simp)]
  rw [show ((⟨D, [], 0, none⟩ : SyncRes)).dst = D from rfl,
    noopVisit_sound opt fuel ([] ++ [e.1]) e.2 D (hkids e hmem)]
  rfl

/-- After a successful forward pass, the destination root is a
directory and every source entry's revisit is a no-op. -/
theorem forwardPass_noop_post (fuel : Nat) (opt : options) (srcE : List Entry)
    (dst : Option FSTree) (hdry : opt.dryRun = false)
    (hwf : nodupTreeB (fuel + 1) (.dir srcE) = true)
    (h1 : (forwardPass fuel opt srcE dst).err = none) :
    chainDirsB [] (forwardPass fuel opt srcE dst).dst = true ∧
    ∀ e ∈ srcE, noopVisit opt fuel ([] ++ [e.1]) e.2
      (forwardPass fuel opt srcE dst).dst = true := by
  replace hwf : (nodupKeys srcE && srcE.all (fun e => nodupTreeB fuel e.2))
      = true := hwf
  rw [Bool.and_eq_true, List.all_eq_true] at hwf
  rcases hwf with ⟨hkeys, hsub⟩
  revert h1
  unfold forwardPass
  by_cases he : (ensureDir [] dst opt).err.isSome = true
  · rw [if_pos he]
    intro h1
    exfalso
    rw [h1] at he
    simp at he
  · rw [if_neg he]
    intro h1
    have he2 : (ensureDir [] dst opt).err = none := by
      rcases h3 : (ensureDir [] dst opt).err with _ | e3
      · rfl
      · rw [h3] at he
        simp at he
    have hchain0 := ensureDir_err_none_post [] dst opt hdry he2
    constructor
    · rw [chainDirsB_spec]
      intro q hq
      rcases hchain0 q hq with ⟨ds, hds⟩
      refine foldl_inv
        (fun acc => ∃ ds2, lookupTree acc.dst q = some (.dir ds2))
        (fwdStep fuel opt []) srcE ?_
        ⟨(ensureDir [] dst opt).dst, (ensureDir [] dst opt).copies,
          (ensureDir [] dst opt).created, none⟩ ⟨ds, hds⟩
      rintro acc e hmem ⟨ds2, hacc⟩
      unfold fwdStep fwdStepG fwdRec
      by_cases herr2 : acc.err.isSome = true
      · rw [if_pos herr2]
        exact ⟨ds2, hacc⟩
      · rw [if_neg herr2]
        show ∃ ds3,
          lookupTree (fwdVisit fuel opt ([] ++ [e.1]) e.2 acc.dst).dst q
            = some (.dir ds3)
        exact fwdVisit_dir_pres opt fuel ([] ++ [e.1]) e.2 acc.dst q ds2 hacc
    · intro e hmem
      exact fwd_fold_noop opt fuel [] (fwdVisit_noop_post opt hdry fuel) srcE
        ⟨(ensureDir [] dst opt).dst, (ensureDir [] dst opt).copies,
          (ensureDir [] dst opt).created, none⟩
        hkeys (fun e2 h2 => hsub e2 h2) rfl h1 e hmem

/-! ### C3: the copy pass is idempotent -/

/-- C3: the copy pass is idempotent.  For a well-formed SOURCE (no
directory lists a name twice, as a real filesystem guarantees), after
one successful non-dry copy pass, running the pass again against the
destination it produced performs no copies, creates no directories,
reports no error and leaves the destination state identical: every
file it copied now has the source's content and modification time, so
the comparator judges it equivalent and skips it, and every directory
it ensured already exists. -/
theorem copyPass_idempotent (fuel : Nat) (opt : options) (srcE : List Entry)
    (dst : Option FSTree) (hdry : opt.dryRun = false)
    (hwf : nodupTreeB (fuel + 1) (.dir srcE) = true)
    (h1 : (forwardPass fuel opt srcE dst).err = none) :
    forwardPass fuel opt srcE (forwardPass fuel opt srcE dst).dst
      = ⟨(forwardPass fuel opt srcE dst).dst, [], 0, none⟩ := by
  rcases forwardPass_noop_post fuel opt srcE dst hdry hwf h1 with ⟨hc, hk⟩
  exact forwardPass_noop fuel opt srcE _ hc hk

/-- C3 witness: a fresh copy of one file, then the pass run again —
the second run is the identity. -/
theorem copyPass_idempotent_witness :
    (⟨true, false, false, [], false, false⟩ : options).dryRun = false ∧
    nodupTreeB 4 (.dir [(str "a", .file ⟨[1], 0⟩)]) = true ∧
    (forwardPass 3 ⟨true, false, false, [], false, false⟩
        [(str "a", .file ⟨[1], 0⟩)] none).err = none ∧
    forwardPass 3 ⟨true, false, false, [], false, false⟩
        [(str "a", .file ⟨[1], 0⟩)]
        (forwardPass 3 ⟨true, false, false, [], false, false⟩
          [(str "a", .file ⟨[1], 0⟩)] none).dst
      = ⟨(forwardPass 3 ⟨true, false, false, [], false, false⟩
            [(str "a", .file ⟨[1], 0⟩)] none).dst, [], 0, none⟩ :=
  ⟨rfl, by decide, rfl,
    copyPass_idempotent 3 ⟨true, false, false, [], false, false⟩
      [(str "a", .file ⟨[1], 0⟩)] none rfl (by decide) rfl⟩

/-! ### The forward pass never removes a path -/

theorem exclEff_false_all (p : List Str) (pats : List Str)
    (hex : exclEff p pats = false) :
    ∀ q, q ≠ [] → q <+: p → shouldExclude (joinSegs q) pats = false := by
  intro q hq1 hq2
  by_cases hs : shouldExclude (joinSegs q) pats = true
  · exfalso
    have h2 := exclEff_mono q p pats hq2 (shouldExclude_exclEff q pats hq1 hs)
    rw [h2] at hex
    exact absurd hex (by simp)
  · simpa using hs

theorem lstatIn_spec (srcE : List Entry) (q : List Str) :
    lstatIn srcE q = .ok () ↔ memPath (some (.dir srcE)) q = true := by
  unfold lstatIn memPath
  rcases hl : lookupTree (some (.dir srcE)) q with _ | u
  · constructor
    · intro h
      exact absurd h (by simp)
    · intro h
      exact absurd h (by simp)
  · constructor
    · intro _
      rfl
    · intro _
      rfl

theorem writeFileTree_mem (q : List Str) : ∀ (t : FSTree) (m : FileMeta)
    (p : List Str), (lookupTree (some t) p).isSome = true →
    (lookupTree (some (writeFileTree t q m)) p).isSome = true := by
  induction q with
  | nil =>
    intro t m p h
    rcases t with m0 | es <;> exact h
  | cons n q' ih =>
    intro t m p h
    rcases t with m0 | es
    · exact h
    · rcases p with _ | ⟨a, prest⟩
      · rcases write_dir_shape es (n :: q') m (by simp) with ⟨ds2, hds2⟩
        rw [hds2]
        rfl
      · replace h : (lookupTree (findEntry es a) prest).isSome = true := h
        rcases q' with _ | ⟨n2, q2⟩
        · rcases hf : findEntry es n with _ | sub
          · rw [show writeFileTree (.dir es) [n] m
                = .dir (es ++ [(n, .file m)]) from by
              rw [show writeFileTree (.dir es) [n] m
                  = (match findEntry es n with
                     | some (.dir _) => .dir es
                     | some (.file _) => .dir (replaceEntry es n (.file m))
                     | none => .dir (es ++ [(n, .file m)])) from rfl, hf]]
            show (lookupTree (findEntry (es ++ [(n, .file m)]) a) prest).isSome
              = true
            rcases hfa : findEntry es a with _ | ta
            · rw [hfa, lookup_none] at h
              exact absurd h (by simp)
            · rw [findEntry_append_left es _ a ta hfa, ← hfa]
              exact h
          · rcases sub with mf | d
            · rw [show writeFileTree (.dir es) [n] m
                  = .dir (replaceEntry es n (.file m)) from by
                rw [show writeFileTree (.dir es) [n] m
                    = (match findEntry es n with
                       | some (.dir _) => .dir es
                       | some (.file _) => .dir (replaceEntry es n (.file m))
                       | none => .dir (es ++ [(n, .file m)])) from rfl, hf]]
              show (lookupTree (findEntry (replaceEntry es n (.file m)) a)
                  prest).isSome = true
              by_cases han : a = n
              · subst han
                rw [findEntry_replace_self es a (.file m) (by rw [hf]; rfl)]
                rw [hf] at h
                rcases prest with _ | ⟨r, prest'⟩
                · rfl
                · rw [show lookupTree (some (FSTree.file mf)) (r :: prest')
                      = none from rfl] at h
                  exact absurd h (by simp)
              · rw [findEntry_replace_other es n a _ han]
                exact h
            · rw [show writeFileTree (.dir es) [n] m = .dir es from by
                rw [show writeFileTree (.dir es) [n] m
                    = (match findEntry es n with
                       | some (.dir _) => .dir es
                       | some (.file _) => .dir (replaceEntry es n (.file m))
                       | none => .dir (es ++ [(n, .file m)])) from rfl, hf]]
              exact h
        · rcases hf : findEntry es n with _ | sub
          · rw [show writeFileTree (.dir es) (n :: n2 :: q2) m = .dir es from by
              rw [show writeFileTree (.dir es) (n :: n2 :: q2) m
                  = (match findEntry es n with
                     | some sub =>
                       .dir (replaceEntry es n (writeFileTree sub (n2 :: q2) m))
                     | none => .dir es) from rfl, hf]]
            exact h
          · rw [show writeFileTree (.dir es) (n :: n2 :: q2) m
                = .dir (replaceEntry es n (writeFileTree sub (n2 :: q2) m))
                from by
              rw [show writeFileTree (.dir es) (n :: n2 :: q2) m
                  = (match findEntry es n with
                     | some sub =>
                       .dir (replaceEntry es n (writeFileTree sub (n2 :: q2) m))
                     | none => .dir es) from rfl, hf]]
            show (lookupTree (findEntry
                (replaceEntry es n (writeFileTree sub (n2 :: q2) m)) a)
                prest).isSome = true
            by_cases han : a = n
            · subst han
              rw [findEntry_replace_self es a _ (by rw [hf]; rfl)]
              rw [hf] at h
              exact ih sub m prest h
            · rw [findEntry_replace_other es n a _ han]
              exact h

theorem mkdirAllSt_mem (st : Option FSTree) (q : List Str) (t2 : FSTree)
    (c : Nat) (h : mkdirAllSt st q = .ok (t2, c)) (p : List Str)
    (hp : (lookupTree st p).isSome = true) :
    (lookupTree (some t2) p).isSome = true := by
  by_cases hpre : p <+: q
  · rcases mkdirAllSt_post st q t2 c h p hpre with ⟨ds, hds⟩
    rw [hds]
    rfl
  · rw [mkdirAllSt_frame st q t2 c h p hpre]
    exact hp

theorem ensureDir_mem (rel : List Str) (st : Option FSTree) (opt : options)
    (p : List Str) (hp : (lookupTree st p).isSome = true) :
    (lookupTree (ensureDir rel st opt).dst p).isSome = true := by
  unfold ensureDir
  by_cases hdry : opt.dryRun = true
  · rw [if_pos hdry]
    exact hp
  · rw [if_neg hdry]
    rcases hm : mkdirAllSt st rel with e | tc
    · exact hp
    · rcases tc with ⟨t2, c⟩
      show (lookupTree (some t2) p).isSome = true
      exact mkdirAllSt_mem st rel t2 c hm p hp

theorem copyOneFile_mem (rel : List Str) (m : FileMeta) (st : Option FSTree)
    (opt : options) (p : List Str) (hp : (lookupTree st p).isSome = true) :
    (lookupTree (copyOneFile rel m st opt).dst p).isSome = true := by
  unfold copyOneFile
  by_cases hdry : opt.dryRun = true
  · rw [if_pos hdry]
    exact hp
  · rw [if_neg hdry]
    rcases hm : mkdirAllSt st rel.dropLast with e | tc
    · exact hp
    · rcases tc with ⟨t2, c⟩
      have hp2 := mkdirAllSt_mem st rel.dropLast t2 c hm p hp
      show ((lookupTree ((match lookupTree (some t2) rel with
          | some (.dir _) => (⟨some t2, [], c, some .openFileIsDir⟩ : SyncRes)
          | _ => ⟨some (writeFileTree t2 rel m), [rel], c, none⟩) :
            SyncRes).dst p)).isSome = true
      rcases hl : lookupTree (some t2) rel with _ | u
      · show (lookupTree (some (writeFileTree t2 rel m)) p).isSome = true
        exact writeFileTree_mem rel t2 m p hp2
      · rcases u with mf | es2
        · show (lookupTree (some (writeFileTree t2 rel m)) p).isSome = true
          exact writeFileTree_mem rel t2 m p hp2
        · exact hp2

theorem syncFile_mem (rel : List Str) (m : FileMeta) (st : Option FSTree)
    (opt : options) (p : List Str) (hp : (lookupTree st p).isSome = true) :
    (lookupTree (syncFile rel m st opt).dst p).isSome = true := by
  unfold syncFile
  rcases hl : lookupTree st rel with _ | u
  · exact copyOneFile_mem rel m st opt p hp
  · rcases u with mf | es2
    · show (lookupTree (if sameFile m mf opt.checksum = true then
          (⟨st, [], 0, none⟩ : SyncRes)
        else copyOneFile rel m st opt).dst p).isSome = true
      by_cases hs : sameFile m mf opt.checksum = true
      · rw [if_pos hs]
        exact hp
      · rw [if_neg hs]
        exact copyOneFile_mem rel m st opt p hp
    · exact copyOneFile_mem rel m st opt p hp

theorem fwdVisit_mem_mono (opt : options) :
    ∀ (fuel : Nat) (rel : List Str) (t : FSTree) (st : Option FSTree)
      (p : List Str), (lookupTree st p).isSome = true →
      (lookupTree (fwdVisit fuel opt rel t st).dst p).isSome = true := by
  intro fuel
  induction fuel with
  | zero =>
    intro rel t st p hp
    exact hp
  | succ f ih =>
    intro rel t st p hp
    by_cases hex : shouldExclude (joinSegs rel) opt.excludes = true
    · rw [fwdVisit_excl f opt rel t st hex]
      exact hp
    · have hex2 : shouldExclude (joinSegs rel) opt.excludes = false := by
        simpa using hex
      rcases t with m | es
      · rw [fwdVisit_file f opt rel m st hex2]
        exact syncFile_mem rel m st opt p hp
      · by_cases he : (ensureDir rel st opt).err.isSome = true
        · rw [fwdVisit_dir_err f opt rel es st hex2 he]
          exact ensureDir_mem rel st opt p hp
        · have he2 : (ensureDir rel st opt).err = none := by
            rcases h3 : (ensureDir rel st opt).err with _ | e3
            · rfl
            · rw [h3] at he
              simp at he
          rw [fwdVisit_dir f opt rel es st hex2 he2]
          refine foldl_inv
            (fun acc => (lookupTree acc.dst p).isSome = true)
            (fwdStep f opt rel) es ?_
            ⟨(ensureDir rel st opt).dst, (ensureDir rel st opt).copies,
              (ensureDir rel st opt).created, none⟩
            (ensureDir_mem rel st opt p hp)
          rintro acc e hmem hacc
          unfold fwdStep fwdStepG fwdRec
          by_cases herr2 : acc.err.isSome = true
          · rw [if_pos herr2]
            exact hacc
          · rw [if_neg herr2]
            show (lookupTree (fwdVisit f opt (rel ++ [e.1]) e.2 acc.dst).dst
              p).isSome = true
            exact ih (rel ++ [e.1]) e.2 acc.dst p hacc

/-! ### The mirror pass and path membership -/

/-- Through the mirror walk of one listing, presence below the entry
named `n` is preserved whenever every visit of that entry's subtree
keeps it with presence below preserved. -/
theorem mir_fold_mem (r : List Str → FSTree → Option FSTree × Option SyncErr)
    (rel : List Str) (n : Str) (rest : List Str)
    (Hn : ∀ t : FSTree, ∃ t', (r (rel ++ [n]) t).1 = some t' ∧
      (lookupTree (some t') rest).isSome = (lookupTree (some t) rest).isSome) :
    ∀ (es pre : List Entry) (err0 : Option SyncErr), findEntry pre n = none →
      (lookupTree (findEntry (es.foldl (mirStepG r rel) (pre, err0)).1 n)
          rest).isSome
        = (lookupTree (findEntry es n) rest).isSome := by
  intro es
  induction es with
  | nil =>
    intro pre err0 hpre
    show (lookupTree (findEntry pre n) rest).isSome = _
    rw [hpre]
    rfl
  | cons x es' ih =>
    intro pre err0 hpre
    rcases x with ⟨m, tm⟩
    rw [List.foldl_cons]
    rcases err0 with _ | e
    · by_cases hmn : m = n
      · subst hmn
        rcases Hn tm with ⟨t', hv1, hlook⟩
        rcases hv : r (rel ++ [m]) tm with ⟨v1, v2⟩
        rw [hv] at hv1
        have hv1' : v1 = some t' := hv1
        subst hv1'
        rw [show mirStepG r rel (pre, none) (m, tm) = (pre ++ [(m, t')], v2)
            from by
          unfold mirStepG
          rw [hv]]
        rcases mirG_fold_append r rel es' (pre ++ [(m, t')]) v2 with ⟨suf, hsuf⟩
        have h1 : findEntry (pre ++ [(m, t')]) m = some t' := by
          rw [findEntry_append_right pre [(m, t')] m hpre]
          simp [findEntry]
        rw [hsuf, findEntry_append_left _ suf m t' h1, hlook,
          show findEntry ((m, tm) :: es') m = some tm from by simp [findEntry]]
      · rcases hv : r (rel ++ [m]) tm with ⟨v1, v2⟩
        rcases v1 with _ | t2
        · rw [show mirStepG r rel (pre, none) (m, tm) = (pre, v2) from by
            unfold mirStepG
            rw [hv]]
          rw [ih pre v2 hpre,
            show findEntry ((m, tm) :: es') n
              = if m = n then some tm else findEntry es' n from rfl, if_neg hmn]
        · rw [show mirStepG r rel (pre, none) (m, tm) = (pre ++ [(m, t2)], v2)
              from by
            unfold mirStepG
            rw [hv]]
          rw [ih (pre ++ [(m, t2)]) v2 (by
            rw [findEntry_append_right pre [(m, t2)] n hpre]
            simp [findEntry, hmn]),
            show findEntry ((m, tm) :: es') n
              = if m = n then some tm else findEntry es' n from rfl, if_neg hmn]
    · rw [show mirStepG r rel (pre, some e) (m, tm) = (pre ++ [(m, tm)], some e)
          from rfl,
        mirG_fold_frozen r rel es' (pre ++ [(m, tm)]) e]
      by_cases hmn : m = n
      · have h1 : findEntry (pre ++ [(m, tm)]) n = some tm := by
          rw [findEntry_append_right pre [(m, tm)] n hpre]
          simp [findEntry, hmn]
        rw [show ((pre ++ [(m, tm)] ++ es', some e) :
              List Entry × Option SyncErr).1 = pre ++ [(m, tm)] ++ es' from rfl,
          findEntry_append_left _ es' n tm h1,
          show findEntry ((m, tm) :: es') n = some tm from by
            simp [findEntry, hmn]]
      · have h1 : findEntry (pre ++ [(m, tm)]) n = none := by
          rw [findEntry_append_right pre [(m, tm)] n hpre]
          simp [findEntry, hmn]
        rw [show ((pre ++ [(m, tm)] ++ es', some e) :
              List Entry × Option SyncErr).1 = pre ++ [(m, tm)] ++ es' from rfl,
          findEntry_append_right _ es' n h1,
          show findEntry ((m, tm) :: es') n = findEntry es' n from by
            simp [findEntry, hmn]]

/-- Presence of a path each of whose components is excluded or
probe-approved is unchanged by the mirror walk of a directory. -/
theorem mirDir_mem_ok (opt : options) (probe : Probe) :
    ∀ (p rel : List Str), p ≠ [] →
      (∀ q, q ≠ [] → q <+: p →
        shouldExclude (joinSegs (rel ++ q)) opt.excludes = true ∨
          probe (rel ++ q) = .ok ()) →
      ∀ (fuel : Nat) (es : List Entry),
        memPath (some (.dir (mirDir (mirRec fuel opt probe) rel es).1)) p
          = memPath (some (.dir es)) p := by
  intro p
  induction p with
  | nil =>
    intro rel hne
    exact absurd rfl hne
  | cons n rest ih =>
    intro rel _ hg fuel es
    have Hn : ∀ t : FSTree,
        ∃ t', (mirRec fuel opt probe (rel ++ [n]) t).1 = some t' ∧
          (lookupTree (some t') rest).isSome
            = (lookupTree (some t) rest).isSome := by
      intro t
      show ∃ t', (mirVisit fuel opt probe (rel ++ [n]) t).1 = some t' ∧ _
      rcases fuel with _ | f
      · exact ⟨t, rfl, rfl⟩
      by_cases hex : shouldExclude (joinSegs (rel ++ [n])) opt.excludes = true
      · exact ⟨t, by rw [mirVisit_excl f opt probe (rel ++ [n]) t hex], rfl⟩
      · have hex2 : shouldExclude (joinSegs (rel ++ [n])) opt.excludes
            = false := by simpa using hex
        have hp : probe (rel ++ [n]) = .ok () := by
          rcases hg [n] (by simp)
              (List.cons_prefix_cons.mpr ⟨rfl, List.nil_prefix⟩) with hc | hc
          · rw [hex2] at hc
            exact absurd hc (by simp)
          · exact hc
        rcases t with m | es2
        · exact ⟨.file m,
            by rw [mirVisit_ok_file f opt probe (rel ++ [n]) m hex2 hp], rfl⟩
        · refine ⟨.dir (es2.foldl (mirStep f opt probe (rel ++ [n]))
              ([], none)).1,
            by rw [mirVisit_ok_dir f opt probe (rel ++ [n]) es2 hex2 hp], ?_⟩
          rcases rest with _ | ⟨r2, rest'⟩
          · rfl
          · have hg2 : ∀ q, q ≠ [] → q <+: (r2 :: rest') →
                shouldExclude (joinSegs ((rel ++ [n]) ++ q)) opt.excludes
                    = true ∨
                  probe ((rel ++ [n]) ++ q) = .ok () := by
              intro q hq1 hq2
              have h3 := hg (n :: q) (by simp)
                (List.cons_prefix_cons.mpr ⟨rfl, hq2⟩)
              rw [show rel ++ n :: q = (rel ++ [n]) ++ q from by simp] at h3
              exact h3
            exact ih (rel ++ [n]) (by simp) hg2 f es2
    show (lookupTree (findEntry (mirDir (mirRec fuel opt probe) rel es).1 n)
        rest).isSome = (lookupTree (findEntry es n) rest).isSome
    exact mir_fold_mem (mirRec fuel opt probe) rel n rest Hn es [] none rfl

theorem mirrorPass_mem_ok (opt : options) (probe : Probe) (fuel : Nat)
    (dst : Option FSTree) (p : List Str) (hne : p ≠ [])
    (hg : ∀ q, q ≠ [] → q <+: p →
      shouldExclude (joinSegs q) opt.excludes = true ∨ probe q = .ok ()) :
    memPath (mirrorPass fuel opt probe dst).1 p = memPath dst p := by
  rcases dst with _ | t
  · rfl
  · rcases t with m | es
    · rfl
    · show memPath (some (.dir (mirDir (mirRec fuel opt probe) [] es).1)) p = _
      refine mirDir_mem_ok opt probe p [] hne ?_ fuel es
      intro q hq1 hq2
      rw [List.nil_append]
      exact hg q hq1 hq2

/-- In a non-dry run, when one visit of a path deletes its entry, any
error-free visit of another entry at the same path deletes it too:
deletion is decided by the probe and the exclusion rules alone. -/
theorem mirVisit_drop_uniform (opt : options) (probe : Probe)
    (hd : opt.dryRun = false) (fuel : Nat) (c : List Str) (t t2 : FSTree)
    (h1 : (mirVisit fuel opt probe c t).1 = none)
    (h2 : (mirVisit fuel opt probe c t2).2 = none) :
    (mirVisit fuel opt probe c t2).1 = none := by
  rcases fuel with _ | f
  · rw [mirVisit_zero] at h1
    exact absurd h1 (by simp)
  · by_cases hex : shouldExclude (joinSegs c) opt.excludes = true
    · rw [mirVisit_excl f opt probe c t hex] at h1
      exact absurd h1 (by simp)
    · have hex2 : shouldExclude (joinSegs c) opt.excludes = false := by
        simpa using hex
      rcases hp : probe c with e | u
      · rcases e with _ | _
        · rcases t2 with m2 | es2
          · rw [mirVisit_gone_file f opt probe c m2 hex2 hp hd]
          · rw [mirVisit_gone_dir f opt probe c es2 hex2 hp hd] at h2
            exact absurd h2 (by simp)
        · rw [mirVisit_other f opt probe c t hex2 hp] at h1
          exact absurd h1 (by simp)
      · cases u
        rcases t with m | es
        · rw [mirVisit_ok_file f opt probe c m hex2 hp] at h1
          exact absurd h1 (by simp)
        · rw [mirVisit_ok_dir f opt probe c es hex2 hp] at h1
          exact absurd h1 (by simp)

/-- In a non-dry run, a non-excluded entry kept without error by the
mirror visit passed the source existence probe. -/
theorem mirVisit_kept_ok (opt : options) (probe : Probe)
    (hd : opt.dryRun = false) (fuel : Nat) (c : List Str) (t t' : FSTree)
    (hexc : shouldExclude (joinSegs c) opt.excludes = false)
    (hvis : mirVisit fuel opt probe c t = (some t', none)) :
    probe c = .ok () := by
  rcases fuel with _ | f
  · rw [mirVisit_zero] at hvis
    injection hvis with hv1 hv2
    exact absurd hv2 (by simp)
  · rcases hp : probe c with e | u
    · rcases e with _ | _
      · rcases t with m | es
        · rw [mirVisit_gone_file f opt probe c m hexc hp hd] at hvis
          injection hvis with hv1 hv2
          exact absurd hv1 (by simp)
        · rw [mirVisit_gone_dir f opt probe c es hexc hp hd] at hvis
          injection hvis with hv1 hv2
          exact absurd hv1 (by simp)
      · rw [mirVisit_other f opt probe c t hexc hp] at hvis
        injection hvis with hv1 hv2
        exact absurd hv2 (by simp)
    · cases u
      rfl

/-- When every error-free visit at the name `n` deletes its entry, a
successful mirror fold leaves no entry named `n`. -/
theorem mir_fold_none (r : List Str → FSTree → Option FSTree × Option SyncErr)
    (rel : List Str) (n : Str)
    (Hdrop : ∀ t, (r (rel ++ [n]) t).2 = none → (r (rel ++ [n]) t).1 = none) :
    ∀ (es pre : List Entry), findEntry pre n = none →
      (es.foldl (mirStepG r rel) (pre, none)).2 = none →
      findEntry (es.foldl (mirStepG r rel) (pre, none)).1 n = none := by
  intro es
  induction es with
  | nil =>
    intro pre hpre _
    exact hpre
  | cons x es' ih =>
    intro pre hpre hsuc
    rcases x with ⟨m, tm⟩
    rw [List.foldl_cons] at hsuc ⊢
    rcases hv : r (rel ++ [m]) tm with ⟨v1, v2⟩
    rcases v2 with _ | e2
    · rcases v1 with _ | t2
      · rw [show mirStepG r rel (pre, none) (m, tm) = (pre, none) from by
          unfold mirStepG
          rw [hv]] at hsuc ⊢
        exact ih pre hpre hsuc
      · rw [show mirStepG r rel (pre, none) (m, tm) = (pre ++ [(m, t2)], none)
            from by
          unfold mirStepG
          rw [hv]] at hsuc ⊢
        by_cases hmn : m = n
        · subst hmn
          have hd1 := Hdrop tm (by rw [hv])
          rw [hv] at hd1
          exact absurd hd1 (by simp)
        · refine ih (pre ++ [(m, t2)]) ?_ hsuc
          rw [findEntry_append_right pre [(m, t2)] n hpre]
          simp [findEntry, hmn]
    · rcases v1 with _ | t2
      · rw [show mirStepG r rel (pre, none) (m, tm) = (pre, some e2) from by
            unfold mirStepG
            rw [hv],
          mirG_fold_frozen r rel es' pre e2] at hsuc
        exact absurd hsuc (by simp)
      · rw [show mirStepG r rel (pre, none) (m, tm) = (pre ++ [(m, t2)], some e2)
            from by
            unfold mirStepG
            rw [hv],
          mirG_fold_frozen r rel es' _ e2] at hsuc
        exact absurd hsuc (by simp)

/-- A surviving entry of a successful mirror fold is the image of a
listed entry of the same name whose visit kept it without error. -/
theorem mir_fold_success_find
    (r : List Str → FSTree → Option FSTree × Option SyncErr)
    (rel : List Str) (n : Str)
    (Huni : ∀ t t2, (r (rel ++ [n]) t).1 = none →
      (r (rel ++ [n]) t).2 = none →
      (r (rel ++ [n]) t2).2 = none → (r (rel ++ [n]) t2).1 = none) :
    ∀ (es pre : List Entry) (t' : FSTree), findEntry pre n = none →
      (es.foldl (mirStepG r rel) (pre, none)).2 = none →
      findEntry (es.foldl (mirStepG r rel) (pre, none)).1 n = some t' →
      ∃ tn, findEntry es n = some tn ∧ r (rel ++ [n]) tn = (some t', none) := by
  intro es
  induction es with
  | nil =>
    intro pre t' hpre _ hfind
    rw [List.foldl_nil] at hfind
    rw [show ((pre, (none : Option SyncErr)) :
        List Entry × Option SyncErr).1 = pre from rfl, hpre] at hfind
    exact absurd hfind (by simp)
  | cons x es' ih =>
    intro pre t' hpre hsuc hfind
    rcases x with ⟨m, tm⟩
    rw [List.foldl_cons] at hsuc hfind
    rcases hv : r (rel ++ [m]) tm with ⟨v1, v2⟩
    rcases v2 with _ | e2
    · rcases v1 with _ | t2
      · rw [show mirStepG r rel (pre, none) (m, tm) = (pre, none) from by
          unfold mirStepG
          rw [hv]] at hsuc hfind
        by_cases hmn : m = n
        · subst hmn
          exfalso
          have Hdrop : ∀ u, (r (rel ++ [m]) u).2 = none →
              (r (rel ++ [m]) u).1 = none := by
            intro u hu
            exact Huni tm u (by rw [hv]) (by rw [hv]) hu
          rw [mir_fold_none r rel m Hdrop es' pre hpre hsuc] at hfind
          exact absurd hfind (by simp)
        · rcases ih pre t' hpre hsuc hfind with ⟨tn, ha, hb⟩
          refine ⟨tn, ?_, hb⟩
          rw [show findEntry ((m, tm) :: es') n
            = if m = n then some tm else findEntry es' n from rfl, if_neg hmn]
          exact ha
      · rw [show mirStepG r rel (pre, none) (m, tm) = (pre ++ [(m, t2)], none)
            from by
          unfold mirStepG
          rw [hv]] at hsuc hfind
        by_cases hmn : m = n
        · subst hmn
          rcases mirG_fold_append r rel es' (pre ++ [(m, t2)]) none with
            ⟨suf, hsuf⟩
          have h1 : findEntry (pre ++ [(m, t2)]) m = some t2 := by
            rw [findEntry_append_right pre [(m, t2)] m hpre]
            simp [findEntry]
          rw [hsuf, findEntry_append_left _ suf m t2 h1] at hfind
          injection hfind with hfind
          subst hfind
          refine ⟨tm, ?_, hv⟩
          rw [show findEntry ((m, tm) :: es') m = some tm from by
            simp [findEntry]]
        · rcases ih (pre ++ [(m, t2)]) t' (by
            rw [findEntry_append_right pre [(m, t2)] n hpre]
            simp [findEntry, hmn]) hsuc hfind with ⟨tn, ha, hb⟩
          refine ⟨tn, ?_, hb⟩
          rw [show findEntry ((m, tm) :: es') n
            = if m = n then some tm else findEntry es' n from rfl, if_neg hmn]
          exact ha
    · exfalso
      rcases v1 with _ | t2
      · rw [show mirStepG r rel (pre, none) (m, tm) = (pre, some e2) from by
            unfold mirStepG
            rw [hv],
          mirG_fold_frozen r rel es' pre e2] at hsuc
        exact absurd hsuc (by simp)
      · rw [show mirStepG r rel (pre, none) (m, tm) = (pre ++ [(m, t2)], some e2)
            from by
            unfold mirStepG
            rw [hv],
          mirG_fold_frozen r rel es' _ e2] at hsuc
        exact absurd hsuc (by simp)

/-- A non-excluded path still present after a successful non-dry
mirror walk passed the source existence probe. -/
theorem mir_survivor (opt : options) (probe : Probe)
    (hd : opt.dryRun = false) :
    ∀ (p rel : List Str) (fuel : Nat) (es : List Entry), p ≠ [] →
      (∀ q, q ≠ [] → q <+: p →
        shouldExclude (joinSegs (rel ++ q)) opt.excludes = false) →
      (mirDir (mirRec fuel opt probe) rel es).2 = none →
      memPath (some (.dir (mirDir (mirRec fuel opt probe) rel es).1)) p
        = true →
      probe (rel ++ p) = .ok () := by
  intro p
  induction p with
  | nil =>
    intro rel fuel es hne
    exact absurd rfl hne
  | cons n rest ih =>
    intro rel fuel es _ hg hsuc hfin
    replace hfin : (lookupTree
        (findEntry (mirDir (mirRec fuel opt probe) rel es).1 n) rest).isSome
        = true := hfin
    revert hfin
    rcases hfe : findEntry (mirDir (mirRec fuel opt probe) rel es).1 n
      with _ | t'
    · intro hfin
      rw [lookup_none] at hfin
      exact absurd hfin (by simp)
    · intro hfin
      have hsuc2 : (es.foldl (mirStepG (mirRec fuel opt probe) rel)
          ([], none)).2 = none := hsuc
      have hfe2 : findEntry (es.foldl (mirStepG (mirRec fuel opt probe) rel)
          ([], none)).1 n = some t' := hfe
      have Huni : ∀ t t2, (mirRec fuel opt probe (rel ++ [n]) t).1 = none →
          (mirRec fuel opt probe (rel ++ [n]) t).2 = none →
          (mirRec fuel opt probe (rel ++ [n]) t2).2 = none →
          (mirRec fuel opt probe (rel ++ [n]) t2).1 = none := by
        intro t t2 ha _ hb
        exact mirVisit_drop_uniform opt probe hd fuel (rel ++ [n]) t t2 ha hb
      rcases mir_fold_success_find (mirRec fuel opt probe) rel n Huni es []
        t' rfl hsuc2 hfe2 with ⟨tn, hfes, hvis⟩
      replace hvis : mirVisit fuel opt probe (rel ++ [n]) tn
          = (some t', none) := hvis
      have hexn : shouldExclude (joinSegs (rel ++ [n])) opt.excludes = false :=
        hg [n] (by simp) (List.cons_prefix_cons.mpr ⟨rfl, List.nil_prefix⟩)
      have hok : probe (rel ++ [n]) = .ok () :=
        mirVisit_kept_ok opt probe hd fuel (rel ++ [n]) tn t' hexn hvis
      rcases rest with _ | ⟨r2, rest'⟩
      · exact hok
      · rcases fuel with _ | f
        · rw [mirVisit_zero] at hvis
          injection hvis with hv1 hv2
          exact absurd hv2 (by simp)
        · rcases tn with m | es2
          · rw [mirVisit_ok_file f opt probe (rel ++ [n]) m hexn hok] at hvis
            injection hvis with hv1 hv2
            injection hv1 with hv1
            rw [← hv1] at hfin
            rw [show lookupTree (some (FSTree.file m)) (r2 :: rest') = none
              from rfl] at hfin
            exact absurd hfin (by simp)
          · rw [mirVisit_ok_dir f opt probe (rel ++ [n]) es2 hexn hok] at hvis
            injection hvis with hv1 hv2
            injection hv1 with hv1
            have hg2 : ∀ q, q ≠ [] → q <+: (r2 :: rest') →
                shouldExclude (joinSegs ((rel ++ [n]) ++ q)) opt.excludes
                  = false := by
              intro q hq1 hq2
              have h3 := hg (n :: q) (by simp)
                (List.cons_prefix_cons.mpr ⟨rfl, hq2⟩)
              rw [show rel ++ n :: q = (rel ++ [n]) ++ q from by simp] at h3
              exact h3
            have hmem : memPath (some (.dir
                (mirDir (mirRec f opt probe) (rel ++ [n]) es2).1))
                (r2 :: rest') = true := by
              rw [← hv1] at hfin
              exact hfin
            have hsuc3 : (mirDir (mirRec f opt probe) (rel ++ [n]) es2).2
                = none := hv2
            have h4 := ih (rel ++ [n]) f es2 (by simp) hg2 hsuc3 hmem
            rw [show (rel ++ [n]) ++ (r2 :: rest') = rel ++ (n :: r2 :: rest')
              from by simp] at h4
            exact h4

theorem mirrorPass_survivor (opt : options) (probe : Probe) (fuel : Nat)
    (dst : Option FSTree) (p : List Str) (hd : opt.dryRun = false)
    (hne : p ≠ [])
    (hg : ∀ q, q ≠ [] → q <+: p →
      shouldExclude (joinSegs q) opt.excludes = false)
    (hsuc : (mirrorPass fuel opt probe dst).2 = none)
    (hfin : memPath (mirrorPass fuel opt probe dst).1 p = true) :
    probe p = .ok () := by
  rcases dst with _ | t
  · exact absurd hsuc (by simp [mirrorPass])
  · rcases t with m | es
    · rcases p with _ | ⟨n, rest⟩
      · exact absurd rfl hne
      · replace hfin : (lookupTree (some (FSTree.file m)) (n :: rest)).isSome
            = true := hfin
        rw [show lookupTree (some (FSTree.file m)) (n :: rest) = none
          from rfl] at hfin
        exact absurd hfin (by simp)
    · have hsuc2 : (mirDir (mirRec fuel opt probe) [] es).2 = none := hsuc
      have hfin2 : memPath
          (some (.dir (mirDir (mirRec fuel opt probe) [] es).1)) p
          = true := hfin
      have h4 := mir_survivor opt probe hd p [] fuel es hne (by
        intro q hq1 hq2
        rw [List.nil_append]
        exact hg q hq1 hq2) hsuc2 hfin2
      rw [List.nil_append] at h4
      exact h4

/-! ### Completeness of the forward pass -/

/-- After a successful fold over a listing, a source path below a
listed entry on a fully non-excluded chain is present in the result. -/
theorem fwd_fold_complete (opt : options) (f : Nat) (rel : List Str)
    (Hvis : ∀ (rel2 : List Str) (t2 : FSTree) (st2 : Option FSTree)
      (q2 : List Str),
      (fwdVisit f opt rel2 t2 st2).err = none →
      shouldExclude (joinSegs rel2) opt.excludes = false →
      (∀ q3, q3 ≠ [] → q3 <+: q2 →
        shouldExclude (joinSegs (rel2 ++ q3)) opt.excludes = false) →
      (lookupTree (some t2) q2).isSome = true →
      memPath (fwdVisit f opt rel2 t2 st2).dst (rel2 ++ q2) = true) :
    ∀ (es : List Entry) (acc : SyncRes) (nx : Str) (tx : FSTree)
      (q' : List Str),
      findEntry es nx = some tx → acc.err = none →
      (es.foldl (fwdStep f opt rel) acc).err = none →
      shouldExclude (joinSegs (rel ++ [nx])) opt.excludes = false →
      (∀ q2, q2 ≠ [] → q2 <+: q' →
        shouldExclude (joinSegs ((rel ++ [nx]) ++ q2)) opt.excludes = false) →
      (lookupTree (some tx) q').isSome = true →
      memPath (es.foldl (fwdStep f opt rel) acc).dst ((rel ++ [nx]) ++ q')
        = true := by
  intro es
  induction es with
  | nil =>
    intro acc nx tx q' hfe
    exact absurd hfe (by simp [findEntry])
  | cons x es' ihes =>
    intro acc nx tx q' hfe hacc hfin hexc hq' hlk
    rcases x with ⟨mx, tmx⟩
    rw [List.foldl_cons] at hfin ⊢
    have hstep : fwdStep f opt rel acc (mx, tmx)
        = ⟨(fwdVisit f opt (rel ++ [mx]) tmx acc.dst).dst,
            acc.copies ++ (fwdVisit f opt (rel ++ [mx]) tmx acc.dst).copies,
            acc.created + (fwdVisit f opt (rel ++ [mx]) tmx acc.dst).created,
            (fwdVisit f opt (rel ++ [mx]) tmx acc.dst).err⟩ := by
      unfold fwdStep fwdStepG fwdRec
      rw [if_neg (by rw [hacc]; simp)]
    have hstep_err : (fwdStep f opt rel acc (mx, tmx)).err = none := by
      by_cases hh : (fwdStep f opt rel acc (mx, tmx)).err.isSome = true
      · rw [fwd_fold_freeze f opt rel es' _ hh] at hfin
        exact hfin
      · rcases h3 : (fwdStep f opt rel acc (mx, tmx)).err with _ | e3
        · rfl
        · rw [h3] at hh
          simp at hh
    have hv_err : (fwdVisit f opt (rel ++ [mx]) tmx acc.dst).err = none := by
      rw [hstep] at hstep_err
      exact hstep_err
    replace hfe : (if mx = nx then some tmx else findEntry es' nx)
        = some tx := hfe
    by_cases hmn : mx = nx
    · subst hmn
      rw [if_pos rfl] at hfe
      injection hfe with hfe
      subst hfe
      have hmem := Hvis (rel ++ [mx]) tmx acc.dst q' hv_err hexc hq' hlk
      refine foldl_inv
        (fun acc2 => memPath acc2.dst ((rel ++ [mx]) ++ q') = true)
        (fwdStep f opt rel) es' ?_ (fwdStep f opt rel acc (mx, tmx)) ?_
      · rintro acc2 e2 _ hacc2
        unfold fwdStep fwdStepG fwdRec
        by_cases herr2 : acc2.err.isSome = true
        · rw [if_pos herr2]
          exact hacc2
        · rw [if_neg herr2]
          show memPath (fwdVisit f opt (rel ++ [e2.1]) e2.2 acc2.dst).dst
            ((rel ++ [mx]) ++ q') = true
          exact fwdVisit_mem_mono opt f (rel ++ [e2.1]) e2.2 acc2.dst _ hacc2
      · rw [hstep]
        exact hmem
    · rw [if_neg hmn] at hfe
      exact ihes (fwdStep f opt rel acc (mx, tmx)) nx tx q' hfe hstep_err
        hfin hexc hq' hlk

/-- After a successful forward visit, every source path below the
visited entry whose chain is free of exclusions is present in the
produced destination. -/
theorem fwdVisit_complete (opt : options) (hdry : opt.dryRun = false) :
    ∀ (fuel : Nat) (rel : List Str) (t : FSTree) (st : Option FSTree)
      (q : List Str),
      (fwdVisit fuel opt rel t st).err = none →
      shouldExclude (joinSegs rel) opt.excludes = false →
      (∀ q2, q2 ≠ [] → q2 <+: q →
        shouldExclude (joinSegs (rel ++ q2)) opt.excludes = false) →
      (lookupTree (some t) q).isSome = true →
      memPath (fwdVisit fuel opt rel t st).dst (rel ++ q) = true := by
  intro fuel
  induction fuel with
  | zero =>
    intro rel t st q herr _ _ _
    rw [show (fwdVisit 0 opt rel t st).err = some .fuelOut from rfl] at herr
    exact absurd herr (by simp)
  | succ f ih =>
    intro rel t st q herr hrel hq hlk
    rcases t with m | es
    · rw [fwdVisit_file f opt rel m st hrel] at herr ⊢
      rcases q with _ | ⟨a, q'⟩
      · rcases syncFile_post rel m st opt hdry herr with ⟨m2, hl2, _⟩
        rw [List.append_nil]
        show (lookupTree (syncFile rel m st opt).dst rel).isSome = true
        rw [hl2]
        rfl
      · rw [show lookupTree (some (FSTree.file m)) (a :: q') = none from rfl]
          at hlk
        exact absurd hlk (by simp)
    · by_cases he : (ensureDir rel st opt).err.isSome = true
      · rw [fwdVisit_dir_err f opt rel es st hrel he] at herr
        rw [herr] at he
        exact absurd he (by simp)
      · have he2 : (ensureDir rel st opt).err = none := by
          rcases h3 : (ensureDir rel st opt).err with _ | e3
          · rfl
          · rw [h3] at he
            simp at he
        rw [fwdVisit_dir f opt rel es st hrel he2] at herr ⊢
        rcases q with _ | ⟨a, q'⟩
        · rw [List.append_nil]
          rcases ensureDir_err_none_post rel st opt hdry he2 rel
            (List.prefix_refl rel) with ⟨ds, hds⟩
          have hpres : ∀ (acc : SyncRes) (e : Entry), e ∈ es →
              (∃ ds2, lookupTree acc.dst rel = some (.dir ds2)) →
              ∃ ds2, lookupTree (fwdStep f opt rel acc e).dst rel
                = some (.dir ds2) := by
            rintro acc e _ ⟨ds2, hds2⟩
            unfold fwdStep fwdStepG fwdRec
            by_cases herr2 : acc.err.isSome = true
            · rw [if_pos herr2]
              exact ⟨ds2, hds2⟩
            · rw [if_neg herr2]
              show ∃ ds3, lookupTree
                  (fwdVisit f opt (rel ++ [e.1]) e.2 acc.dst).dst rel
                = some (.dir ds3)
              exact fwdVisit_dir_pres opt f (rel ++ [e.1]) e.2 acc.dst rel
                ds2 hds2
          rcases foldl_inv
            (fun acc => ∃ ds2, lookupTree acc.dst rel = some (.dir ds2))
            (fwdStep f opt rel) es hpres
            ⟨(ensureDir rel st opt).dst, (ensureDir rel st opt).copies,
              (ensureDir rel st opt).created, none⟩ ⟨ds, hds⟩
            with ⟨ds2, hds2⟩
          show (lookupTree (es.foldl (fwdStep f opt rel)
            ⟨(ensureDir rel st opt).dst, (ensureDir rel st opt).copies,
              (ensureDir rel st opt).created, none⟩).dst rel).isSome = true
          rw [hds2]
          rfl
        · replace hlk : (lookupTree (findEntry es a) q').isSome = true := hlk
          revert hlk
          rcases hfe : findEntry es a with _ | tx
          · intro hlk
            rw [lookup_none] at hlk
            exact absurd hlk (by simp)
          · intro hlk
            have hexc : shouldExclude (joinSegs (rel ++ [a])) opt.excludes
                = false :=
              hq [a] (by simp) (List.cons_prefix_cons.mpr ⟨rfl, List.nil_prefix⟩)
            have hq2 : ∀ q2, q2 ≠ [] → q2 <+: q' →
                shouldExclude (joinSegs ((rel ++ [a]) ++ q2)) opt.excludes
                  = false := by
              intro q2 h1 h2
              have h3 := hq (a :: q2) (by simp)
                (List.cons_prefix_cons.mpr ⟨rfl, h2⟩)
              rw [show rel ++ a :: q2 = (rel ++ [a]) ++ q2 from by simp] at h3
              exact h3
            have h5 := fwd_fold_complete opt f rel ih es
              ⟨(ensureDir rel st opt).dst, (ensureDir rel st opt).copies,
                (ensureDir rel st opt).created, none⟩ a tx q' hfe rfl herr
              hexc hq2 hlk
            rw [show (rel ++ [a]) ++ q' = rel ++ a :: q' from by simp] at h5
            exact h5

/-- After a successful forward pass, every non-excluded source path is
present in the destination. -/
theorem forwardPass_complete (fuel : Nat) (opt : options) (srcE : List Entry)
    (dst : Option FSTree) (p : List Str) (hdry : opt.dryRun = false)
    (herr : (forwardPass fuel opt srcE dst).err = none) (hne : p ≠ [])
    (hex : exclEff p opt.excludes = false)
    (hsrc : memPath (some (.dir srcE)) p = true) :
    memPath (forwardPass fuel opt srcE dst).dst p = true := by
  have hq := exclEff_false_all p opt.excludes hex
  rcases p with _ | ⟨a, q'⟩
  · exact absurd rfl hne
  · replace hsrc : (lookupTree (findEntry srcE a) q').isSome = true := hsrc
    unfold forwardPass at herr ⊢
    by_cases he : (ensureDir [] dst opt).err.isSome = true
    · rw [if_pos he] at herr
      rw [herr] at he
      exact absurd he (by simp)
    · rw [if_neg he] at herr ⊢
      revert hsrc
      rcases hfe : findEntry srcE a with _ | tx
      · intro hsrc
        rw [lookup_none] at hsrc
        exact absurd hsrc (by simp)
      · intro hsrc
        have hexc : shouldExclude (joinSegs (([] : List Str) ++ [a]))
            opt.excludes = false := by
          rw [List.nil_append]
          exact hq [a] (by simp) (List.cons_prefix_cons.mpr ⟨rfl, List.nil_prefix⟩)
        have hq2 : ∀ q2, q2 ≠ [] → q2 <+: q' →
            shouldExclude (joinSegs ((([] : List Str) ++ [a]) ++ q2))
              opt.excludes = false := by
          intro q2 h1 h2
          rw [List.nil_append]
          have h3 := hq (a :: q2) (by simp)
            (List.cons_prefix_cons.mpr ⟨rfl, h2⟩)
          rw [show ([a] : List Str) ++ q2 = a :: q2 from rfl]
          exact h3
        have h5 := fwd_fold_complete opt fuel []
          (fun rel2 t2 st2 q2 => fwdVisit_complete opt hdry fuel rel2 t2 st2 q2)
          srcE
          ⟨(ensureDir [] dst opt).dst, (ensureDir [] dst opt).copies,
            (ensureDir [] dst opt).created, none⟩ a tx q' hfe rfl herr
          hexc hq2 hsrc
        rw [show (([] : List Str) ++ [a]) ++ q' = a :: q' from by simp] at h5
        exact h5

/-! ### Mirror equivalence -/

/-- C1: after a non-dry-run mirror-mode synchronization completes
successfully, a nonempty relative path no prefix of which matches the
exclusion rules is present in the resulting destination tree exactly
when it is present in the source tree: on effectively non-excluded
paths, destination membership and source membership coincide. -/
theorem mirror_equivalence (fuel : Nat) (opt : options) (srcE : List Entry)
    (dst : Option FSTree) (p : List Str)
    (hm : opt.mirror = true) (hd : opt.dryRun = false) (hne : p ≠ [])
    (hex : exclEff p opt.excludes = false)
    (hsuc : (syncDir fuel opt srcE dst).err = none) :
    memPath (syncDir fuel opt srcE dst).dst p
      = memPath (some (.dir srcE)) p := by
  have hfwd_err : (forwardPass fuel opt srcE dst).err = none := by
    by_cases hh : (forwardPass fuel opt srcE dst).err.isSome = true
    · rw [syncDir_fwd_err fuel opt srcE dst hh] at hsuc
      rw [hsuc] at hh
      exact absurd hh (by simp)
    · rcases h3 : (forwardPass fuel opt srcE dst).err with _ | e3
      · rfl
      · rw [h3] at hh
        simp at hh
  rw [syncDir_mirror fuel opt srcE dst hfwd_err hm] at hsuc ⊢
  replace hsuc : (mirrorPass fuel opt (lstatIn srcE)
      (forwardPass fuel opt srcE dst).dst).2 = none := hsuc
  show memPath (mirrorPass fuel opt (lstatIn srcE)
      (forwardPass fuel opt srcE dst).dst).1 p = memPath (some (.dir srcE)) p
  have hexq : ∀ q, q ≠ [] → q <+: p →
      shouldExclude (joinSegs q) opt.excludes = false :=
    exclEff_false_all p opt.excludes hex
  by_cases hsrc : memPath (some (.dir srcE)) p = true
  · rw [hsrc]
    have hok : ∀ q, q ≠ [] → q <+: p →
        shouldExclude (joinSegs q) opt.excludes = true ∨
          lstatIn srcE q = .ok () := by
      intro q hq1 hq2
      right
      exact (lstatIn_spec srcE q).mpr
        (memPath_pre (some (.dir srcE)) p q hq2 hsrc)
    have hD := forwardPass_complete fuel opt srcE dst p hd hfwd_err hne
      hex hsrc
    rw [mirrorPass_mem_ok opt (lstatIn srcE) fuel
      (forwardPass fuel opt srcE dst).dst p hne hok]
    exact hD
  · have hsrc2 : memPath (some (.dir srcE)) p = false := by
      simpa using hsrc
    rw [hsrc2]
    by_cases hfin : memPath (mirrorPass fuel opt (lstatIn srcE)
        (forwardPass fuel opt srcE dst).dst).1 p = true
    · exfalso
      have hprobe := mirrorPass_survivor opt (lstatIn srcE) fuel
        (forwardPass fuel opt srcE dst).dst p hd hne hexq hsuc hfin
      have h6 := (lstatIn_spec srcE p).mp hprobe
      rw [h6] at hsrc2
      exact absurd hsrc2 (by simp)
    · simpa using hfin

/-- The literal reading of C1 fails: with the exclude pattern `*.d`,
the source file `a.d/x` matches no exclusion rule itself, yet after a
successful non-dry mirror run it is absent from the destination,
because the copy pass cut the whole subtree of the glob-excluded
directory `a.d` and the string-prefix rule does not shield `a.d/x`. -/
theorem mirror_equivalence_cex :
    (syncDir 4 ⟨true, true, false, [str "*.d"], false, false⟩
        [(str "a.d", .dir [(str "x", .file ⟨[1], 0⟩)])]
        (some (.dir []))).err = none ∧
    shouldExclude (joinSegs [str "a.d", str "x"]) [str "*.d"] = false ∧
    memPath (some (.dir [(str "a.d", .dir [(str "x", .file ⟨[1], 0⟩)])]))
        [str "a.d", str "x"] = true ∧
    memPath (syncDir 4 ⟨true, true, false, [str "*.d"], false, false⟩
        [(str "a.d", .dir [(str "x", .file ⟨[1], 0⟩)])]
        (some (.dir []))).dst [str "a.d", str "x"] = false :=
  ⟨by decide, by decide, by decide, by decide⟩

theorem mirror_equivalence_witness :
    ([str "a"] : List Str) ≠ [] ∧
    exclEff [str "a"] [] = false ∧
    (syncDir 4 ⟨true, true, false, [], false, false⟩
        [(str "a", .file ⟨[1], 5⟩)]
        (some (.dir [(str "b", .file ⟨[2], 3⟩)]))).err = none ∧
    memPath (syncDir 4 ⟨true, true, false, [], false, false⟩
        [(str "a", .file ⟨[1], 5⟩)]
        (some (.dir [(str "b", .file ⟨[2], 3⟩)]))).dst [str "a"]
      = memPath (some (.dir [(str "a", .file ⟨[1], 5⟩)])) [str "a"] :=
  ⟨by decide, by decide, by decide,
    mirror_equivalence 4 ⟨true, true, false, [], false, false⟩
      [(str "a", .file ⟨[1], 5⟩)]
      (some (.dir [(str "b", .file ⟨[2], 3⟩)])) [str "a"]
      rfl rfl (by decide) (by decide) (by decide)⟩

end Syncdir
